import Mathlib

/-!
Thresholded nearest-neighbour matching (`min_pdist_thresh`).

Two shallow embeddings of `matlab/mex/min_pdist_thresh.cpp`.

The first (`MinPdistThresh.mexFunction` and the functions it calls) is the program in exact
arithmetic:

* `double` values are exact rationals (`ℚ`) and no operation rounds.
* A `double *` is a memory block (`List ℚ`) together with an element offset;
  reads are `getD _ 0`.
* `int` quantities (`nx`, `ny`, `D`, loop counters, `offset`) are naturals; the
  sentinel `std::numeric_limits<int>::max()` is `intMax`. Theorems that need `nx` to be
  a value of type `int` assume `nx ≤ intMax`.
* `std::sqrt` and `quiet_NaN` are kept symbolic in the output cells (`Val`), so a
  distance cell `Val.sqrt d` carries the squared distance `d`.
* The integer remainder `% nx` traps when `nx = 0`; this is the `none` of the
  per-query scan and `MexResult.trap` of the entry point.
* `mexErrMsgTxt` ends the call; this is `MexResult.error`.

The second (`MinPdistThresh.Ieee.mexFunction`) is the same source with the machine
arithmetic made explicit:

* every `double` operation (`-`, `*`, `+`, the product `4*bestdist2`, the squares of the
  thresholds) is followed by a rounding `fl : ℚ → ℚ`; for the machine `fl` is
  `Ieee.roundDouble`, binary64 round-to-nearest-even with gradual underflow. Finite doubles
  are the rationals that `roundDouble` fixes; overflow to infinity, NaN operands and fused
  or extended-precision evaluation are outside the model.
* `nx`, `ny`, `D` are obtained from the `mwSize` dimensions by the `(int)` conversion
  `Ieee.toInt`, and the mixed comparisons `D != dimY[1]`, `nthresh != nx` convert back with
  `Ieee.toSizeT`.

With `fl` the identity and dimensions below `2^31` the second embedding is the first
(`ieee_mexFunction_exact`); with any rounding that is exact on integers up to `2^53`, as
`roundDouble` is, the two agree on inputs whose coordinates and thresholds are small
integers (`ieee_mexFunction_small`). Statements that depend on rounding or on the `(int)`
conversions are made on the second embedding.
-/

namespace MinPdistThresh

/-! ## The program -/

/-- The value of `std::numeric_limits<int>::max()`. -/
def intMax : Nat := 2147483647

/-- Read of `*(p + i)` for a `double *` into the block `mem`. -/
def rd (mem : List ℚ) (i : Nat) : ℚ := mem.getD i 0

/-- Loop of the five-argument `eucldist2`: `n` iterations remain, `px`/`py` are the
current pointers and `dist2` the running sum. -/
def eucldist2Loop (memx memy : List ℚ) (deltapx deltapy : Nat) : Nat → Nat → Nat → ℚ → ℚ
  | 0, _, _, dist2 => dist2
  | n + 1, px, py, dist2 =>
      eucldist2Loop memx memy deltapx deltapy n (px + deltapx) (py + deltapy)
        (dist2 + (rd memx px - rd memy py) * (rd memx px - rd memy py))

/-- Squared Euclidean distance, `eucldist2(px, py, dims, deltapx, deltapy)`. -/
def eucldist2 (memx : List ℚ) (px : Nat) (memy : List ℚ) (py : Nat)
    (dims deltapx deltapy : Nat) : ℚ :=
  eucldist2Loop memx memy deltapx deltapy dims px py 0

/-- Loop of the six-argument `eucldist2`: the loop condition is
`(d < dims) && (dist2 < bestdist2)`. -/
def eucldist2BoundLoop (memx memy : List ℚ) (deltapx deltapy : Nat) (bestdist2 : ℚ) :
    Nat → Nat → Nat → ℚ → ℚ
  | 0, _, _, dist2 => dist2
  | n + 1, px, py, dist2 =>
      if dist2 < bestdist2 then
        eucldist2BoundLoop memx memy deltapx deltapy bestdist2 n (px + deltapx) (py + deltapy)
          (dist2 + (rd memx px - rd memy py) * (rd memx px - rd memy py))
      else dist2

/-- Early-exit squared Euclidean distance,
`eucldist2(px, py, dims, deltapx, deltapy, bestdist2)`. -/
def eucldist2Bound (memx : List ℚ) (px : Nat) (memy : List ℚ) (py : Nat)
    (dims deltapx deltapy : Nat) (bestdist2 : ℚ) : ℚ :=
  eucldist2BoundLoop memx memy deltapx deltapy bestdist2 dims px py 0

/-- Loop of `cityblockdist2`, accumulating `std::abs(*px - *py)`. -/
def cityblockLoop (memx memy : List ℚ) (deltapx deltapy : Nat) : Nat → Nat → Nat → ℚ → ℚ
  | 0, _, _, dist => dist
  | n + 1, px, py, dist =>
      cityblockLoop memx memy deltapx deltapy n (px + deltapx) (py + deltapy)
        (dist + |rd memx px - rd memy py|)

/-- Squared city-block distance, `cityblockdist2(px, py, dims, deltapx, deltapy)`. -/
def cityblockdist2 (memx : List ℚ) (px : Nat) (memy : List ℚ) (py : Nat)
    (dims deltapx deltapy : Nat) : ℚ :=
  let dist := cityblockLoop memx memy deltapx deltapy dims px py 0
  dist * dist

/-- Counted loop `for (i = lo; i < lo + n; i++) s = body i s`: `n` iterations remain and
`i` is the current counter. -/
def forLoop {σ : Type} (body : Nat → σ → σ) : Nat → Nat → σ → σ
  | 0, _, s => s
  | n + 1, i, s => forLoop body n (i + 1) (body i s)

/-- Counted loop whose body may trap (`none`); a trap ends the run. -/
def forLoopM {σ : Type} (body : Nat → σ → Option σ) : Nat → Nat → σ → Option σ
  | 0, _, s => some s
  | n + 1, i, s =>
      match body i s with
      | none => none
      | some s' => forLoopM body n (i + 1) s'

/-- Read of `m[i][j]` in a `std::vector<std::vector<double>>`. -/
def getMat (m : List (List ℚ)) (i j : Nat) : ℚ := (m.getD i []).getD j 0

/-- Write `m[i][j] = v`. -/
def setMat (m : List (List ℚ)) (i j : Nat) (v : ℚ) : List (List ℚ) :=
  m.set i ((m.getD i []).set j v)

/-- First loop over `interdist`: `interdist[xj].resize(nx); interdist[xj][xj] = 0.` on
the freshly constructed `interdist(nx)` (nx empty rows). -/
def interdistInit (nx : Nat) : List (List ℚ) :=
  forLoop (fun xj m => setMat (m.set xj (List.replicate nx 0)) xj xj 0) nx 0
    (List.replicate nx [])

/-- Body of the inner pair loop: `dist2 = eucldist2(pX+xj, pX+xi, D, nx, nx);
interdist[xj][xi] = dist2; interdist[xi][xj] = interdist[xj][xi];`. -/
def interdistPair (pX : List ℚ) (nx D xj xi : Nat) (m : List (List ℚ)) : List (List ℚ) :=
  let dist2 := eucldist2 pX xj pX xi D nx nx
  let m1 := setMat m xj xi dist2
  setMat m1 xi xj (getMat m1 xj xi)

/-- Second loop nest: `for xj in [0,nx)`, `for xi in [xj+1,nx)`. -/
def interdistFill (pX : List ℚ) (nx D : Nat) (m : List (List ℚ)) : List (List ℚ) :=
  forLoop (fun xj m => forLoop (interdistPair pX nx D xj) (nx - (xj + 1)) (xj + 1) m) nx 0 m

/-- The reference distance cache as built by `mexFunction`. -/
def buildInterdist (pX : List ℚ) (nx D : Nat) : List (List ℚ) :=
  interdistFill pX nx D (interdistInit nx)

/-- The pair `(bestxj, bestdist2)` of the per-query scan. -/
structure Best where
  bestxj : Nat
  bestdist2 : ℚ
  deriving DecidableEq, Repr

/-- Initial pair: both variables are set to `std::numeric_limits<int>::max()`. -/
def bestInit : Best := ⟨intMax, (intMax : ℚ)⟩

/-- Body of the candidate loop for counter `xj2`. `none` is the trap of `% nx` at
`nx = 0`; `continue` leaves the pair unchanged. -/
def scanBody (pX pY : List ℚ) (nx ny D : Nat) (interdist : List (List ℚ))
    (dthresh2 : List ℚ) (offset yj : Nat) (xj2 : Nat) (s : Best) : Option Best :=
  if nx = 0 then none
  else
    let xj := (xj2 + offset) % nx
    if s.bestxj < intMax ∧ getMat interdist s.bestxj xj > 4 * s.bestdist2 then some s
    else
      let this_dthreshj := rd dthresh2 xj
      let dist2 := eucldist2Bound pX xj pY yj D nx ny s.bestdist2
      if dist2 > this_dthreshj then some s
      else if dist2 < s.bestdist2 then some ⟨xj, dist2⟩
      else some s

/-- The candidate loop `for (xj2 = 0; xj2 < nx; xj2++)` for query `yj`. -/
def scanQuery (pX pY : List ℚ) (nx ny D : Nat) (interdist : List (List ℚ))
    (dthresh2 : List ℚ) (offset yj : Nat) : Option Best :=
  forLoopM (scanBody pX pY nx ny D interdist dthresh2 offset yj) nx 0 bestInit

/-- A cell of an output matrix: a plain number, `std::sqrt(q)` kept symbolic, or
`quiet_NaN()`. -/
inductive Val
  | num (q : ℚ)
  | sqrt (q : ℚ)
  | nan
  deriving DecidableEq, Repr

/-- State of the query loop: the cursor `offset` and the two output buffers; the
pointers `pMinDists`, `pMinIdxs` sit at element `yj`. -/
structure Out where
  offset : Nat
  minDists : List Val
  minIdxs : List Val
  deriving DecidableEq, Repr

/-- Body of the query loop `for (yj = 0; yj < ny; yj++)`. -/
def queryBody (pX pY : List ℚ) (nx ny D : Nat) (interdist : List (List ℚ))
    (dthresh2 : List ℚ) (yj : Nat) (o : Out) : Option Out :=
  match scanQuery pX pY nx ny D interdist dthresh2 o.offset yj with
  | none => none
  | some b =>
      if b.bestxj < intMax then
        some ⟨b.bestxj, o.minDists.set yj (Val.sqrt b.bestdist2),
          o.minIdxs.set yj (Val.num ((b.bestxj : ℚ) + 1))⟩
      else
        some ⟨o.offset, o.minDists.set yj Val.nan, o.minIdxs.set yj Val.nan⟩

/-- The query loop, started with `offset = 0` on the two zero-filled `ny x 1`
matrices of `mxCreateDoubleMatrix`. -/
def findClosest (pX pY : List ℚ) (nx ny D : Nat) (interdist : List (List ℚ))
    (dthresh2 : List ℚ) : Option Out :=
  forLoopM (queryBody pX pY nx ny D interdist dthresh2) ny 0
    ⟨0, List.replicate ny (Val.num 0), List.replicate ny (Val.num 0)⟩

/-- A MATLAB array as seen by the entry point: `mxGetDimensions` (two entries),
`mxIsDouble`, `mxIsComplex` and the data behind `mxGetPr`. -/
structure MxArray where
  dims0 : Nat
  dims1 : Nat
  isDouble : Bool
  isComplex : Bool
  pr : List ℚ
  deriving DecidableEq, Repr

/-- The element count `mxGetNumberOfElements`. -/
def mxGetNumberOfElements (a : MxArray) : Nat := a.dims0 * a.dims1

/-- The helper `getMexScalar`: `none` is the `false` return, `some out` the `true` one. -/
def getMexScalar (mxarr : MxArray) : Option ℚ :=
  if !mxarr.isDouble || mxarr.isComplex || !(mxarr.dims0 == 1 && mxarr.dims1 == 1) then none
  else some (rd mxarr.pr 0)

/-- Scalar branch: every entry of `dthresh2` receives the squared scalar. -/
def scalarThresh2 (nx : Nat) (dthresh : ℚ) : List ℚ :=
  let dthresh := dthresh * dthresh
  forLoop (fun xj v => v.set xj dthresh) nx 0 (List.replicate nx 0)

/-- Vector branch: entry `xj` receives `(*pThresh) * (*pThresh)`, `pThresh` advancing
with `xj`. -/
def vectorThresh2 (nx : Nat) (pThresh : List ℚ) : List ℚ :=
  forLoop (fun xj v => v.set xj (rd pThresh xj * rd pThresh xj)) nx 0 (List.replicate nx 0)

/-- Outcome of a call: `mexErrMsgTxt` with its message, the integer-division trap, or
normal return with `plhs[0]` and `plhs[1]`. -/
inductive MexResult
  | error (msg : String)
  | trap
  | ok (plhs0 plhs1 : List Val)
  deriving DecidableEq, Repr

/-- Everything after the threshold set-up: outputs, cache, query loop. `plhs[0]` is
`mMinIdxs` and `plhs[1]` is `mMinDists`. -/
def mexCore (pX pY : List ℚ) (nx ny D : Nat) (dthresh2 : List ℚ) : MexResult :=
  match findClosest pX pY nx ny D (buildInterdist pX nx D) dthresh2 with
  | none => MexResult.trap
  | some o => MexResult.ok o.minIdxs o.minDists

/-- The entry point `mexFunction(nlhs, plhs, nrhs, prhs)` with `prhs = {mX, mY, mThresh}`. -/
def mexFunction (nlhs nrhs : Nat) (mX mY mThresh : MxArray) : MexResult :=
  if nrhs ≠ 3 then MexResult.error "Three input argument required."
  else if nlhs ≠ 2 then MexResult.error "Two outputs required."
  else
    let nx := mX.dims0
    let ny := mY.dims0
    let D := mX.dims1
    if D ≠ mY.dims1 then MexResult.error "Different number of arguments"
    else
      let nthresh := mxGetNumberOfElements mThresh
      if nthresh ≠ 1 ∧ nthresh ≠ nx then
        MexResult.error "Threshold must be a scalar, or must have a value for each row in X"
      else if nthresh = 1 then
        match getMexScalar mThresh with
        | none => MexResult.error "Unknown error loading scalar threshold value"
        | some dthresh => mexCore mX.pr mY.pr nx ny D (scalarThresh2 nx dthresh)
      else mexCore mX.pr mY.pr nx ny D (vectorThresh2 nx mThresh.pr)

/-! ## Specification-side notions and proof devices -/

/-- The body of the candidate loop with the pruning block (the `if (bestxj < max)`
test on `interdist`) deleted. -/
def scanBodyNoPrune (pX pY : List ℚ) (nx ny D : Nat)
    (dthresh2 : List ℚ) (offset yj : Nat) (xj2 : Nat) (s : Best) : Option Best :=
  if nx = 0 then none
  else
    let xj := (xj2 + offset) % nx
    let this_dthreshj := rd dthresh2 xj
    let dist2 := eucldist2Bound pX xj pY yj D nx ny s.bestdist2
    if dist2 > this_dthreshj then some s
    else if dist2 < s.bestdist2 then some ⟨xj, dist2⟩
    else some s

/-- The candidate loop without pruning. -/
def scanQueryNoPrune (pX pY : List ℚ) (nx ny D : Nat)
    (dthresh2 : List ℚ) (offset yj : Nat) : Option Best :=
  forLoopM (scanBodyNoPrune pX pY nx ny D dthresh2 offset yj) nx 0 bestInit

/-- The full squared Euclidean distance `Σ_{k<D} (memx[px + k·dpx] - memy[py + k·dpy])²`
between two strided points, written as a sum (not taken from the loops). -/
def fullDist2 (memx : List ℚ) (px : Nat) (memy : List ℚ) (py : Nat)
    (D dpx dpy : Nat) : ℚ :=
  ∑ k in Finset.range D, (rd memx (px + k * dpx) - rd memy (py + k * dpy)) ^ 2

/-- The matrix has `nx` rows of `nx` entries each. -/
def IsSquare (m : List (List ℚ)) (nx : Nat) : Prop :=
  m.length = nx ∧ ∀ i, i < nx → (m.getD i []).length = nx

/-- Cells written so far when the outer counter is `xj` and the inner one is `t`. -/
def filledAt (xj t i j : Nat) : Prop :=
  i ≠ j ∧ (i < xj ∨ j < xj ∨ (i = xj ∧ j < t) ∨ (j = xj ∧ i < t))

instance (xj t i j : Nat) : Decidable (filledAt xj t i j) := by
  unfold filledAt
  infer_instance

/-- One step of the candidate loop expressed with full distances: candidate
`(xj2 + offset) % nx` replaces the current best exactly when its full squared distance is
within its threshold and strictly below `bestdist2`. Used to reason about `scanBody`. -/
def exactStep (pX pY : List ℚ) (nx ny D : Nat) (dthresh2 : List ℚ) (offset yj : Nat)
    (xj2 : Nat) (s : Best) : Best :=
  if fullDist2 pX ((xj2 + offset) % nx) pY yj D nx ny ≤ rd dthresh2 ((xj2 + offset) % nx) ∧
      fullDist2 pX ((xj2 + offset) % nx) pY yj D nx ny < s.bestdist2 then
    ⟨(xj2 + offset) % nx, fullDist2 pX ((xj2 + offset) % nx) pY yj D nx ny⟩
  else s

/-- The candidate loop run with `exactStep`. -/
def exactScan (pX pY : List ℚ) (nx ny D : Nat) (dthresh2 : List ℚ) (offset yj : Nat) : Best :=
  forLoop (exactStep pX pY nx ny D dthresh2 offset yj) nx 0 bestInit

/-- Invariant of the candidate loop after the counters `0 .. k-1`: `bestdist2` never exceeds
its initial value; the pair is either untouched or is the first candidate (in scan order)
attaining the least full squared distance among the eligible candidates seen. -/
def ScanInv (pX pY : List ℚ) (nx ny D : Nat) (dthresh2 : List ℚ) (offset yj : Nat)
    (k : Nat) (s : Best) : Prop :=
  s.bestdist2 ≤ (intMax : ℚ) ∧
  (s = bestInit ∨ ∃ m, m < k ∧ s.bestxj = (m + offset) % nx ∧
      s.bestdist2 = fullDist2 pX ((m + offset) % nx) pY yj D nx ny ∧
      fullDist2 pX ((m + offset) % nx) pY yj D nx ny ≤ rd dthresh2 ((m + offset) % nx) ∧
      fullDist2 pX ((m + offset) % nx) pY yj D nx ny < (intMax : ℚ) ∧
      ∀ m', m' < m →
        fullDist2 pX ((m' + offset) % nx) pY yj D nx ny ≤ rd dthresh2 ((m' + offset) % nx) →
        s.bestdist2 < fullDist2 pX ((m' + offset) % nx) pY yj D nx ny) ∧
  ∀ m, m < k →
    fullDist2 pX ((m + offset) % nx) pY yj D nx ny ≤ rd dthresh2 ((m + offset) % nx) →
    s.bestdist2 ≤ fullDist2 pX ((m + offset) % nx) pY yj D nx ny

/-- The pair `b` solves the thresholded minimum problem given by the full squared distances
`full` and squared thresholds `th` over the references `0 .. nx-1`, below the initial
bound `intMax`. -/
def IsMin (full th : Nat → ℚ) (nx : Nat) (b : Best) : Prop :=
  b.bestdist2 ≤ (intMax : ℚ) ∧
  (b = bestInit ∨ (b.bestxj < nx ∧ b.bestdist2 = full b.bestxj ∧
      full b.bestxj ≤ th b.bestxj ∧ b.bestdist2 < (intMax : ℚ))) ∧
  ∀ xj, xj < nx → full xj ≤ th xj → b.bestdist2 ≤ full xj

/-- Cell written to `pMinDists` for the final pair of a query. -/
def distCell (b : Best) : Val := if b.bestxj < intMax then Val.sqrt b.bestdist2 else Val.nan

/-- Cell written to `pMinIdxs` for the final pair of a query. -/
def idxCell (b : Best) : Val :=
  if b.bestxj < intMax then Val.num ((b.bestxj : ℚ) + 1) else Val.nan

/-- Value of `offset` after a query that ended with the pair `b`. -/
def nextOffset (offset : Nat) (b : Best) : Nat := if b.bestxj < intMax then b.bestxj else offset

/-- Value of `offset` on entry to query `j`. -/
def offsetAt (pX pY : List ℚ) (nx ny D : Nat) (dthresh2 : List ℚ) : Nat → Nat
  | 0 => 0
  | j + 1 =>
      nextOffset (offsetAt pX pY nx ny D dthresh2 j)
        (exactScan pX pY nx ny D dthresh2 (offsetAt pX pY nx ny D dthresh2 j) j)

/-- The squared threshold of reference `i` as passed by the caller: the square of the
scalar, or of entry `i` of the per-reference vector. -/
def thresh2Of (mThresh : MxArray) (i : Nat) : ℚ :=
  if mxGetNumberOfElements mThresh = 1 then rd mThresh.pr 0 * rd mThresh.pr 0
  else rd mThresh.pr i * rd mThresh.pr i

/-- The vector `dthresh2` that the entry point builds from `mThresh`. -/
def dthresh2Of (nx : Nat) (mThresh : MxArray) : List ℚ :=
  if mxGetNumberOfElements mThresh = 1 then scalarThresh2 nx (rd mThresh.pr 0)
  else vectorThresh2 nx mThresh.pr

/-- The call passes every `mexErrMsgTxt` check of the entry point. -/
def ValidCall (nlhs nrhs : Nat) (mX mY mThresh : MxArray) : Prop :=
  nrhs = 3 ∧ nlhs = 2 ∧ mX.dims1 = mY.dims1 ∧
    ((mxGetNumberOfElements mThresh = 1 ∧ mThresh.isDouble = true ∧
        mThresh.isComplex = false) ∨
      (mxGetNumberOfElements mThresh ≠ 1 ∧ mxGetNumberOfElements mThresh = mX.dims0))

instance (nlhs nrhs : Nat) (mX mY mThresh : MxArray) :
    Decidable (ValidCall nlhs nrhs mX mY mThresh) := by
  unfold ValidCall
  infer_instance

/-- One step of the exhaustive scan as the specification words it: compute the full squared
distance of `xj`, apply the threshold test, keep the first strictly smallest eligible
distance; `none` is "no best yet" (distance `+infinity`). -/
def bruteStep (full th : Nat → ℚ) (best : Option (Nat × ℚ)) (xj : Nat) : Option (Nat × ℚ) :=
  if full xj ≤ th xj then
    match best with
    | none => some (xj, full xj)
    | some (i, d) => if full xj < d then some (xj, full xj) else some (i, d)
  else best

/-- The exhaustive unpruned scan over the candidates in the order given. -/
def bruteScan (full th : Nat → ℚ) (order : List Nat) : Option (Nat × ℚ) :=
  order.foldl (bruteStep full th) none

/-- The circular order `offset, offset+1, …, offset+nx-1 (mod nx)`. -/
def circularOrder (nx offset : Nat) : List Nat :=
  (List.range nx).map (fun xj2 => (xj2 + offset) % nx)

/-- Index cell (1-based) of a baseline result. -/
def idxOut : Option (Nat × ℚ) → Val
  | none => Val.nan
  | some (i, _) => Val.num ((i : ℚ) + 1)

/-- Distance cell of a baseline result. -/
def distOut : Option (Nat × ℚ) → Val
  | none => Val.nan
  | some (_, d) => Val.sqrt d

/-- The cursor after a query: the matched index, or the old cursor when unmatched. -/
def offsetAfter (offset : Nat) : Option (Nat × ℚ) → Nat
  | some (i, _) => i
  | none => offset

/-- Warm-start offset of the baseline on entry to query `j`: the index matched by the most
recent matched query, `0` if none. `full j` gives the full squared distances to query `j`. -/
def bruteOffset (full : Nat → Nat → ℚ) (th : Nat → ℚ) (nx : Nat) : Nat → Nat
  | 0 => 0
  | j + 1 =>
      offsetAfter (bruteOffset full th nx j)
        (bruteScan (full j) th (circularOrder nx (bruteOffset full th nx j)))

/-- Statement of the brute-force agreement property for one call: the call returns, and
every query's index and distance cells are those of the exhaustive scan of the references
in the order `0, 1, …, nx-1`. -/
def AgreesWithInOrderScan (nlhs nrhs : Nat) (mX mY mThresh : MxArray) : Prop :=
  ∃ plhs0 plhs1, mexFunction nlhs nrhs mX mY mThresh = MexResult.ok plhs0 plhs1 ∧
    ∀ j, j < mY.dims0 →
      plhs0.getD j Val.nan =
          idxOut (bruteScan (fun xj => fullDist2 mX.pr xj mY.pr j mX.dims1 mX.dims0 mY.dims0)
            (thresh2Of mThresh) (List.range mX.dims0)) ∧
        plhs1.getD j Val.nan =
          distOut (bruteScan (fun xj => fullDist2 mX.pr xj mY.pr j mX.dims1 mX.dims0 mY.dims0)
            (thresh2Of mThresh) (List.range mX.dims0))

/-- Correspondence between the pair of the code and the baseline's optional best. -/
def Corr (nx : Nat) (s : Best) (o : Option (Nat × ℚ)) : Prop :=
  (s = bestInit ∧ o = none) ∨
    (s.bestxj < nx ∧ s.bestdist2 < (intMax : ℚ) ∧ o = some (s.bestxj, s.bestdist2))

/-- The threshold of reference `i` as passed by the caller: the scalar, or entry `i` of
the per-reference vector. -/
def threshOf (mThresh : MxArray) (i : Nat) : ℚ :=
  if mxGetNumberOfElements mThresh = 1 then rd mThresh.pr 0 else rd mThresh.pr i

/-- The `1 x D` query matrix holding only row `j` of `mY`. -/
def singleQuery (mY : MxArray) (j : Nat) : MxArray :=
  ⟨1, mY.dims1, mY.isDouble, mY.isComplex,
    (List.range mY.dims1).map (fun k => rd mY.pr (j + k * mY.dims0))⟩

/-- Statement of offset independence for query `j` of one call: both the whole call and
the call on query `j` alone return, and they report the same index cell and the same
distance cell for that query. -/
def SamePairAsAlone (nlhs nrhs : Nat) (mX mY mThresh : MxArray) (j : Nat) : Prop :=
  ∃ plhs0 plhs1 a0 a1,
    mexFunction nlhs nrhs mX mY mThresh = MexResult.ok plhs0 plhs1 ∧
    mexFunction nlhs nrhs mX (singleQuery mY j) mThresh = MexResult.ok a0 a1 ∧
    plhs0.getD j Val.nan = a0.getD 0 Val.nan ∧ plhs1.getD j Val.nan = a1.getD 0 Val.nan

/-- The threshold argument with every entry replaced by its absolute value. -/
def absThresh (mThresh : MxArray) : MxArray :=
  ⟨mThresh.dims0, mThresh.dims1, mThresh.isDouble, mThresh.isComplex,
    mThresh.pr.map (fun t => |t|)⟩

/-- The pair is untouched, or it names a reference `< nx` together with that reference's
full squared distance to the query, which is within the reference's squared threshold. -/
def Settled (pX pY : List ℚ) (nx ny D : Nat) (dthresh2 : List ℚ) (yj : Nat) (s : Best) : Prop :=
  s = bestInit ∨ (s.bestxj < nx ∧ s.bestdist2 = fullDist2 pX s.bestxj pY yj D nx ny ∧
    s.bestdist2 ≤ rd dthresh2 s.bestxj)

/-! ## The program in IEEE double arithmetic, with the `(int)` conversions

Second embedding of the same source. Every `double` operation is followed by the rounding
`fl` (for the machine: `roundDouble`, binary64 round-to-nearest-even with gradual
underflow; overflow to infinity, NaN operands, fused or extended-precision evaluation are
outside the model), and the dimensions pass through the `(int)` conversions of
`nx = (int)dimX[0]`, `ny = (int)dimY[0]`, `D = (int)dimX[1]`. -/

namespace Ieee

/-- Round to the nearest integer, ties to the even one. -/
def roundHalfEven (x : ℚ) : ℤ :=
  if x - ⌊x⌋ < 1 / 2 then ⌊x⌋
  else if 1 / 2 < x - ⌊x⌋ then ⌊x⌋ + 1
  else if ⌊x⌋ % 2 = 0 then ⌊x⌋
  else ⌊x⌋ + 1

/-- Binary logarithm of a natural number, rounded down (`0` for `n < 2`); the first
argument bounds the number of halvings. -/
def ilog2 : Nat → Nat → Nat
  | 0, _ => 0
  | fuel + 1, n => if 2 ≤ n then ilog2 fuel (n / 2) + 1 else 0

/-- The binary exponent `e` with `2^e ≤ |q| < 2^(e+1)` (for `q ≠ 0`). -/
def binade (q : ℚ) : ℤ :=
  if (2 : ℚ) ^ ((ilog2 q.num.natAbs q.num.natAbs : ℤ) - (ilog2 q.den q.den : ℤ)) ≤ |q| then
    (ilog2 q.num.natAbs q.num.natAbs : ℤ) - (ilog2 q.den q.den : ℤ)
  else (ilog2 q.num.natAbs q.num.natAbs : ℤ) - (ilog2 q.den q.den : ℤ) - 1

/-- Spacing of the binary64 numbers around `q`: 53 significant bits, least exponent
`-1022` (subnormal numbers below it share the spacing `2^-1074`). -/
def ulp (q : ℚ) : ℚ := (2 : ℚ) ^ (max (binade q) (-1022) - 52)

/-- Rounding of a real result to binary64, round-to-nearest-even. -/
def roundDouble (q : ℚ) : ℚ := (roundHalfEven (q / ulp q) : ℚ) * ulp q

/-- The conversion `(int)` of an `mwSize` value: reduction modulo `2^32` into
`[-2^31, 2^31)`. -/
def toInt (n : Nat) : Int :=
  if n % 4294967296 < 2147483648 then ((n % 4294967296 : Nat) : Int)
  else ((n % 4294967296 : Nat) : Int) - 4294967296

/-- The conversion of an `int` to `size_t` in a mixed comparison: reduction modulo `2^64`. -/
def toSizeT (i : Int) : Nat := (i % 18446744073709551616).toNat

/-- Loop of the five-argument `eucldist2`; each of the subtraction, the product and the
sum is rounded. -/
def eucldist2Loop (fl : ℚ → ℚ) (memx memy : List ℚ) (deltapx deltapy : Nat) :
    Nat → Nat → Nat → ℚ → ℚ
  | 0, _, _, dist2 => dist2
  | n + 1, px, py, dist2 =>
      eucldist2Loop fl memx memy deltapx deltapy n (px + deltapx) (py + deltapy)
        (fl (dist2 + fl (fl (rd memx px - rd memy py) * fl (rd memx px - rd memy py))))

/-- Squared Euclidean distance, `eucldist2(px, py, dims, deltapx, deltapy)`. -/
def eucldist2 (fl : ℚ → ℚ) (memx : List ℚ) (px : Nat) (memy : List ℚ) (py : Nat)
    (dims deltapx deltapy : Nat) : ℚ :=
  eucldist2Loop fl memx memy deltapx deltapy dims px py 0

/-- Loop of the six-argument `eucldist2`, condition `(d < dims) && (dist2 < bestdist2)`. -/
def eucldist2BoundLoop (fl : ℚ → ℚ) (memx memy : List ℚ) (deltapx deltapy : Nat)
    (bestdist2 : ℚ) : Nat → Nat → Nat → ℚ → ℚ
  | 0, _, _, dist2 => dist2
  | n + 1, px, py, dist2 =>
      if dist2 < bestdist2 then
        eucldist2BoundLoop fl memx memy deltapx deltapy bestdist2 n (px + deltapx)
          (py + deltapy)
          (fl (dist2 + fl (fl (rd memx px - rd memy py) * fl (rd memx px - rd memy py))))
      else dist2

/-- Early-exit squared Euclidean distance,
`eucldist2(px, py, dims, deltapx, deltapy, bestdist2)`. -/
def eucldist2Bound (fl : ℚ → ℚ) (memx : List ℚ) (px : Nat) (memy : List ℚ) (py : Nat)
    (dims deltapx deltapy : Nat) (bestdist2 : ℚ) : ℚ :=
  eucldist2BoundLoop fl memx memy deltapx deltapy bestdist2 dims px py 0

/-- Body of the inner pair loop of the cache. -/
def interdistPair (fl : ℚ → ℚ) (pX : List ℚ) (nx D xj xi : Nat) (m : List (List ℚ)) :
    List (List ℚ) :=
  let dist2 := eucldist2 fl pX xj pX xi D nx nx
  let m1 := setMat m xj xi dist2
  setMat m1 xi xj (getMat m1 xj xi)

/-- Second loop nest of the cache: `for xj in [0,nx)`, `for xi in [xj+1,nx)`. -/
def interdistFill (fl : ℚ → ℚ) (pX : List ℚ) (nx D : Nat) (m : List (List ℚ)) :
    List (List ℚ) :=
  forLoop (fun xj m => forLoop (interdistPair fl pX nx D xj) (nx - (xj + 1)) (xj + 1) m) nx 0 m

/-- The reference distance cache as built by `mexFunction`. -/
def buildInterdist (fl : ℚ → ℚ) (pX : List ℚ) (nx D : Nat) : List (List ℚ) :=
  interdistFill fl pX nx D (interdistInit nx)

/-- Body of the candidate loop for counter `xj2`; the bound of the prune test is the
rounded product `4*bestdist2`. -/
def scanBody (fl : ℚ → ℚ) (pX pY : List ℚ) (nx ny D : Nat) (interdist : List (List ℚ))
    (dthresh2 : List ℚ) (offset yj : Nat) (xj2 : Nat) (s : Best) : Option Best :=
  if nx = 0 then none
  else
    let xj := (xj2 + offset) % nx
    if s.bestxj < intMax ∧ getMat interdist s.bestxj xj > fl (4 * s.bestdist2) then some s
    else
      let this_dthreshj := rd dthresh2 xj
      let dist2 := eucldist2Bound fl pX xj pY yj D nx ny s.bestdist2
      if dist2 > this_dthreshj then some s
      else if dist2 < s.bestdist2 then some ⟨xj, dist2⟩
      else some s

/-- The candidate loop `for (xj2 = 0; xj2 < nx; xj2++)` for query `yj`. -/
def scanQuery (fl : ℚ → ℚ) (pX pY : List ℚ) (nx ny D : Nat) (interdist : List (List ℚ))
    (dthresh2 : List ℚ) (offset yj : Nat) : Option Best :=
  forLoopM (scanBody fl pX pY nx ny D interdist dthresh2 offset yj) nx 0 bestInit

/-- Body of the query loop `for (yj = 0; yj < ny; yj++)`. -/
def queryBody (fl : ℚ → ℚ) (pX pY : List ℚ) (nx ny D : Nat) (interdist : List (List ℚ))
    (dthresh2 : List ℚ) (yj : Nat) (o : Out) : Option Out :=
  match scanQuery fl pX pY nx ny D interdist dthresh2 o.offset yj with
  | none => none
  | some b =>
      if b.bestxj < intMax then
        some ⟨b.bestxj, o.minDists.set yj (Val.sqrt b.bestdist2),
          o.minIdxs.set yj (Val.num ((b.bestxj : ℚ) + 1))⟩
      else
        some ⟨o.offset, o.minDists.set yj Val.nan, o.minIdxs.set yj Val.nan⟩

/-- The query loop, started with `offset = 0` on the two zero-filled `ny x 1` matrices. -/
def findClosest (fl : ℚ → ℚ) (pX pY : List ℚ) (nx ny D : Nat) (interdist : List (List ℚ))
    (dthresh2 : List ℚ) : Option Out :=
  forLoopM (queryBody fl pX pY nx ny D interdist dthresh2) ny 0
    ⟨0, List.replicate ny (Val.num 0), List.replicate ny (Val.num 0)⟩

/-- Scalar branch: every entry of `dthresh2` receives the rounded square of the scalar. -/
def scalarThresh2 (fl : ℚ → ℚ) (nx : Nat) (dthresh : ℚ) : List ℚ :=
  let dthresh := fl (dthresh * dthresh)
  forLoop (fun xj v => v.set xj dthresh) nx 0 (List.replicate nx 0)

/-- Vector branch: entry `xj` receives the rounded `(*pThresh) * (*pThresh)`. -/
def vectorThresh2 (fl : ℚ → ℚ) (nx : Nat) (pThresh : List ℚ) : List ℚ :=
  forLoop (fun xj v => v.set xj (fl (rd pThresh xj * rd pThresh xj))) nx 0
    (List.replicate nx 0)

/-- Everything after the threshold set-up: outputs, cache, query loop. -/
def mexCore (fl : ℚ → ℚ) (pX pY : List ℚ) (nx ny D : Nat) (dthresh2 : List ℚ) : MexResult :=
  match findClosest fl pX pY nx ny D (buildInterdist fl pX nx D) dthresh2 with
  | none => MexResult.trap
  | some o => MexResult.ok o.minIdxs o.minDists

/-- The entry point with the dimensions as `mwSize` values. `D != dimY[1]` and
`nthresh != nx` compare after conversion of the `int` to `size_t`; a negative `nx` makes
`std::vector<double> dthresh2(nx)` throw and a negative `ny` makes `mxCreateDoubleMatrix`
fail, both ending the call (reported here as errors with a describing text). -/
def mexFunction (fl : ℚ → ℚ) (nlhs nrhs : Nat) (mX mY mThresh : MxArray) : MexResult :=
  if nrhs ≠ 3 then MexResult.error "Three input argument required."
  else if nlhs ≠ 2 then MexResult.error "Two outputs required."
  else
    let nx := toInt mX.dims0
    let ny := toInt mY.dims0
    let D := toInt mX.dims1
    if toSizeT D ≠ mY.dims1 then MexResult.error "Different number of arguments"
    else
      let nthresh := mxGetNumberOfElements mThresh
      if nthresh ≠ 1 ∧ nthresh ≠ toSizeT nx then
        MexResult.error "Threshold must be a scalar, or must have a value for each row in X"
      else if nx < 0 then MexResult.error "std::length_error"
      else if nthresh = 1 then
        match getMexScalar mThresh with
        | none => MexResult.error "Unknown error loading scalar threshold value"
        | some dthresh =>
            if ny < 0 then MexResult.error "mxCreateDoubleMatrix: out of memory"
            else mexCore fl mX.pr mY.pr nx.toNat ny.toNat D.toNat
              (scalarThresh2 fl nx.toNat dthresh)
      else if ny < 0 then MexResult.error "mxCreateDoubleMatrix: out of memory"
      else mexCore fl mX.pr mY.pr nx.toNat ny.toNat D.toNat (vectorThresh2 fl nx.toNat mThresh.pr)

/-! ### Notions used in the statements about the IEEE embedding -/

/-- The vector `dthresh2` that the entry point builds from `mThresh`, with rounded squares. -/
def dthresh2Of (fl : ℚ → ℚ) (nx : Nat) (mThresh : MxArray) : List ℚ :=
  if mxGetNumberOfElements mThresh = 1 then scalarThresh2 fl nx (rd mThresh.pr 0)
  else vectorThresh2 fl nx mThresh.pr

/-- The call passes every check of the entry point and the dimensions of `X` and `Y` are
below `2^31`, so that the `(int)` conversions keep them. -/
def ValidCall (nlhs nrhs : Nat) (mX mY mThresh : MxArray) : Prop :=
  MinPdistThresh.ValidCall nlhs nrhs mX mY mThresh ∧
    mX.dims0 < 2147483648 ∧ mX.dims1 < 2147483648 ∧ mY.dims0 < 2147483648

instance (nlhs nrhs : Nat) (mX mY mThresh : MxArray) :
    Decidable (ValidCall nlhs nrhs mX mY mThresh) := by
  unfold ValidCall
  infer_instance

/-- Properties of a rounding function used below: it is monotone, it leaves its own
results unchanged, and it maps `0` to `0`. -/
structure IsRounding (fl : ℚ → ℚ) : Prop where
  mono : ∀ x y, x ≤ y → fl x ≤ fl y
  idem : ∀ x, fl (fl x) = fl x
  zero : fl 0 = 0

/-- The pair is untouched, or it names a reference `< nx` whose `bestdist2` is within the
stored squared threshold and is a value that the early-exit primitive returned strictly
below the bound `B ≤ intMax` it was called with. -/
def Settled (fl : ℚ → ℚ) (pX pY : List ℚ) (nx ny D : Nat) (dthresh2 : List ℚ) (yj : Nat)
    (s : Best) : Prop :=
  s = bestInit ∨ (s.bestxj < nx ∧ s.bestdist2 ≤ rd dthresh2 s.bestxj ∧
    ∃ B : ℚ, B ≤ (intMax : ℚ) ∧
      s.bestdist2 = eucldist2Bound fl pX s.bestxj pY yj D nx ny B ∧ s.bestdist2 < B)

/-- The rational is a finite binary64 value: rounding leaves it unchanged and its magnitude
is below the overflow threshold `2^1024`. -/
def IsDouble (v : ℚ) : Prop := roundDouble v = v ∧ |v| < 2 ^ 1024

instance (v : ℚ) : Decidable (IsDouble v) := by
  unfold IsDouble
  infer_instance

/-- The binary64 value nearest to `0.1`. -/
def double01 : ℚ := 3602879701896397 / 2 ^ 55

/-- The binary64 value nearest to `0.3`. -/
def double03 : ℚ := 5404319552844595 / 2 ^ 54

/-- The binary64 value nearest to `0.7`. -/
def double07 : ℚ := 3152519739159347 / 2 ^ 52

/-- The binary64 value nearest to `0.8`. -/
def double08 : ℚ := 3602879701896397 / 2 ^ 52

/-- The binary64 value nearest to `0.9`. -/
def double09 : ℚ := 8106479329266893 / 2 ^ 53

/-- The value is an integer of magnitude at most `M`. -/
def IsSmallInt (M : Nat) (v : ℚ) : Prop := v.den = 1 ∧ v.num.natAbs ≤ M

instance (M : Nat) (v : ℚ) : Decidable (IsSmallInt M v) := by
  unfold IsSmallInt
  infer_instance

/-- Every element of the block is an integer of magnitude at most `M`. -/
def SmallInts (M : Nat) (mem : List ℚ) : Prop := ∀ v ∈ mem, IsSmallInt M v

instance (M : Nat) (mem : List ℚ) : Decidable (SmallInts M mem) := by
  unfold SmallInts
  infer_instance

/-- The rounding leaves every integer of magnitude at most `2^53` unchanged. -/
def ExactOnInts (fl : ℚ → ℚ) : Prop :=
  ∀ n : ℤ, |n| ≤ 9007199254740992 → fl (n : ℚ) = (n : ℚ)

/-- The coordinates and the thresholds are integers of magnitude at most `M`, and `M` is
small enough for every sum of `D` squared differences, and four times it, to stay within
`2^53`. -/
def SmallCall (M : Nat) (mX mY mThresh : MxArray) : Prop :=
  SmallInts M mX.pr ∧ SmallInts M mY.pr ∧ SmallInts M mThresh.pr ∧
    16 * (mX.dims1 + 1) * (M * M) ≤ 9007199254740992

instance (M : Nat) (mX mY mThresh : MxArray) : Decidable (SmallCall M mX mY mThresh) := by
  unfold SmallCall
  infer_instance

end Ieee

/-! ## Distance primitives -/

theorem fullDist2_nonneg (memx : List ℚ) (px : Nat) (memy : List ℚ) (py : Nat)
    (D dpx dpy : Nat) : 0 ≤ fullDist2 memx px memy py D dpx dpy :=
  Finset.sum_nonneg (fun _ _ => sq_nonneg _)

theorem fullDist2_succ (memx : List ℚ) (px : Nat) (memy : List ℚ) (py : Nat)
    (n dpx dpy : Nat) :
    fullDist2 memx px memy py (n + 1) dpx dpy =
      (rd memx px - rd memy py) * (rd memx px - rd memy py) +
        fullDist2 memx (px + dpx) memy (py + dpy) n dpx dpy := by
  unfold fullDist2
  rw [Finset.sum_range_succ']
  simp only [Nat.zero_mul, Nat.add_zero]
  rw [add_comm, sq]
  congr 1
  apply Finset.sum_congr rfl
  intro k _
  have h1 : px + (k + 1) * dpx = px + dpx + k * dpx := by ring
  have h2 : py + (k + 1) * dpy = py + dpy + k * dpy := by ring
  rw [h1, h2]

theorem eucldist2Loop_eq (memx memy : List ℚ) (dpx dpy : Nat) (n px py : Nat) (acc : ℚ) :
    eucldist2Loop memx memy dpx dpy n px py acc = acc + fullDist2 memx px memy py n dpx dpy := by
  induction n generalizing px py acc with
  | zero => simp [eucldist2Loop, fullDist2]
  | succ n ih =>
    rw [eucldist2Loop, ih, fullDist2_succ]
    ring

theorem eucldist2_eq_fullDist2 (memx : List ℚ) (px : Nat) (memy : List ℚ) (py : Nat)
    (dims dpx dpy : Nat) :
    eucldist2 memx px memy py dims dpx dpy = fullDist2 memx px memy py dims dpx dpy := by
  rw [eucldist2, eucldist2Loop_eq, zero_add]

theorem eucldist2BoundLoop_spec (memx memy : List ℚ) (dpx dpy : Nat) (B : ℚ)
    (n px py : Nat) (acc : ℚ) :
    eucldist2BoundLoop memx memy dpx dpy B n px py acc ≤
        acc + fullDist2 memx px memy py n dpx dpy ∧
      (eucldist2BoundLoop memx memy dpx dpy B n px py acc < B ↔
        acc + fullDist2 memx px memy py n dpx dpy < B) ∧
      (eucldist2BoundLoop memx memy dpx dpy B n px py acc < B →
        eucldist2BoundLoop memx memy dpx dpy B n px py acc =
          acc + fullDist2 memx px memy py n dpx dpy) := by
  induction n generalizing px py acc with
  | zero => simp [eucldist2BoundLoop, fullDist2]
  | succ n ih =>
    rw [eucldist2BoundLoop, fullDist2_succ]
    by_cases h : acc < B
    · rw [if_pos h, ← add_assoc]
      exact ih _ _ _
    · rw [if_neg h]
      have h0 := fullDist2_nonneg memx (px + dpx) memy (py + dpy) n dpx dpy
      have h1 := mul_self_nonneg (rd memx px - rd memy py)
      have hB : B ≤ acc := not_lt.mp h
      refine ⟨by linarith, ⟨fun hc => absurd hc h, fun hc => ?_⟩, fun hc => absurd hc h⟩
      linarith

theorem eucldist2Bound_le (memx : List ℚ) (px : Nat) (memy : List ℚ) (py : Nat)
    (dims dpx dpy : Nat) (B : ℚ) :
    eucldist2Bound memx px memy py dims dpx dpy B ≤ fullDist2 memx px memy py dims dpx dpy := by
  have h := (eucldist2BoundLoop_spec memx memy dpx dpy B dims px py 0).1
  rwa [zero_add] at h

theorem eucldist2Bound_lt_iff (memx : List ℚ) (px : Nat) (memy : List ℚ) (py : Nat)
    (dims dpx dpy : Nat) (B : ℚ) :
    eucldist2Bound memx px memy py dims dpx dpy B < B ↔
      fullDist2 memx px memy py dims dpx dpy < B := by
  have h := (eucldist2BoundLoop_spec memx memy dpx dpy B dims px py 0).2.1
  rwa [zero_add] at h

theorem eucldist2Bound_eq_of_lt (memx : List ℚ) (px : Nat) (memy : List ℚ) (py : Nat)
    (dims dpx dpy : Nat) (B : ℚ) (h : eucldist2Bound memx px memy py dims dpx dpy B < B) :
    eucldist2Bound memx px memy py dims dpx dpy B =
      fullDist2 memx px memy py dims dpx dpy := by
  have h' := (eucldist2BoundLoop_spec memx memy dpx dpy B dims px py 0).2.2 h
  rwa [zero_add] at h'

/-- Triangle-inequality step behind the pruning test, in squared form: if
`‖a - b‖² > 4‖b - y‖²` then `‖a - y‖² > ‖b - y‖²`. -/
theorem sq_dist_prune (D : Nat) (a b y : Nat → ℚ)
    (h : 4 * ∑ k in Finset.range D, (b k - y k) ^ 2 < ∑ k in Finset.range D, (a k - b k) ^ 2) :
    ∑ k in Finset.range D, (b k - y k) ^ 2 < ∑ k in Finset.range D, (a k - y k) ^ 2 := by
  set P := ∑ k in Finset.range D, (a k - b k) ^ 2 with hP
  set Q := ∑ k in Finset.range D, (b k - y k) ^ 2 with hQ
  set I := ∑ k in Finset.range D, (a k - b k) * (b k - y k) with hI
  have hQ0 : 0 ≤ Q := Finset.sum_nonneg (fun _ _ => sq_nonneg _)
  have hcs : I ^ 2 ≤ P * Q := Finset.sum_mul_sq_le_sq_mul_sq _ _ _
  have hexp : ∑ k in Finset.range D, (a k - y k) ^ 2 = P + Q + 2 * I := by
    rw [hP, hQ, hI, Finset.mul_sum, ← Finset.sum_add_distrib, ← Finset.sum_add_distrib]
    apply Finset.sum_congr rfl
    intro k _
    ring
  rw [hexp]
  have hP0 : 0 < P := by linarith
  have h4 : (2 * I) ^ 2 < P ^ 2 := by nlinarith
  have habs : |2 * I| < |P| := sq_lt_sq.mp h4
  rw [abs_of_pos hP0] at habs
  have := (abs_lt.mp habs).1
  linarith

/-! ## Counted loops -/

theorem forLoop_inv {σ : Type} (body : Nat → σ → σ) (P : Nat → σ → Prop) (n i : Nat) (s : σ)
    (h0 : P i s)
    (hstep : ∀ k t, i ≤ k → k < i + n → P k t → P (k + 1) (body k t)) :
    P (i + n) (forLoop body n i s) := by
  induction n generalizing i s with
  | zero => simpa [forLoop] using h0
  | succ n ih =>
    rw [forLoop]
    have h1 : P (i + 1) (body i s) := hstep i s (le_refl _) (by omega) h0
    have := ih (i + 1) (body i s) h1 (fun k t hk hk' hP => hstep k t (by omega) (by omega) hP)
    have e : i + (n + 1) = i + 1 + n := by omega
    rw [e]
    exact this

theorem forLoopM_inv {σ : Type} (body : Nat → σ → Option σ) (P : Nat → σ → Prop)
    (n i : Nat) (s : σ) (h0 : P i s)
    (hstep : ∀ k t, i ≤ k → k < i + n → P k t → ∃ t', body k t = some t' ∧ P (k + 1) t') :
    ∃ r, forLoopM body n i s = some r ∧ P (i + n) r := by
  induction n generalizing i s with
  | zero => exact ⟨s, by simp [forLoopM], by simpa using h0⟩
  | succ n ih =>
    obtain ⟨t', ht', hP'⟩ := hstep i s (le_refl _) (by omega) h0
    obtain ⟨r, hr, hPr⟩ :=
      ih (i + 1) t' hP' (fun k t hk hk' hP => hstep k t (by omega) (by omega) hP)
    refine ⟨r, ?_, ?_⟩
    · rw [forLoopM, ht']
      exact hr
    · have e : i + (n + 1) = i + 1 + n := by omega
      rw [e]
      exact hPr

/-! ## The reference distance cache -/

theorem getD_set_rows (m : List (List ℚ)) (i a : Nat) (r : List ℚ) (hi : i < m.length) :
    (m.set i r).getD a [] = if a = i then r else m.getD a [] := by
  simp only [List.getD_eq_getElem?_getD, List.getElem?_set]
  by_cases h : i = a
  · subst h
    simp [hi]
  · have h' : ¬ a = i := fun e => h e.symm
    simp [h, h']

theorem getD_set_entries (r : List ℚ) (j b : Nat) (v : ℚ) (hj : j < r.length) :
    (r.set j v).getD b 0 = if b = j then v else r.getD b 0 := by
  simp only [List.getD_eq_getElem?_getD, List.getElem?_set]
  by_cases h : j = b
  · subst h
    simp [hj]
  · have h' : ¬ b = j := fun e => h e.symm
    simp [h, h']

theorem getMat_setMat (m : List (List ℚ)) (nx i j a b : Nat) (v : ℚ)
    (hm : IsSquare m nx) (hi : i < nx) (hj : j < nx) :
    getMat (setMat m i j v) a b = if a = i ∧ b = j then v else getMat m a b := by
  unfold getMat setMat
  rw [getD_set_rows m i a _ (by rw [hm.1]; exact hi)]
  by_cases ha : a = i
  · subst ha
    rw [if_pos rfl, getD_set_entries _ j b v (by rw [hm.2 a hi]; exact hj)]
    by_cases hb : b = j <;> simp [hb]
  · simp [ha]

theorem isSquare_setMat (m : List (List ℚ)) (nx i j : Nat) (v : ℚ)
    (hm : IsSquare m nx) : IsSquare (setMat m i j v) nx := by
  refine ⟨by simp [setMat, hm.1], fun a ha => ?_⟩
  unfold setMat
  by_cases hi : i < m.length
  · rw [getD_set_rows m i a _ hi]
    by_cases h : a = i
    · subst h
      rw [if_pos rfl, List.length_set]
      exact hm.2 a ha
    · rw [if_neg h]
      exact hm.2 a ha
  · rw [List.set_eq_of_length_le (by omega)]
    exact hm.2 a ha

theorem interdistInit_spec (nx : Nat) :
    IsSquare (interdistInit nx) nx ∧ ∀ i j, getMat (interdistInit nx) i j = 0 := by
  have h := forLoop_inv (fun xj m => setMat (m.set xj (List.replicate nx 0)) xj xj 0)
    (fun k m => m.length = nx ∧ (∀ i, i < k → (m.getD i []).length = nx) ∧
      ∀ i j, getMat m i j = 0) nx 0 (List.replicate nx [])
    (by
      refine ⟨by simp, fun i hi => absurd hi (Nat.not_lt_zero _), fun i j => ?_⟩
      simp only [getMat, List.getD_eq_getElem?_getD, List.getElem?_replicate]
      split_ifs <;> simp)
    (by
      intro k t _ hk ⟨hlen, hrows, hzero⟩
      have hk' : k < nx := by omega
      have hrow : ∀ a, ((t.set k (List.replicate nx 0)).set k
          (((t.set k (List.replicate nx 0)).getD k []).set k 0)).getD a [] =
          if a = k then (List.replicate nx (0 : ℚ)).set k 0 else t.getD a [] := by
        intro a
        rw [getD_set_rows _ k a _ (by simp [hlen, hk']),
          getD_set_rows t k k _ (by simp [hlen, hk']), if_pos rfl,
          getD_set_rows t k a _ (by simp [hlen, hk'])]
        by_cases h : a = k <;> simp [h]
      refine ⟨by simp [setMat, hlen], fun i hi => ?_, fun i j => ?_⟩
      · unfold setMat
        rw [hrow]
        by_cases h : i = k
        · simp [h]
        · rw [if_neg h]
          exact hrows i (by omega)
      · have hz := hzero i j
        unfold getMat at hz ⊢
        unfold setMat
        rw [hrow]
        by_cases h : i = k
        · rw [if_pos h]
          simp only [List.getD_eq_getElem?_getD, List.getElem?_set, List.getElem?_replicate]
          split_ifs <;> simp
        · rw [if_neg h]
          exact hz)
  simp only [Nat.zero_add] at h
  exact ⟨⟨h.1, h.2.1⟩, h.2.2⟩

theorem fullDist2_symm (mem : List ℚ) (i j D n : Nat) :
    fullDist2 mem i mem j D n n = fullDist2 mem j mem i D n n := by
  unfold fullDist2
  apply Finset.sum_congr rfl
  intro k _
  ring

theorem fullDist2_self (mem : List ℚ) (i D n : Nat) : fullDist2 mem i mem i D n n = 0 := by
  simp [fullDist2]

theorem interdistPair_spec (pX : List ℚ) (nx D xj t : Nat) (m : List (List ℚ))
    (hxj : xj < t) (ht : t < nx) (hm : IsSquare m nx)
    (hent : ∀ i j, i < nx → j < nx →
      getMat m i j = if filledAt xj t i j then fullDist2 pX i pX j D nx nx else 0) :
    IsSquare (interdistPair pX nx D xj t m) nx ∧
      ∀ i j, i < nx → j < nx → getMat (interdistPair pX nx D xj t m) i j =
        if filledAt xj (t + 1) i j then fullDist2 pX i pX j D nx nx else 0 := by
  have hxj' : xj < nx := by omega
  have hm1 : IsSquare (setMat m xj t (eucldist2 pX xj pX t D nx nx)) nx :=
    isSquare_setMat m nx xj t _ hm
  refine ⟨isSquare_setMat _ nx t xj _ hm1, fun i j hi hj => ?_⟩
  unfold interdistPair
  simp only []
  have e1 : getMat (setMat m xj t (eucldist2 pX xj pX t D nx nx)) xj t =
      fullDist2 pX xj pX t D nx nx := by
    rw [getMat_setMat m nx xj t xj t _ hm hxj' ht, eucldist2_eq_fullDist2]
    simp
  rw [getMat_setMat _ nx t xj i j _ hm1 ht hxj', e1,
    getMat_setMat m nx xj t i j _ hm hxj' ht, eucldist2_eq_fullDist2, hent i j hi hj]
  by_cases h1 : i = t ∧ j = xj
  · obtain ⟨rfl, rfl⟩ := h1
    rw [if_pos ⟨rfl, rfl⟩, if_pos (by unfold filledAt; omega), fullDist2_symm]
  · rw [if_neg h1]
    by_cases h2 : i = xj ∧ j = t
    · obtain ⟨rfl, rfl⟩ := h2
      rw [if_pos ⟨rfl, rfl⟩, if_pos (by unfold filledAt; omega)]
    · rw [if_neg h2]
      have e : filledAt xj (t + 1) i j ↔ filledAt xj t i j := by
        unfold filledAt
        omega
      simp only [e]

theorem buildInterdist_spec (pX : List ℚ) (nx D : Nat) :
    IsSquare (buildInterdist pX nx D) nx ∧
      ∀ i j, i < nx → j < nx →
        getMat (buildInterdist pX nx D) i j = fullDist2 pX i pX j D nx nx := by
  obtain ⟨hsq, hz⟩ := interdistInit_spec nx
  have h := forLoop_inv
    (fun xj m => forLoop (interdistPair pX nx D xj) (nx - (xj + 1)) (xj + 1) m)
    (fun k m => IsSquare m nx ∧ ∀ i j, i < nx → j < nx →
      getMat m i j = if filledAt k (k + 1) i j then fullDist2 pX i pX j D nx nx else 0)
    nx 0 (interdistInit nx)
    (by
      refine ⟨hsq, fun i j _ _ => ?_⟩
      rw [hz, if_neg (by unfold filledAt; omega)])
    (by
      intro k m _ hk ⟨hmsq, hment⟩
      have hk' : k < nx := by omega
      have hin := forLoop_inv (interdistPair pX nx D k)
        (fun t m => IsSquare m nx ∧ ∀ i j, i < nx → j < nx →
          getMat m i j = if filledAt k t i j then fullDist2 pX i pX j D nx nx else 0)
        (nx - (k + 1)) (k + 1) m ⟨hmsq, hment⟩
        (by
          intro t m' ht1 ht2 ⟨hsq', hent'⟩
          exact interdistPair_spec pX nx D k t m' (by omega) (by omega) hsq' hent')
      have e : k + 1 + (nx - (k + 1)) = nx := by omega
      rw [e] at hin
      refine ⟨hin.1, fun i j hi hj => ?_⟩
      rw [hin.2 i j hi hj]
      have e2 : filledAt (k + 1) (k + 1 + 1) i j ↔ filledAt k nx i j := by
        unfold filledAt
        omega
      simp only [e2])
  rw [Nat.zero_add] at h
  refine ⟨h.1, fun i j hi hj => ?_⟩
  have h2 := h.2 i j hi hj
  unfold buildInterdist interdistFill
  rw [h2]
  by_cases hf : filledAt nx (nx + 1) i j
  · rw [if_pos hf]
  · rw [if_neg hf]
    have : i = j := by
      unfold filledAt at hf
      omega
    rw [this, fullDist2_self]

/-! ## The per-query scan -/

theorem scanBodyNoPrune_eq (pX pY : List ℚ) (nx ny D : Nat) (dthresh2 : List ℚ)
    (offset yj xj2 : Nat) (s : Best) (hnx : nx ≠ 0) :
    scanBodyNoPrune pX pY nx ny D dthresh2 offset yj xj2 s =
      some (exactStep pX pY nx ny D dthresh2 offset yj xj2 s) := by
  unfold scanBodyNoPrune exactStep
  rw [if_neg hnx]
  simp only []
  have hle := eucldist2Bound_le pX ((xj2 + offset) % nx) pY yj D nx ny s.bestdist2
  have hiff := eucldist2Bound_lt_iff pX ((xj2 + offset) % nx) pY yj D nx ny s.bestdist2
  have heq := eucldist2Bound_eq_of_lt pX ((xj2 + offset) % nx) pY yj D nx ny s.bestdist2
  by_cases h1 : eucldist2Bound pX ((xj2 + offset) % nx) pY yj D nx ny s.bestdist2 >
      rd dthresh2 ((xj2 + offset) % nx)
  · rw [if_pos h1, if_neg]
    intro hc
    have := hc.1
    have h1' : rd dthresh2 ((xj2 + offset) % nx) <
      eucldist2Bound pX ((xj2 + offset) % nx) pY yj D nx ny s.bestdist2 := h1
    linarith
  · rw [if_neg h1]
    by_cases h2 : eucldist2Bound pX ((xj2 + offset) % nx) pY yj D nx ny s.bestdist2 < s.bestdist2
    · rw [if_pos h2, if_pos]
      · rw [heq h2]
      · rw [← heq h2]
        exact ⟨not_lt.mp h1, h2⟩
    · rw [if_neg h2, if_neg]
      intro hc
      exact h2 (hiff.mpr hc.2)

theorem scanBody_eq (pX pY : List ℚ) (nx ny D : Nat) (interdist : List (List ℚ))
    (dthresh2 : List ℚ) (offset yj xj2 : Nat) (s : Best) (hnx : nx ≠ 0)
    (hcache : ∀ i j, i < nx → j < nx → getMat interdist i j = fullDist2 pX i pX j D nx nx)
    (hs : s.bestxj < intMax →
      s.bestxj < nx ∧ s.bestdist2 = fullDist2 pX s.bestxj pY yj D nx ny) :
    scanBody pX pY nx ny D interdist dthresh2 offset yj xj2 s =
      some (exactStep pX pY nx ny D dthresh2 offset yj xj2 s) := by
  have hxj : (xj2 + offset) % nx < nx := Nat.mod_lt _ (Nat.pos_of_ne_zero hnx)
  by_cases hp : s.bestxj < intMax ∧
      getMat interdist s.bestxj ((xj2 + offset) % nx) > 4 * s.bestdist2
  · have hb := hs hp.1
    have hlt : 4 * s.bestdist2 < getMat interdist s.bestxj ((xj2 + offset) % nx) := hp.2
    rw [hcache _ _ hb.1 hxj, fullDist2_symm, hb.2] at hlt
    have hprune := sq_dist_prune D (fun k => rd pX ((xj2 + offset) % nx + k * nx))
      (fun k => rd pX (s.bestxj + k * nx)) (fun k => rd pY (yj + k * ny)) hlt
    have hgt : s.bestdist2 < fullDist2 pX ((xj2 + offset) % nx) pY yj D nx ny := by
      rw [hb.2]
      exact hprune
    unfold scanBody exactStep
    rw [if_neg hnx]
    simp only []
    rw [if_pos hp, if_neg]
    intro hc
    linarith [hc.2]
  · have h := scanBodyNoPrune_eq pX pY nx ny D dthresh2 offset yj xj2 s hnx
    unfold scanBodyNoPrune at h
    unfold scanBody
    rw [if_neg hnx] at h ⊢
    simp only [] at h ⊢
    rw [if_neg hp]
    exact h

theorem forLoopM_eq_forLoop {σ : Type} (body : Nat → σ → Option σ) (step : Nat → σ → σ)
    (P : Nat → σ → Prop) (n i : Nat) (s : σ) (h0 : P i s)
    (hstep : ∀ k t, i ≤ k → k < i + n → P k t →
      body k t = some (step k t) ∧ P (k + 1) (step k t)) :
    forLoopM body n i s = some (forLoop step n i s) := by
  induction n generalizing i s with
  | zero => simp [forLoopM, forLoop]
  | succ n ih =>
    obtain ⟨hb, hP⟩ := hstep i s (le_refl _) (by omega) h0
    rw [forLoopM, hb, forLoop]
    exact ih (i + 1) (step i s) hP (fun k t hk hk' hPk => hstep k t (by omega) (by omega) hPk)

theorem scanInv_init (pX pY : List ℚ) (nx ny D : Nat) (dthresh2 : List ℚ) (offset yj : Nat) :
    ScanInv pX pY nx ny D dthresh2 offset yj 0 bestInit :=
  ⟨le_refl _, Or.inl rfl, fun _ hm => absurd hm (Nat.not_lt_zero _)⟩

theorem exactStep_inv (pX pY : List ℚ) (nx ny D : Nat) (dthresh2 : List ℚ) (offset yj : Nat)
    (k : Nat) (s : Best) (h : ScanInv pX pY nx ny D dthresh2 offset yj k s) :
    ScanInv pX pY nx ny D dthresh2 offset yj (k + 1)
      (exactStep pX pY nx ny D dthresh2 offset yj k s) := by
  obtain ⟨hle, hset, hmin⟩ := h
  unfold exactStep
  by_cases hc : fullDist2 pX ((k + offset) % nx) pY yj D nx ny ≤ rd dthresh2 ((k + offset) % nx) ∧
      fullDist2 pX ((k + offset) % nx) pY yj D nx ny < s.bestdist2
  · rw [if_pos hc]
    refine ⟨by simp only []; linarith [hc.2], Or.inr ⟨k, Nat.lt_succ_self k, rfl, rfl, hc.1,
      by linarith [hc.2], fun m' hm' he => ?_⟩, fun m hm he => ?_⟩
    · simp only []
      linarith [hc.2, hmin m' hm' he]
    · simp only []
      rcases Nat.lt_succ_iff_lt_or_eq.mp hm with h1 | h1
      · linarith [hc.2, hmin m h1 he]
      · rw [h1]
  · rw [if_neg hc]
    refine ⟨hle, ?_, fun m hm he => ?_⟩
    · rcases hset with h0 | ⟨m, hm, h1, h2, h3, h4, h5⟩
      · exact Or.inl h0
      · exact Or.inr ⟨m, Nat.lt_succ_of_lt hm, h1, h2, h3, h4, h5⟩
    · rcases Nat.lt_succ_iff_lt_or_eq.mp hm with h1 | h1
      · exact hmin m h1 he
      · rw [h1] at he ⊢
        by_contra hcon
        exact hc ⟨he, not_le.mp hcon⟩

theorem scanInv_setOk (pX pY : List ℚ) (nx ny D : Nat) (dthresh2 : List ℚ) (offset yj : Nat)
    (k : Nat) (s : Best) (hnx : nx ≠ 0) (h : ScanInv pX pY nx ny D dthresh2 offset yj k s)
    (hb : s.bestxj < intMax) :
    s.bestxj < nx ∧ s.bestdist2 = fullDist2 pX s.bestxj pY yj D nx ny := by
  rcases h.2.1 with h0 | ⟨m, _, h1, h2, _⟩
  · rw [h0] at hb
    exact absurd hb (lt_irrefl _)
  · rw [h1]
    exact ⟨Nat.mod_lt _ (Nat.pos_of_ne_zero hnx), h2⟩

theorem exactScan_inv (pX pY : List ℚ) (nx ny D : Nat) (dthresh2 : List ℚ) (offset yj : Nat) :
    ScanInv pX pY nx ny D dthresh2 offset yj nx (exactScan pX pY nx ny D dthresh2 offset yj) := by
  have h := forLoop_inv (exactStep pX pY nx ny D dthresh2 offset yj)
    (ScanInv pX pY nx ny D dthresh2 offset yj) nx 0 bestInit
    (scanInv_init pX pY nx ny D dthresh2 offset yj)
    (fun k t _ _ hP => exactStep_inv pX pY nx ny D dthresh2 offset yj k t hP)
  rwa [Nat.zero_add] at h

theorem scanQuery_eq_exactScan (pX pY : List ℚ) (nx ny D : Nat) (interdist : List (List ℚ))
    (dthresh2 : List ℚ) (offset yj : Nat)
    (hcache : ∀ i j, i < nx → j < nx → getMat interdist i j = fullDist2 pX i pX j D nx nx) :
    scanQuery pX pY nx ny D interdist dthresh2 offset yj =
      some (exactScan pX pY nx ny D dthresh2 offset yj) := by
  unfold scanQuery exactScan
  apply forLoopM_eq_forLoop _ _ (ScanInv pX pY nx ny D dthresh2 offset yj) nx 0 bestInit
    (scanInv_init pX pY nx ny D dthresh2 offset yj)
  intro k t _ hk hP
  have hnx : nx ≠ 0 := by omega
  exact ⟨scanBody_eq pX pY nx ny D interdist dthresh2 offset yj k t hnx hcache
    (scanInv_setOk pX pY nx ny D dthresh2 offset yj k t hnx hP),
    exactStep_inv pX pY nx ny D dthresh2 offset yj k t hP⟩

theorem scanQueryNoPrune_eq_exactScan (pX pY : List ℚ) (nx ny D : Nat)
    (dthresh2 : List ℚ) (offset yj : Nat) :
    scanQueryNoPrune pX pY nx ny D dthresh2 offset yj =
      some (exactScan pX pY nx ny D dthresh2 offset yj) := by
  unfold scanQueryNoPrune exactScan
  apply forLoopM_eq_forLoop _ _ (fun _ _ => True) nx 0 bestInit trivial
  intro k t _ hk _
  exact ⟨scanBodyNoPrune_eq pX pY nx ny D dthresh2 offset yj k t (by omega), trivial⟩

theorem circular_covers (nx offset xj : Nat) (hxj : xj < nx) :
    ∃ m, m < nx ∧ (m + offset) % nx = xj := by
  have hpos : 0 < nx := by omega
  refine ⟨(xj + (nx - offset % nx)) % nx, Nat.mod_lt _ hpos, ?_⟩
  rw [Nat.mod_add_mod]
  have hr : offset % nx < nx := Nat.mod_lt _ hpos
  have hd : nx * (offset / nx) + offset % nx = offset := Nat.div_add_mod offset nx
  have e : xj + (nx - offset % nx) + offset = xj + nx * (offset / nx + 1) := by
    rw [Nat.mul_succ]
    omega
  rw [e, Nat.add_mul_mod_self_left, Nat.mod_eq_of_lt hxj]

theorem exactScan_isMin (pX pY : List ℚ) (nx ny D : Nat) (dthresh2 : List ℚ)
    (offset yj : Nat) :
    IsMin (fun xj => fullDist2 pX xj pY yj D nx ny) (rd dthresh2) nx
      (exactScan pX pY nx ny D dthresh2 offset yj) := by
  obtain ⟨h1, h2, h3⟩ := exactScan_inv pX pY nx ny D dthresh2 offset yj
  refine ⟨h1, ?_, fun xj hxj he => ?_⟩
  · rcases h2 with h0 | ⟨m, hm, e1, e2, e3, e4, _⟩
    · exact Or.inl h0
    · refine Or.inr ⟨?_, ?_, ?_, ?_⟩
      · rw [e1]
        exact Nat.mod_lt _ (by omega)
      · simp only [e1]
        exact e2
      · simp only [e1]
        exact e3
      · rw [e2]
        exact e4
  · obtain ⟨m, hm, rfl⟩ := circular_covers nx offset xj hxj
    exact h3 m hm he

theorem isMin_set_iff (full th : Nat → ℚ) (nx : Nat) (b : Best) (hnx : nx ≤ intMax)
    (h : IsMin full th nx b) : b.bestxj < intMax ↔ b ≠ bestInit := by
  constructor
  · intro hb e
    rw [e] at hb
    exact absurd hb (lt_irrefl _)
  · intro hne
    rcases h.2.1 with h0 | ⟨h1, _⟩
    · exact absurd h0 hne
    · omega

theorem isMin_unique (full th full' th' : Nat → ℚ) (nx : Nat) (b b' : Best) (p : Nat → Nat)
    (hp : ∀ i, i < nx → p i < nx ∧ full' i = full (p i) ∧ th' i = th (p i))
    (hsurj : ∀ i, i < nx → ∃ i', i' < nx ∧ p i' = i)
    (h : IsMin full th nx b) (h' : IsMin full' th' nx b') :
    b.bestdist2 = b'.bestdist2 ∧ (b = bestInit ↔ b' = bestInit) := by
  obtain ⟨_, hset, hmin⟩ := h
  obtain ⟨_, hset', hmin'⟩ := h'
  rcases hset with h0 | ⟨hi, hd, he, hlt⟩ <;> rcases hset' with h0' | ⟨hi', hd', he', hlt'⟩
  · rw [h0, h0']
    simp
  · exfalso
    obtain ⟨q1, q2, q3⟩ := hp _ hi'
    have := hmin _ q1 (by rw [← q2, ← q3]; exact he')
    rw [h0, ← q2, ← hd'] at this
    have e : bestInit.bestdist2 = (intMax : ℚ) := rfl
    rw [e] at this
    linarith
  · exfalso
    obtain ⟨i', hi', hpi⟩ := hsurj _ hi
    obtain ⟨_, q2, q3⟩ := hp _ hi'
    have := hmin' _ hi' (by rw [q2, q3, hpi]; exact he)
    rw [h0', q2, hpi, ← hd] at this
    have e : bestInit.bestdist2 = (intMax : ℚ) := rfl
    rw [e] at this
    linarith
  · have hne : b ≠ bestInit := by
      intro e
      rw [e] at hlt
      exact lt_irrefl _ hlt
    have hne' : b' ≠ bestInit := by
      intro e
      rw [e] at hlt'
      exact lt_irrefl _ hlt'
    refine ⟨le_antisymm ?_ ?_, ⟨fun e => absurd e hne, fun e => absurd e hne'⟩⟩
    · obtain ⟨q1, q2, q3⟩ := hp _ hi'
      have := hmin _ q1 (by rw [← q2, ← q3]; exact he')
      rw [← q2, ← hd'] at this
      exact this
    · obtain ⟨i', hi'', hpi⟩ := hsurj _ hi
      obtain ⟨_, q2, q3⟩ := hp _ hi''
      have := hmin' _ hi'' (by rw [q2, q3, hpi]; exact he)
      rw [q2, hpi, ← hd] at this
      exact this

/-! ## The query loop and the entry point -/

theorem getD_set_eq {α : Type} (l : List α) (i j : Nat) (v d : α) (hi : i < l.length) :
    (l.set i v).getD j d = if j = i then v else l.getD j d := by
  simp only [List.getD_eq_getElem?_getD, List.getElem?_set]
  by_cases h : i = j
  · subst h
    simp [hi]
  · have h' : ¬ j = i := fun e => h e.symm
    simp [h, h']

theorem queryBody_eq (pX pY : List ℚ) (nx ny D : Nat) (interdist : List (List ℚ))
    (dthresh2 : List ℚ) (yj : Nat) (o : Out)
    (hcache : ∀ i j, i < nx → j < nx → getMat interdist i j = fullDist2 pX i pX j D nx nx) :
    queryBody pX pY nx ny D interdist dthresh2 yj o =
      some ⟨nextOffset o.offset (exactScan pX pY nx ny D dthresh2 o.offset yj),
        o.minDists.set yj (distCell (exactScan pX pY nx ny D dthresh2 o.offset yj)),
        o.minIdxs.set yj (idxCell (exactScan pX pY nx ny D dthresh2 o.offset yj))⟩ := by
  unfold queryBody
  rw [scanQuery_eq_exactScan pX pY nx ny D interdist dthresh2 o.offset yj hcache]
  simp only [nextOffset, distCell, idxCell]
  split_ifs <;> rfl

theorem findClosest_spec (pX pY : List ℚ) (nx ny D : Nat) (interdist : List (List ℚ))
    (dthresh2 : List ℚ)
    (hcache : ∀ i j, i < nx → j < nx → getMat interdist i j = fullDist2 pX i pX j D nx nx) :
    ∃ o, findClosest pX pY nx ny D interdist dthresh2 = some o ∧
      o.minDists.length = ny ∧ o.minIdxs.length = ny ∧
      ∀ j, j < ny →
        o.minIdxs.getD j Val.nan =
            idxCell (exactScan pX pY nx ny D dthresh2 (offsetAt pX pY nx ny D dthresh2 j) j) ∧
          o.minDists.getD j Val.nan =
            distCell (exactScan pX pY nx ny D dthresh2 (offsetAt pX pY nx ny D dthresh2 j) j) := by
  have h := forLoopM_inv (queryBody pX pY nx ny D interdist dthresh2)
    (fun k o => o.offset = offsetAt pX pY nx ny D dthresh2 k ∧
      o.minDists.length = ny ∧ o.minIdxs.length = ny ∧
      ∀ j, j < k →
        o.minIdxs.getD j Val.nan =
            idxCell (exactScan pX pY nx ny D dthresh2 (offsetAt pX pY nx ny D dthresh2 j) j) ∧
          o.minDists.getD j Val.nan =
            distCell (exactScan pX pY nx ny D dthresh2 (offsetAt pX pY nx ny D dthresh2 j) j))
    ny 0 ⟨0, List.replicate ny (Val.num 0), List.replicate ny (Val.num 0)⟩
    ⟨rfl, by simp, by simp, fun j hj => absurd hj (Nat.not_lt_zero _)⟩
    (by
      intro k o _ hk ⟨hoff, hl1, hl2, hcells⟩
      have hk' : k < ny := by omega
      refine ⟨_, queryBody_eq pX pY nx ny D interdist dthresh2 k o hcache, ?_, ?_, ?_, ?_⟩
      · simp only [hoff]
        rfl
      · simp [hl1]
      · simp [hl2]
      · intro j hj
        simp only []
        rw [getD_set_eq _ k j _ _ (by rw [hl2]; exact hk'),
          getD_set_eq _ k j _ _ (by rw [hl1]; exact hk')]
        by_cases e : j = k
        · subst e
          rw [if_pos rfl, if_pos rfl, hoff]
          exact ⟨rfl, rfl⟩
        · rw [if_neg e, if_neg e]
          exact hcells j (by omega))
  obtain ⟨o, ho, _, h1, h2, h3⟩ := h
  rw [Nat.zero_add] at h3
  exact ⟨o, ho, h1, h2, h3⟩

theorem mexCore_spec (pX pY : List ℚ) (nx ny D : Nat) (dthresh2 : List ℚ) :
    ∃ plhs0 plhs1, mexCore pX pY nx ny D dthresh2 = MexResult.ok plhs0 plhs1 ∧
      plhs0.length = ny ∧ plhs1.length = ny ∧
      ∀ j, j < ny →
        plhs0.getD j Val.nan =
            idxCell (exactScan pX pY nx ny D dthresh2 (offsetAt pX pY nx ny D dthresh2 j) j) ∧
          plhs1.getD j Val.nan =
            distCell (exactScan pX pY nx ny D dthresh2 (offsetAt pX pY nx ny D dthresh2 j) j) := by
  obtain ⟨o, ho, h1, h2, h3⟩ := findClosest_spec pX pY nx ny D (buildInterdist pX nx D) dthresh2
    (buildInterdist_spec pX nx D).2
  refine ⟨o.minIdxs, o.minDists, ?_, h2, h1, h3⟩
  unfold mexCore
  rw [ho]

theorem thresh_loop_spec (nx : Nat) (f : Nat → ℚ) :
    (forLoop (fun xj v => v.set xj (f xj)) nx 0 (List.replicate nx (0 : ℚ))).length = nx ∧
      ∀ i, i < nx →
        rd (forLoop (fun xj v => v.set xj (f xj)) nx 0 (List.replicate nx (0 : ℚ))) i = f i := by
  have h := forLoop_inv (fun xj (v : List ℚ) => v.set xj (f xj))
    (fun k v => v.length = nx ∧ ∀ i, i < k → rd v i = f i) nx 0 (List.replicate nx (0 : ℚ))
    ⟨by simp, fun i hi => absurd hi (Nat.not_lt_zero _)⟩
    (by
      intro k v _ hk ⟨hl, hv⟩
      refine ⟨by simp [hl], fun i hi => ?_⟩
      unfold rd
      rw [getD_set_eq v k i _ _ (by omega)]
      by_cases e : i = k
      · rw [if_pos e, e]
      · rw [if_neg e]
        exact hv i (by omega))
  rwa [Nat.zero_add] at h

theorem dthresh2Of_spec (nx : Nat) (mThresh : MxArray) (i : Nat) (hi : i < nx) :
    rd (dthresh2Of nx mThresh) i = thresh2Of mThresh i := by
  unfold dthresh2Of thresh2Of
  split_ifs
  · exact (thresh_loop_spec nx (fun _ => rd mThresh.pr 0 * rd mThresh.pr 0)).2 i hi
  · exact (thresh_loop_spec nx (fun xj => rd mThresh.pr xj * rd mThresh.pr xj)).2 i hi

theorem mexFunction_valid (nlhs nrhs : Nat) (mX mY mThresh : MxArray)
    (hv : ValidCall nlhs nrhs mX mY mThresh) :
    mexFunction nlhs nrhs mX mY mThresh =
      mexCore mX.pr mY.pr mX.dims0 mY.dims0 mX.dims1 (dthresh2Of mX.dims0 mThresh) := by
  obtain ⟨h1, h2, h3, h4⟩ := hv
  unfold mexFunction dthresh2Of
  rcases h4 with ⟨e, hd, hc⟩ | ⟨ne, e⟩
  · have hdims : mThresh.dims0 = 1 ∧ mThresh.dims1 = 1 := by
      unfold mxGetNumberOfElements at e
      exact ⟨Nat.eq_one_of_mul_eq_one_right e, Nat.eq_one_of_mul_eq_one_left e⟩
    simp [h1, h2, h3, e, getMexScalar, hd, hc, hdims.1, hdims.2]
  · rw [e] at ne
    simp [h1, h2, h3, e, ne]

/-! ## The exhaustive baseline of the specification -/

theorem forLoop_foldl_rel {σ τ : Type} (body : Nat → σ → σ) (g : τ → Nat → τ)
    (R : σ → τ → Prop) (n i : Nat) (s : σ) (o : τ) (h0 : R s o)
    (hstep : ∀ k s o, i ≤ k → k < i + n → R s o → R (body k s) (g o k)) :
    R (forLoop body n i s) ((List.range' i n).foldl g o) := by
  induction n generalizing i s o with
  | zero => simpa [forLoop] using h0
  | succ n ih =>
    rw [forLoop, List.range'_succ, List.foldl_cons]
    exact ih (i + 1) _ _ (hstep i s o (le_refl _) (by omega) h0)
      (fun k s o hk hk' hR => hstep k s o (by omega) (by omega) hR)

theorem exactStep_corr (pX pY : List ℚ) (nx ny D : Nat) (dthresh2 : List ℚ) (offset yj : Nat)
    (th : Nat → ℚ) (k : Nat) (s : Best) (o : Option (Nat × ℚ)) (hnx : nx ≠ 0)
    (hth : ∀ i, i < nx → rd dthresh2 i = th i)
    (hbound : ∀ xj, xj < nx → fullDist2 pX xj pY yj D nx ny ≤ th xj →
      fullDist2 pX xj pY yj D nx ny < (intMax : ℚ))
    (h : Corr nx s o) :
    Corr nx (exactStep pX pY nx ny D dthresh2 offset yj k s)
      (bruteStep (fun xj => fullDist2 pX xj pY yj D nx ny) th o ((k + offset) % nx)) := by
  have hxj : (k + offset) % nx < nx := Nat.mod_lt _ (Nat.pos_of_ne_zero hnx)
  unfold exactStep bruteStep
  rw [hth _ hxj]
  by_cases he : fullDist2 pX ((k + offset) % nx) pY yj D nx ny ≤ th ((k + offset) % nx)
  · have hb := hbound _ hxj he
    rw [if_pos he]
    rcases h with ⟨h1, h2⟩ | ⟨h1, h2, h3⟩
    · rw [h1, h2]
      have e : bestInit.bestdist2 = (intMax : ℚ) := rfl
      rw [e, if_pos ⟨he, hb⟩]
      exact Or.inr ⟨hxj, hb, rfl⟩
    · rw [h3]
      simp only []
      by_cases hlt : fullDist2 pX ((k + offset) % nx) pY yj D nx ny < s.bestdist2
      · rw [if_pos ⟨he, hlt⟩, if_pos hlt]
        exact Or.inr ⟨hxj, hb, rfl⟩
      · rw [if_neg (fun hc => hlt hc.2), if_neg hlt]
        exact Or.inr ⟨h1, h2, rfl⟩
  · rw [if_neg he, if_neg (fun hc => he hc.1)]
    exact h

theorem exactScan_corr (pX pY : List ℚ) (nx ny D : Nat) (dthresh2 : List ℚ) (offset yj : Nat)
    (th : Nat → ℚ) (hth : ∀ i, i < nx → rd dthresh2 i = th i)
    (hbound : ∀ xj, xj < nx → fullDist2 pX xj pY yj D nx ny ≤ th xj →
      fullDist2 pX xj pY yj D nx ny < (intMax : ℚ)) :
    Corr nx (exactScan pX pY nx ny D dthresh2 offset yj)
      (bruteScan (fun xj => fullDist2 pX xj pY yj D nx ny) th (circularOrder nx offset)) := by
  unfold exactScan bruteScan circularOrder
  rw [List.foldl_map, List.range_eq_range']
  apply forLoop_foldl_rel (exactStep pX pY nx ny D dthresh2 offset yj)
    (fun o xj2 => bruteStep (fun xj => fullDist2 pX xj pY yj D nx ny) th o ((xj2 + offset) % nx))
    (Corr nx) nx 0 bestInit none (Or.inl ⟨rfl, rfl⟩)
  intro k s o _ hk hR
  exact exactStep_corr pX pY nx ny D dthresh2 offset yj th k s o (by omega) hth hbound hR

theorem corr_cells (nx : Nat) (s : Best) (o : Option (Nat × ℚ)) (offset : Nat)
    (hnx : nx ≤ intMax) (h : Corr nx s o) :
    idxCell s = idxOut o ∧ distCell s = distOut o ∧
      nextOffset offset s = offsetAfter offset o := by
  rcases h with ⟨h1, h2⟩ | ⟨h1, _, h3⟩
  · rw [h1, h2]
    simp [idxCell, distCell, nextOffset, idxOut, distOut, offsetAfter, bestInit]
  · have hlt : s.bestxj < intMax := by omega
    rw [h3]
    simp [idxCell, distCell, nextOffset, idxOut, distOut, offsetAfter, hlt]

theorem circularOrder_zero (nx : Nat) : circularOrder nx 0 = List.range nx := by
  unfold circularOrder
  conv_rhs => rw [← List.map_id (List.range nx)]
  apply List.map_congr_left
  intro a ha
  rw [List.mem_range] at ha
  simp [Nat.mod_eq_of_lt ha]

/-! ## Auxiliary facts for the claims -/

theorem scanQuery_none_eligible (pX pY : List ℚ) (nx ny D : Nat) (interdist : List (List ℚ))
    (dthresh2 : List ℚ) (offset yj : Nat)
    (h : ∀ xj, xj < nx → rd dthresh2 xj < fullDist2 pX xj pY yj D nx ny) :
    scanQuery pX pY nx ny D interdist dthresh2 offset yj = some bestInit := by
  obtain ⟨r, hr, hP⟩ := forLoopM_inv (scanBody pX pY nx ny D interdist dthresh2 offset yj)
    (fun _ s => s = bestInit) nx 0 bestInit rfl
    (by
      intro k t _ hk ht
      have hnx : nx ≠ 0 := by omega
      have hxj : (k + offset) % nx < nx := Nat.mod_lt _ (by omega)
      refine ⟨bestInit, ?_, rfl⟩
      rw [ht]
      unfold scanBody
      rw [if_neg hnx]
      simp only []
      rw [if_neg (fun hc => absurd hc.1 (lt_irrefl _))]
      by_cases h1 : eucldist2Bound pX ((k + offset) % nx) pY yj D nx ny bestInit.bestdist2 >
          rd dthresh2 ((k + offset) % nx)
      · rw [if_pos h1]
      · rw [if_neg h1, if_neg]
        intro h2
        have e := eucldist2Bound_eq_of_lt _ _ _ _ _ _ _ _ h2
        have := h _ hxj
        rw [← e] at this
        exact h1 this)
  rw [scanQuery, hr, hP]

theorem eq_replicate_of_getD {α : Type} (l : List α) (n : Nat) (a d : α)
    (hl : l.length = n) (h : ∀ j, j < n → l.getD j d = a) : l = List.replicate n a := by
  apply List.ext_getElem
  · simp [hl]
  · intro j h1 h2
    have := h j (by omega)
    rw [List.getD_eq_getElem _ _ h1] at this
    simp [this]

theorem ext_of_getD {α : Type} (l1 l2 : List α) (n : Nat) (d : α)
    (h1 : l1.length = n) (h2 : l2.length = n)
    (h : ∀ j, j < n → l1.getD j d = l2.getD j d) : l1 = l2 := by
  apply List.ext_getElem
  · rw [h1, h2]
  · intro j hj1 hj2
    have := h j (by omega)
    rwa [List.getD_eq_getElem _ _ hj1, List.getD_eq_getElem _ _ hj2] at this

theorem exactScan_nx_zero (pX pY : List ℚ) (ny D : Nat) (dthresh2 : List ℚ) (offset yj : Nat) :
    exactScan pX pY 0 ny D dthresh2 offset yj = bestInit := rfl

theorem cells_of_isMin (full th : Nat → ℚ) (nx : Nat) (b : Best) (h : IsMin full th nx b) :
    (idxCell b = Val.nan ∧ distCell b = Val.nan) ∨
      (b.bestxj < nx ∧ idxCell b = Val.num ((b.bestxj : ℚ) + 1) ∧
        distCell b = Val.sqrt b.bestdist2 ∧ b.bestdist2 = full b.bestxj ∧
        full b.bestxj ≤ th b.bestxj) := by
  by_cases hb : b.bestxj < intMax
  · rcases h.2.1 with h0 | ⟨h1, h2, h3, _⟩
    · rw [h0] at hb
      exact absurd hb (lt_irrefl _)
    · exact Or.inr ⟨h1, by simp [idxCell, hb], by simp [distCell, hb], h2, h3⟩
  · exact Or.inl ⟨by simp [idxCell, hb], by simp [distCell, hb]⟩

theorem isMin_congr_th (full th th' : Nat → ℚ) (nx : Nat) (b : Best)
    (hth : ∀ i, i < nx → th i = th' i) (h : IsMin full th nx b) : IsMin full th' nx b := by
  obtain ⟨h1, h2, h3⟩ := h
  refine ⟨h1, ?_, fun xj hxj he => h3 xj hxj (by rw [hth xj hxj]; exact he)⟩
  rcases h2 with h0 | ⟨q1, q2, q3, q4⟩
  · exact Or.inl h0
  · exact Or.inr ⟨q1, q2, by rw [← hth _ q1]; exact q3, q4⟩

theorem offsetAt_eq_bruteOffset (pX pY : List ℚ) (nx ny D : Nat) (dthresh2 : List ℚ)
    (th : Nat → ℚ) (hnx : nx ≤ intMax) (hth : ∀ i, i < nx → rd dthresh2 i = th i)
    (hbound : ∀ yj xj, yj < ny → xj < nx → fullDist2 pX xj pY yj D nx ny ≤ th xj →
      fullDist2 pX xj pY yj D nx ny < (intMax : ℚ))
    (j : Nat) (hj : j ≤ ny) :
    offsetAt pX pY nx ny D dthresh2 j =
      bruteOffset (fun yj xj => fullDist2 pX xj pY yj D nx ny) th nx j := by
  induction j with
  | zero => rfl
  | succ j ih =>
    have ih' := ih (by omega)
    rw [offsetAt, bruteOffset, ih']
    have hc := exactScan_corr pX pY nx ny D dthresh2
      (bruteOffset (fun yj xj => fullDist2 pX xj pY yj D nx ny) th nx j) j th hth
      (fun xj hxj => hbound j xj (by omega) hxj)
    exact (corr_cells nx _ _ _ hnx hc).2.2

theorem cells_pair_of_isMin (full th full' th' : Nat → ℚ) (nx : Nat) (b b' : Best)
    (p : Nat → Nat) (hnx : nx ≤ intMax)
    (hp : ∀ i, i < nx → p i < nx ∧ full' i = full (p i) ∧ th' i = th (p i))
    (hsurj : ∀ i, i < nx → ∃ i', i' < nx ∧ p i' = i)
    (h : IsMin full th nx b) (h' : IsMin full' th' nx b') :
    distCell b = distCell b' ∧
      ((idxCell b = Val.nan ∧ idxCell b' = Val.nan) ∨
        ∃ (i i' : Nat) (d : ℚ), i < nx ∧ i' < nx ∧ idxCell b = Val.num ((i : ℚ) + 1) ∧
          idxCell b' = Val.num ((i' : ℚ) + 1) ∧ distCell b = Val.sqrt d ∧
          full i = d ∧ full' i' = d ∧ d ≤ th i ∧ d ≤ th' i') := by
  obtain ⟨hd, hinit⟩ := isMin_unique full th full' th' nx b b' p hp hsurj h h'
  have hs := isMin_set_iff full th nx b hnx h
  have hs' := isMin_set_iff full' th' nx b' hnx h'
  by_cases hb : b = bestInit
  · have hb' : b' = bestInit := hinit.mp hb
    rw [hb, hb']
    exact ⟨rfl, Or.inl ⟨by simp [idxCell, bestInit], by simp [idxCell, bestInit]⟩⟩
  · have hb' : b' ≠ bestInit := fun e => hb (hinit.mpr e)
    have hlt := hs.mpr hb
    have hlt' := hs'.mpr hb'
    refine ⟨by simp [distCell, hlt, hlt', hd], Or.inr ?_⟩
    rcases h.2.1 with h0 | ⟨q1, q2, q3, _⟩
    · exact absurd h0 hb
    rcases h'.2.1 with h0' | ⟨q1', q2', q3', _⟩
    · exact absurd h0' hb'
    refine ⟨b.bestxj, b'.bestxj, b.bestdist2, q1, q1', by simp [idxCell, hlt],
      by simp [idxCell, hlt'], by simp [distCell, hlt], q2.symm, ?_, ?_, ?_⟩
    · rw [hd]
      exact q2'.symm
    · rw [q2]
      exact q3
    · rw [hd, q2']
      exact q3'

theorem thresh2Of_eq (mThresh : MxArray) (i : Nat) :
    thresh2Of mThresh i = threshOf mThresh i * threshOf mThresh i := by
  unfold thresh2Of threshOf
  split_ifs <;> rfl

theorem fullDist2_singleQuery (pX : List ℚ) (mY : MxArray) (xj j nx : Nat) :
    fullDist2 pX xj (singleQuery mY j).pr 0 mY.dims1 nx 1 =
      fullDist2 pX xj mY.pr j mY.dims1 nx mY.dims0 := by
  unfold fullDist2
  apply Finset.sum_congr rfl
  intro k hk
  have hk' : k < mY.dims1 := Finset.mem_range.mp hk
  have e : rd (singleQuery mY j).pr (0 + k * 1) = rd mY.pr (j + k * mY.dims0) := by
    simp [singleQuery, rd, List.getD_eq_getElem?_getD, hk']
  rw [e]

theorem cityblockLoop_eq (memx memy : List ℚ) (dpx dpy : Nat) (n px py : Nat) (acc : ℚ) :
    cityblockLoop memx memy dpx dpy n px py acc =
      acc + ∑ k in Finset.range n, |rd memx (px + k * dpx) - rd memy (py + k * dpy)| := by
  induction n generalizing px py acc with
  | zero => simp [cityblockLoop]
  | succ n ih =>
    rw [cityblockLoop, ih, Finset.sum_range_succ']
    simp only [Nat.zero_mul, Nat.add_zero]
    have e : ∀ k, |rd memx (px + dpx + k * dpx) - rd memy (py + dpy + k * dpy)| =
        |rd memx (px + (k + 1) * dpx) - rd memy (py + (k + 1) * dpy)| := by
      intro k
      have h1 : px + (k + 1) * dpx = px + dpx + k * dpx := by ring
      have h2 : py + (k + 1) * dpy = py + dpy + k * dpy := by ring
      rw [h1, h2]
    simp only [e]
    ring

theorem thresh_vector_replicate (nx : Nat) (t : ℚ) :
    vectorThresh2 nx (List.replicate nx t) = scalarThresh2 nx t := by
  have h1 := thresh_loop_spec nx (fun xj => rd (List.replicate nx t) xj * rd (List.replicate nx t) xj)
  have h2 := thresh_loop_spec nx (fun _ => t * t)
  apply ext_of_getD _ _ nx 0 h1.1 h2.1
  intro j hj
  have e1 := h1.2 j hj
  have e2 := h2.2 j hj
  have e3 : rd (List.replicate nx t) j = t := by
    simp [rd, List.getD_eq_getElem?_getD, List.getElem?_replicate, hj]
  rw [e3] at e1
  exact e1.trans e2.symm

theorem rd_map_abs (l : List ℚ) (i : Nat) : rd (l.map (fun t => |t|)) i = |rd l i| := by
  unfold rd
  simp only [List.getD_eq_getElem?_getD, List.getElem?_map]
  cases l[i]? <;> simp

theorem scalarThresh2_abs (nx : Nat) (t : ℚ) : scalarThresh2 nx |t| = scalarThresh2 nx t := by
  unfold scalarThresh2
  simp only [abs_mul_abs_self]

theorem vectorThresh2_abs (nx : Nat) (l : List ℚ) :
    vectorThresh2 nx (l.map (fun t => |t|)) = vectorThresh2 nx l := by
  unfold vectorThresh2
  simp only [rd_map_abs, abs_mul_abs_self]

theorem scanBody_cases (pX pY : List ℚ) (nx ny D : Nat) (interdist : List (List ℚ))
    (dthresh2 : List ℚ) (offset yj xj2 : Nat) (s : Best) (hnx : nx ≠ 0) :
    scanBody pX pY nx ny D interdist dthresh2 offset yj xj2 s = some s ∨
      scanBody pX pY nx ny D interdist dthresh2 offset yj xj2 s =
        some (exactStep pX pY nx ny D dthresh2 offset yj xj2 s) := by
  by_cases hp : s.bestxj < intMax ∧
      getMat interdist s.bestxj ((xj2 + offset) % nx) > 4 * s.bestdist2
  · left
    unfold scanBody
    rw [if_neg hnx]
    simp only []
    rw [if_pos hp]
  · right
    have h := scanBodyNoPrune_eq pX pY nx ny D dthresh2 offset yj xj2 s hnx
    unfold scanBodyNoPrune at h
    unfold scanBody
    rw [if_neg hnx] at h ⊢
    simp only [] at h ⊢
    rw [if_neg hp]
    exact h

theorem exactStep_settled (pX pY : List ℚ) (nx ny D : Nat) (dthresh2 : List ℚ)
    (offset yj xj2 : Nat) (s : Best) (hnx : nx ≠ 0)
    (h : Settled pX pY nx ny D dthresh2 yj s) :
    Settled pX pY nx ny D dthresh2 yj (exactStep pX pY nx ny D dthresh2 offset yj xj2 s) := by
  unfold exactStep
  split_ifs with hc
  · exact Or.inr ⟨Nat.mod_lt _ (Nat.pos_of_ne_zero hnx), rfl, hc.1⟩
  · exact h

theorem scan_prefix_settled (pX pY : List ℚ) (nx ny D : Nat) (interdist : List (List ℚ))
    (dthresh2 : List ℚ) (offset yj k : Nat) (hk : k ≤ nx) :
    ∃ s, forLoopM (scanBody pX pY nx ny D interdist dthresh2 offset yj) k 0 bestInit = some s ∧
      Settled pX pY nx ny D dthresh2 yj s := by
  obtain ⟨r, hr, hP⟩ := forLoopM_inv (scanBody pX pY nx ny D interdist dthresh2 offset yj)
    (fun _ s => Settled pX pY nx ny D dthresh2 yj s) k 0 bestInit (Or.inl rfl)
    (by
      intro i t _ hi ht
      have hnx : nx ≠ 0 := by omega
      rcases scanBody_cases pX pY nx ny D interdist dthresh2 offset yj i t hnx with e | e
      · exact ⟨t, e, ht⟩
      · exact ⟨_, e, exactStep_settled pX pY nx ny D dthresh2 offset yj i t hnx ht⟩)
  exact ⟨r, hr, hP⟩

theorem settled_of_set (pX pY : List ℚ) (nx ny D : Nat) (dthresh2 : List ℚ) (yj : Nat)
    (s : Best) (h : Settled pX pY nx ny D dthresh2 yj s) (hb : s.bestxj < intMax) :
    s.bestxj < nx ∧ s.bestdist2 = fullDist2 pX s.bestxj pY yj D nx ny ∧
      s.bestdist2 ≤ rd dthresh2 s.bestxj := by
  rcases h with h0 | h1
  · rw [h0] at hb
    exact absurd hb (lt_irrefl _)
  · exact h1

theorem forLoopM_split {σ : Type} (body : Nat → σ → Option σ) (n k i : Nat) (s t : σ)
    (hk : k ≤ n) (h : forLoopM body k i s = some t) :
    forLoopM body n i s = forLoopM body (n - k) (i + k) t := by
  induction k generalizing n i s with
  | zero =>
    simp only [forLoopM, Option.some.injEq] at h
    rw [h]
    rfl
  | succ k ih =>
    obtain ⟨m, rfl⟩ : ∃ m, n = m + 1 := ⟨n - 1, by omega⟩
    rw [forLoopM] at h ⊢
    cases hb : body i s with
    | none => simp [hb] at h
    | some u =>
      rw [hb] at h
      simp only [] at h ⊢
      have := ih m (i + 1) u (by omega) h
      rw [this]
      have e1 : m + 1 - (k + 1) = m - k := by omega
      have e2 : i + 1 + k = i + (k + 1) := by omega
      rw [e1, e2]

theorem offsetAt_lt (pX pY : List ℚ) (nx ny D : Nat) (dthresh2 : List ℚ) (j : Nat)
    (hnx : 0 < nx) : offsetAt pX pY nx ny D dthresh2 j < nx := by
  induction j with
  | zero => exact hnx
  | succ j ih =>
    rw [offsetAt]
    unfold nextOffset
    split_ifs with hb
    · have hm := exactScan_isMin pX pY nx ny D dthresh2 (offsetAt pX pY nx ny D dthresh2 j) j
      rcases hm.2.1 with h0 | ⟨h1, _⟩
      · rw [h0] at hb
        exact absurd hb (lt_irrefl _)
      · exact h1
    · exact ih

theorem queryLoop_prefix (pX pY : List ℚ) (nx ny D : Nat) (interdist : List (List ℚ))
    (dthresh2 : List ℚ) (k : Nat)
    (hcache : ∀ i j, i < nx → j < nx → getMat interdist i j = fullDist2 pX i pX j D nx nx) :
    ∃ o, forLoopM (queryBody pX pY nx ny D interdist dthresh2) k 0
        ⟨0, List.replicate ny (Val.num 0), List.replicate ny (Val.num 0)⟩ = some o ∧
      o.offset = offsetAt pX pY nx ny D dthresh2 k := by
  obtain ⟨r, hr, hP⟩ := forLoopM_inv (queryBody pX pY nx ny D interdist dthresh2)
    (fun i o => o.offset = offsetAt pX pY nx ny D dthresh2 i) k 0
    ⟨0, List.replicate ny (Val.num 0), List.replicate ny (Val.num 0)⟩ rfl
    (by
      intro i o _ _ hoff
      refine ⟨_, queryBody_eq pX pY nx ny D interdist dthresh2 i o hcache, ?_⟩
      simp only [hoff]
      rfl)
  rw [Nat.zero_add] at hP
  exact ⟨r, hr, hP⟩

theorem sum_sq_eq_zero (D : Nat) (f : Nat → ℚ) (h : ∑ k in Finset.range D, f k ^ 2 = 0)
    (k : Nat) (hk : k < D) : f k = 0 := by
  have h1 := (Finset.sum_eq_zero_iff_of_nonneg (fun i _ => sq_nonneg (f i))).mp h k
    (Finset.mem_range.mpr hk)
  exact pow_eq_zero_iff (two_ne_zero) |>.mp h1

theorem num_succ_inj (a b : Nat) (h : Val.num ((a : ℚ) + 1) = Val.num ((b : ℚ) + 1)) :
    a = b := by
  injection h with h
  have : (a : ℚ) = b := by linarith
  exact_mod_cast this

theorem dthresh2Of_length (nx : Nat) (mThresh : MxArray) :
    (dthresh2Of nx mThresh).length = nx := by
  unfold dthresh2Of
  split_ifs
  · exact (thresh_loop_spec nx (fun _ => rd mThresh.pr 0 * rd mThresh.pr 0)).1
  · exact (thresh_loop_spec nx (fun xj => rd mThresh.pr xj * rd mThresh.pr xj)).1

/-! ## The IEEE embedding: entry point, loops, rounding -/

theorem toInt_of_lt (n : Nat) (h : n < 2147483648) : Ieee.toInt n = (n : Int) := by
  unfold Ieee.toInt
  have h1 : n % 4294967296 = n := Nat.mod_eq_of_lt (by omega)
  rw [h1, if_pos h]

theorem toSizeT_natCast (n : Nat) (h : n < 2147483648) : Ieee.toSizeT (n : Int) = n := by
  unfold Ieee.toSizeT
  have h1 : ((n : Int) % 18446744073709551616) = (n : Int) :=
    Int.emod_eq_of_lt (by omega) (by omega)
  rw [h1]
  exact Int.toNat_natCast n

theorem ieee_mexFunction_valid (fl : ℚ → ℚ) (nlhs nrhs : Nat) (mX mY mThresh : MxArray)
    (hv : Ieee.ValidCall nlhs nrhs mX mY mThresh) :
    Ieee.mexFunction fl nlhs nrhs mX mY mThresh =
      Ieee.mexCore fl mX.pr mY.pr mX.dims0 mY.dims0 mX.dims1
        (Ieee.dthresh2Of fl mX.dims0 mThresh) := by
  obtain ⟨⟨h1, h2, h3, h4⟩, b0, b1, b2⟩ := hv
  have c0 : ¬ ((mX.dims0 : Int) < 0) := by omega
  have c2 : ¬ ((mY.dims0 : Int) < 0) := by omega
  unfold Ieee.mexFunction Ieee.dthresh2Of
  simp only [toInt_of_lt _ b0, toInt_of_lt _ b1, toInt_of_lt _ b2, toSizeT_natCast _ b0,
    toSizeT_natCast _ b1, Int.toNat_natCast, c0, c2, if_false]
  rcases h4 with ⟨e, hd, hc⟩ | ⟨ne, e⟩
  · have hdims : mThresh.dims0 = 1 ∧ mThresh.dims1 = 1 := by
      unfold mxGetNumberOfElements at e
      exact ⟨Nat.eq_one_of_mul_eq_one_right e, Nat.eq_one_of_mul_eq_one_left e⟩
    simp [h1, h2, h3, e, getMexScalar, hd, hc, hdims.1, hdims.2]
  · rw [e] at ne
    simp [h1, h2, h3, e, ne]

theorem ieee_eucldist2Loop_exact (fl : ℚ → ℚ) (hfl : ∀ x, fl x = x) (memx memy : List ℚ)
    (dpx dpy n px py : Nat) (acc : ℚ) :
    Ieee.eucldist2Loop fl memx memy dpx dpy n px py acc =
      eucldist2Loop memx memy dpx dpy n px py acc := by
  induction n generalizing px py acc with
  | zero => rfl
  | succ n ih => rw [Ieee.eucldist2Loop, eucldist2Loop, ih, hfl, hfl, hfl]

theorem ieee_eucldist2BoundLoop_exact (fl : ℚ → ℚ) (hfl : ∀ x, fl x = x)
    (memx memy : List ℚ) (dpx dpy : Nat) (B : ℚ) (n px py : Nat) (acc : ℚ) :
    Ieee.eucldist2BoundLoop fl memx memy dpx dpy B n px py acc =
      eucldist2BoundLoop memx memy dpx dpy B n px py acc := by
  induction n generalizing px py acc with
  | zero => rfl
  | succ n ih => rw [Ieee.eucldist2BoundLoop, eucldist2BoundLoop, ih, hfl, hfl, hfl]

theorem ieee_buildInterdist_exact (fl : ℚ → ℚ) (hfl : ∀ x, fl x = x) (pX : List ℚ)
    (nx D : Nat) : Ieee.buildInterdist fl pX nx D = buildInterdist pX nx D := by
  have hpair : Ieee.interdistPair fl pX nx D = interdistPair pX nx D := by
    funext xj xi m
    unfold Ieee.interdistPair interdistPair Ieee.eucldist2 eucldist2
    rw [ieee_eucldist2Loop_exact fl hfl]
  unfold Ieee.buildInterdist buildInterdist Ieee.interdistFill interdistFill
  rw [hpair]

theorem ieee_scanQuery_exact (fl : ℚ → ℚ) (hfl : ∀ x, fl x = x) (pX pY : List ℚ)
    (nx ny D : Nat) (interdist : List (List ℚ)) (dthresh2 : List ℚ) (offset yj : Nat) :
    Ieee.scanQuery fl pX pY nx ny D interdist dthresh2 offset yj =
      scanQuery pX pY nx ny D interdist dthresh2 offset yj := by
  have hbody : Ieee.scanBody fl pX pY nx ny D interdist dthresh2 offset yj =
      scanBody pX pY nx ny D interdist dthresh2 offset yj := by
    funext xj2 s
    unfold Ieee.scanBody scanBody Ieee.eucldist2Bound eucldist2Bound
    simp only [ieee_eucldist2BoundLoop_exact fl hfl, hfl]
  unfold Ieee.scanQuery scanQuery
  rw [hbody]

theorem ieee_mexCore_exact (fl : ℚ → ℚ) (hfl : ∀ x, fl x = x) (pX pY : List ℚ)
    (nx ny D : Nat) (dthresh2 : List ℚ) :
    Ieee.mexCore fl pX pY nx ny D dthresh2 = mexCore pX pY nx ny D dthresh2 := by
  have hq : ∀ interdist, Ieee.queryBody fl pX pY nx ny D interdist dthresh2 =
      queryBody pX pY nx ny D interdist dthresh2 := by
    intro interdist
    funext yj o
    unfold Ieee.queryBody queryBody
    rw [ieee_scanQuery_exact fl hfl]
  unfold Ieee.mexCore mexCore Ieee.findClosest findClosest
  rw [hq, ieee_buildInterdist_exact fl hfl]

theorem ieee_dthresh2Of_exact (fl : ℚ → ℚ) (hfl : ∀ x, fl x = x) (nx : Nat)
    (mThresh : MxArray) : Ieee.dthresh2Of fl nx mThresh = dthresh2Of nx mThresh := by
  unfold Ieee.dthresh2Of dthresh2Of Ieee.scalarThresh2 scalarThresh2 Ieee.vectorThresh2
    vectorThresh2
  simp only [hfl]

theorem ieee_mexFunction_exact (fl : ℚ → ℚ) (hfl : ∀ x, fl x = x) (nlhs nrhs : Nat)
    (mX mY mThresh : MxArray) (hv : Ieee.ValidCall nlhs nrhs mX mY mThresh) :
    Ieee.mexFunction fl nlhs nrhs mX mY mThresh = mexFunction nlhs nrhs mX mY mThresh := by
  rw [ieee_mexFunction_valid fl nlhs nrhs mX mY mThresh hv,
    mexFunction_valid nlhs nrhs mX mY mThresh hv.1, ieee_mexCore_exact fl hfl,
    ieee_dthresh2Of_exact fl hfl]

theorem ieee_dthresh2Of_spec (fl : ℚ → ℚ) (nx : Nat) (mThresh : MxArray) (i : Nat)
    (hi : i < nx) :
    rd (Ieee.dthresh2Of fl nx mThresh) i = fl (threshOf mThresh i * threshOf mThresh i) := by
  unfold Ieee.dthresh2Of threshOf
  split_ifs
  · exact (thresh_loop_spec nx (fun _ => fl (rd mThresh.pr 0 * rd mThresh.pr 0))).2 i hi
  · exact (thresh_loop_spec nx (fun xj => fl (rd mThresh.pr xj * rd mThresh.pr xj))).2 i hi

theorem ieee_scanBody_cases (fl : ℚ → ℚ) (pX pY : List ℚ) (nx ny D : Nat)
    (interdist : List (List ℚ)) (dthresh2 : List ℚ) (offset yj xj2 : Nat) (s : Best)
    (hnx : nx ≠ 0) :
    Ieee.scanBody fl pX pY nx ny D interdist dthresh2 offset yj xj2 s = some s ∨
      (Ieee.scanBody fl pX pY nx ny D interdist dthresh2 offset yj xj2 s =
          some ⟨(xj2 + offset) % nx,
            Ieee.eucldist2Bound fl pX ((xj2 + offset) % nx) pY yj D nx ny s.bestdist2⟩ ∧
        Ieee.eucldist2Bound fl pX ((xj2 + offset) % nx) pY yj D nx ny s.bestdist2 ≤
          rd dthresh2 ((xj2 + offset) % nx) ∧
        Ieee.eucldist2Bound fl pX ((xj2 + offset) % nx) pY yj D nx ny s.bestdist2 <
          s.bestdist2) := by
  unfold Ieee.scanBody
  rw [if_neg hnx]
  simp only []
  split_ifs with h1 h2 h3
  · exact Or.inl rfl
  · exact Or.inl rfl
  · exact Or.inr ⟨rfl, not_lt.mp h2, h3⟩
  · exact Or.inl rfl

theorem ieee_settled_le (fl : ℚ → ℚ) (pX pY : List ℚ) (nx ny D : Nat) (dthresh2 : List ℚ)
    (yj : Nat) (s : Best) (h : Ieee.Settled fl pX pY nx ny D dthresh2 yj s) :
    s.bestdist2 ≤ (intMax : ℚ) := by
  rcases h with h0 | ⟨_, _, B, hB, _, hlt⟩
  · rw [h0]
    exact le_refl _
  · linarith

theorem ieee_scan_prefix (fl : ℚ → ℚ) (pX pY : List ℚ) (nx ny D : Nat)
    (interdist : List (List ℚ)) (dthresh2 : List ℚ) (offset yj k : Nat) (hk : k ≤ nx) :
    ∃ s, forLoopM (Ieee.scanBody fl pX pY nx ny D interdist dthresh2 offset yj) k 0 bestInit =
        some s ∧ Ieee.Settled fl pX pY nx ny D dthresh2 yj s := by
  obtain ⟨r, hr, hP⟩ := forLoopM_inv (Ieee.scanBody fl pX pY nx ny D interdist dthresh2 offset yj)
    (fun _ s => Ieee.Settled fl pX pY nx ny D dthresh2 yj s) k 0 bestInit (Or.inl rfl)
    (by
      intro i t _ hi ht
      have hnx : nx ≠ 0 := by omega
      rcases ieee_scanBody_cases fl pX pY nx ny D interdist dthresh2 offset yj i t hnx with
        e | ⟨e, h1, h2⟩
      · exact ⟨t, e, ht⟩
      · exact ⟨_, e, Or.inr ⟨Nat.mod_lt _ (Nat.pos_of_ne_zero hnx), h1, t.bestdist2,
          ieee_settled_le fl pX pY nx ny D dthresh2 yj t ht, rfl, h2⟩⟩)
  exact ⟨r, hr, hP⟩

theorem ieee_findClosest_cells (fl : ℚ → ℚ) (pX pY : List ℚ) (nx ny D : Nat)
    (interdist : List (List ℚ)) (dthresh2 : List ℚ) :
    ∃ o, Ieee.findClosest fl pX pY nx ny D interdist dthresh2 = some o ∧
      o.minDists.length = ny ∧ o.minIdxs.length = ny ∧
      ∀ j, j < ny → ∃ off b,
        Ieee.scanQuery fl pX pY nx ny D interdist dthresh2 off j = some b ∧
        Ieee.Settled fl pX pY nx ny D dthresh2 j b ∧
        o.minIdxs.getD j Val.nan = idxCell b ∧ o.minDists.getD j Val.nan = distCell b := by
  have h := forLoopM_inv (Ieee.queryBody fl pX pY nx ny D interdist dthresh2)
    (fun k o => o.minDists.length = ny ∧ o.minIdxs.length = ny ∧
      ∀ j, j < k → ∃ off b,
        Ieee.scanQuery fl pX pY nx ny D interdist dthresh2 off j = some b ∧
        Ieee.Settled fl pX pY nx ny D dthresh2 j b ∧
        o.minIdxs.getD j Val.nan = idxCell b ∧ o.minDists.getD j Val.nan = distCell b)
    ny 0 ⟨0, List.replicate ny (Val.num 0), List.replicate ny (Val.num 0)⟩
    ⟨by simp, by simp, fun j hj => absurd hj (Nat.not_lt_zero _)⟩
    (by
      intro k o _ hk ⟨hl1, hl2, hcells⟩
      have hk' : k < ny := by omega
      obtain ⟨b, hb, hset⟩ :=
        ieee_scan_prefix fl pX pY nx ny D interdist dthresh2 o.offset k nx (le_refl _)
      have hb' : Ieee.scanQuery fl pX pY nx ny D interdist dthresh2 o.offset k = some b := hb
      have hq : Ieee.queryBody fl pX pY nx ny D interdist dthresh2 k o =
          some ⟨nextOffset o.offset b, o.minDists.set k (distCell b),
            o.minIdxs.set k (idxCell b)⟩ := by
        unfold Ieee.queryBody
        rw [hb']
        simp only [nextOffset, distCell, idxCell]
        split_ifs <;> rfl
      refine ⟨_, hq, by simp [hl1], by simp [hl2], fun j hj => ?_⟩
      simp only []
      rw [getD_set_eq _ k j _ _ (by rw [hl2]; exact hk'),
        getD_set_eq _ k j _ _ (by rw [hl1]; exact hk')]
      by_cases e : j = k
      · subst e
        rw [if_pos rfl, if_pos rfl]
        exact ⟨o.offset, b, hb', hset, rfl, rfl⟩
      · rw [if_neg e, if_neg e]
        exact hcells j (by omega))
  obtain ⟨o, ho, h1, h2, h3⟩ := h
  rw [Nat.zero_add] at h3
  exact ⟨o, ho, h1, h2, h3⟩

theorem ieee_mexCore_cells (fl : ℚ → ℚ) (pX pY : List ℚ) (nx ny D : Nat) (dthresh2 : List ℚ) :
    ∃ plhs0 plhs1, Ieee.mexCore fl pX pY nx ny D dthresh2 = MexResult.ok plhs0 plhs1 ∧
      plhs0.length = ny ∧ plhs1.length = ny ∧
      ∀ j, j < ny → ∃ off b,
        Ieee.scanQuery fl pX pY nx ny D (Ieee.buildInterdist fl pX nx D) dthresh2 off j =
          some b ∧
        Ieee.Settled fl pX pY nx ny D dthresh2 j b ∧
        plhs0.getD j Val.nan = idxCell b ∧ plhs1.getD j Val.nan = distCell b := by
  obtain ⟨o, ho, h1, h2, h3⟩ :=
    ieee_findClosest_cells fl pX pY nx ny D (Ieee.buildInterdist fl pX nx D) dthresh2
  refine ⟨o.minIdxs, o.minDists, ?_, h2, h1, h3⟩
  unfold Ieee.mexCore
  rw [ho]

theorem ieee_term_nonneg (fl : ℚ → ℚ) (hfl : Ieee.IsRounding fl) (d : ℚ) :
    0 ≤ fl (fl d * fl d) := by
  have := hfl.mono 0 (fl d * fl d) (mul_self_nonneg _)
  rwa [hfl.zero] at this

theorem ieee_step_ge (fl : ℚ → ℚ) (hfl : Ieee.IsRounding fl) (acc d : ℚ) (hacc : fl acc = acc) :
    acc ≤ fl (acc + fl (fl d * fl d)) := by
  have := hfl.mono acc (acc + fl (fl d * fl d)) (by linarith [ieee_term_nonneg fl hfl d])
  rwa [hacc] at this

theorem ieee_loop_ge (fl : ℚ → ℚ) (hfl : Ieee.IsRounding fl) (memx memy : List ℚ)
    (dpx dpy n px py : Nat) (acc : ℚ) (hacc : fl acc = acc) :
    acc ≤ Ieee.eucldist2Loop fl memx memy dpx dpy n px py acc := by
  induction n generalizing px py acc with
  | zero => exact le_refl _
  | succ n ih =>
    rw [Ieee.eucldist2Loop]
    exact le_trans (ieee_step_ge fl hfl acc _ hacc) (ih _ _ _ (hfl.idem _))

theorem ieee_boundLoop_spec (fl : ℚ → ℚ) (hfl : Ieee.IsRounding fl) (memx memy : List ℚ)
    (dpx dpy : Nat) (B : ℚ) (n px py : Nat) (acc : ℚ) (hacc : fl acc = acc) :
    Ieee.eucldist2BoundLoop fl memx memy dpx dpy B n px py acc ≤
        Ieee.eucldist2Loop fl memx memy dpx dpy n px py acc ∧
      (Ieee.eucldist2BoundLoop fl memx memy dpx dpy B n px py acc < B ↔
        Ieee.eucldist2Loop fl memx memy dpx dpy n px py acc < B) ∧
      (Ieee.eucldist2BoundLoop fl memx memy dpx dpy B n px py acc < B →
        Ieee.eucldist2BoundLoop fl memx memy dpx dpy B n px py acc =
          Ieee.eucldist2Loop fl memx memy dpx dpy n px py acc) := by
  induction n generalizing px py acc with
  | zero => simp [Ieee.eucldist2BoundLoop, Ieee.eucldist2Loop]
  | succ n ih =>
    by_cases h : acc < B
    · rw [Ieee.eucldist2BoundLoop, Ieee.eucldist2Loop, if_pos h]
      exact ih _ _ _ (hfl.idem _)
    · have hge := ieee_loop_ge fl hfl memx memy dpx dpy (n + 1) px py acc hacc
      rw [Ieee.eucldist2BoundLoop, if_neg h]
      have hB : B ≤ acc := not_lt.mp h
      refine ⟨hge, ⟨fun hc => absurd hc h, fun hc => ?_⟩, fun hc => absurd hc h⟩
      linarith

theorem ieee_bound_eq_of_lt (fl : ℚ → ℚ) (hfl : Ieee.IsRounding fl) (memx : List ℚ) (px : Nat)
    (memy : List ℚ) (py : Nat) (dims dpx dpy : Nat) (B : ℚ)
    (h : Ieee.eucldist2Bound fl memx px memy py dims dpx dpy B < B) :
    Ieee.eucldist2Bound fl memx px memy py dims dpx dpy B =
      Ieee.eucldist2 fl memx px memy py dims dpx dpy :=
  (ieee_boundLoop_spec fl hfl memx memy dpx dpy B dims px py 0 hfl.zero).2.2 h

theorem ieee_loop_zero (fl : ℚ → ℚ) (hfl : Ieee.IsRounding fl) (memx memy : List ℚ)
    (dpx dpy n px py : Nat) (acc : ℚ) (hacc : fl acc = acc) (h0 : 0 ≤ acc)
    (h : Ieee.eucldist2Loop fl memx memy dpx dpy n px py acc = 0) :
    acc = 0 ∧ ∀ k, k < n →
      fl (fl (rd memx (px + k * dpx) - rd memy (py + k * dpy)) *
        fl (rd memx (px + k * dpx) - rd memy (py + k * dpy))) = 0 := by
  induction n generalizing px py acc with
  | zero => exact ⟨h, fun k hk => absurd hk (Nat.not_lt_zero _)⟩
  | succ n ih =>
    rw [Ieee.eucldist2Loop] at h
    have hstep := ieee_step_ge fl hfl acc (rd memx px - rd memy py) hacc
    obtain ⟨hz, hrest⟩ := ih (px + dpx) (py + dpy) _ (hfl.idem _) (le_trans h0 hstep) h
    have hacc0 : acc = 0 := le_antisymm (by rw [← hz]; exact hstep) h0
    refine ⟨hacc0, fun k hk => ?_⟩
    rcases Nat.eq_zero_or_pos k with hk0 | hkpos
    · subst hk0
      simp only [Nat.zero_mul, Nat.add_zero]
      rw [hacc0, zero_add, hfl.idem] at hz
      exact hz
    · obtain ⟨k', rfl⟩ : ∃ k', k = k' + 1 := ⟨k - 1, by omega⟩
      have := hrest k' (by omega)
      have e1 : px + (k' + 1) * dpx = px + dpx + k' * dpx := by ring
      have e2 : py + (k' + 1) * dpy = py + dpy + k' * dpy := by ring
      rw [e1, e2]
      exact this

theorem ieee_settled_full (fl : ℚ → ℚ) (hfl : Ieee.IsRounding fl) (pX pY : List ℚ)
    (nx ny D : Nat) (dthresh2 : List ℚ) (yj : Nat) (s : Best)
    (h : Ieee.Settled fl pX pY nx ny D dthresh2 yj s) (hb : s.bestxj < intMax) :
    s.bestxj < nx ∧ s.bestdist2 ≤ rd dthresh2 s.bestxj ∧
      s.bestdist2 = Ieee.eucldist2 fl pX s.bestxj pY yj D nx ny ∧
      s.bestdist2 < (intMax : ℚ) := by
  rcases h with h0 | ⟨h1, h2, B, hB, e, hlt⟩
  · rw [h0] at hb
    exact absurd hb (lt_irrefl _)
  · refine ⟨h1, h2, ?_, by linarith⟩
    rw [e] at hlt ⊢
    exact ieee_bound_eq_of_lt fl hfl _ _ _ _ _ _ _ B hlt

theorem isRounding_id : Ieee.IsRounding (fun x : ℚ => x) :=
  ⟨fun _ _ h => h, fun _ => rfl, rfl⟩

theorem ieee_scanQuery_none_eligible (fl : ℚ → ℚ) (hfl : Ieee.IsRounding fl) (pX pY : List ℚ)
    (nx ny D : Nat) (interdist : List (List ℚ)) (dthresh2 : List ℚ) (offset yj : Nat)
    (h : ∀ xj, xj < nx → rd dthresh2 xj < Ieee.eucldist2 fl pX xj pY yj D nx ny) :
    Ieee.scanQuery fl pX pY nx ny D interdist dthresh2 offset yj = some bestInit := by
  obtain ⟨r, hr, hP⟩ := forLoopM_inv (Ieee.scanBody fl pX pY nx ny D interdist dthresh2 offset yj)
    (fun _ s => s = bestInit) nx 0 bestInit rfl
    (by
      intro k t _ hk ht
      have hnx : nx ≠ 0 := by omega
      rcases ieee_scanBody_cases fl pX pY nx ny D interdist dthresh2 offset yj k t hnx with
        e | ⟨_, h1, h2⟩
      · exact ⟨t, e, ht⟩
      · exfalso
        have e := ieee_bound_eq_of_lt fl hfl _ _ _ _ _ _ _ _ h2
        have := h _ (Nat.mod_lt (k + offset) (Nat.pos_of_ne_zero hnx))
        rw [← e] at this
        linarith)
  rw [Ieee.scanQuery, hr, hP]

/-! ## Exact-arithmetic forms used by the claims -/

/-- Exact-arithmetic form of the agreement with the exhaustive scan: on the exact embedding, for
a valid call whose eligible squared distances stay below `intMax`, every query has the pair of
the exhaustive scan in circular order from the warm-start offset, and the distance of the
in-order scan. -/
theorem agrees_with_exhaustive_scan (nlhs nrhs : Nat) (mX mY mThresh : MxArray)
    (hv : ValidCall nlhs nrhs mX mY mThresh) (hnx : mX.dims0 ≤ intMax)
    (hbound : ∀ yj xj, yj < mY.dims0 → xj < mX.dims0 →
      fullDist2 mX.pr xj mY.pr yj mX.dims1 mX.dims0 mY.dims0 ≤ thresh2Of mThresh xj →
      fullDist2 mX.pr xj mY.pr yj mX.dims1 mX.dims0 mY.dims0 < (intMax : ℚ)) :
    ∃ plhs0 plhs1, mexFunction nlhs nrhs mX mY mThresh = MexResult.ok plhs0 plhs1 ∧
      plhs0.length = mY.dims0 ∧ plhs1.length = mY.dims0 ∧
      ∀ j, j < mY.dims0 →
        plhs0.getD j Val.nan =
            idxOut (bruteScan (fun xj => fullDist2 mX.pr xj mY.pr j mX.dims1 mX.dims0 mY.dims0)
              (thresh2Of mThresh)
              (circularOrder mX.dims0
                (bruteOffset (fun yj xj => fullDist2 mX.pr xj mY.pr yj mX.dims1 mX.dims0 mY.dims0)
                  (thresh2Of mThresh) mX.dims0 j))) ∧
          plhs1.getD j Val.nan =
            distOut (bruteScan (fun xj => fullDist2 mX.pr xj mY.pr j mX.dims1 mX.dims0 mY.dims0)
              (thresh2Of mThresh)
              (circularOrder mX.dims0
                (bruteOffset (fun yj xj => fullDist2 mX.pr xj mY.pr yj mX.dims1 mX.dims0 mY.dims0)
                  (thresh2Of mThresh) mX.dims0 j))) ∧
          plhs1.getD j Val.nan =
            distOut (bruteScan (fun xj => fullDist2 mX.pr xj mY.pr j mX.dims1 mX.dims0 mY.dims0)
              (thresh2Of mThresh) (List.range mX.dims0)) := by
  rw [mexFunction_valid nlhs nrhs mX mY mThresh hv]
  obtain ⟨p0, p1, hok, hl0, hl1, hcells⟩ :=
    mexCore_spec mX.pr mY.pr mX.dims0 mY.dims0 mX.dims1 (dthresh2Of mX.dims0 mThresh)
  refine ⟨p0, p1, hok, hl0, hl1, fun j hj => ?_⟩
  have hth := dthresh2Of_spec mX.dims0 mThresh
  have hoff := offsetAt_eq_bruteOffset mX.pr mY.pr mX.dims0 mY.dims0 mX.dims1
    (dthresh2Of mX.dims0 mThresh) (thresh2Of mThresh) hnx hth hbound j (by omega)
  rw [(hcells j hj).1, (hcells j hj).2, hoff]
  have hc := exactScan_corr mX.pr mY.pr mX.dims0 mY.dims0 mX.dims1 (dthresh2Of mX.dims0 mThresh)
    (bruteOffset (fun yj xj => fullDist2 mX.pr xj mY.pr yj mX.dims1 mX.dims0 mY.dims0)
      (thresh2Of mThresh) mX.dims0 j) j (thresh2Of mThresh) hth
    (fun xj hxj => hbound j xj hj hxj)
  have hc0 := exactScan_corr mX.pr mY.pr mX.dims0 mY.dims0 mX.dims1 (dthresh2Of mX.dims0 mThresh)
    0 j (thresh2Of mThresh) hth (fun xj hxj => hbound j xj hj hxj)
  rw [circularOrder_zero] at hc0
  obtain ⟨e1, e2, _⟩ := corr_cells mX.dims0 _ _ 0 hnx hc
  obtain ⟨_, e2', _⟩ := corr_cells mX.dims0 _ _ 0 hnx hc0
  refine ⟨e1, e2, ?_⟩
  rw [← e2']
  exact (cells_pair_of_isMin _ _ _ _ mX.dims0 _ _ id hnx
    (fun i hi => ⟨hi, rfl, rfl⟩) (fun i hi => ⟨i, hi, rfl⟩)
    (exactScan_isMin mX.pr mY.pr mX.dims0 mY.dims0 mX.dims1 (dthresh2Of mX.dims0 mThresh) _ j)
    (exactScan_isMin mX.pr mY.pr mX.dims0 mY.dims0 mX.dims1 (dthresh2Of mX.dims0 mThresh)
      0 j)).1

/-- Exact-arithmetic form of order independence: on the exact embedding, permuting the rows of
`X` together with the thresholds leaves the distance output unchanged. -/
theorem order_independence (nlhs nrhs : Nat) (mX mX' mY mThresh mThresh' : MxArray)
    (nx : Nat) (σ : Equiv.Perm (Fin nx))
    (hv : ValidCall nlhs nrhs mX mY mThresh) (hnx : nx ≤ intMax)
    (hdim : mX.dims0 = nx) (hdim' : mX'.dims0 = nx) (hD : mX'.dims1 = mX.dims1)
    (hrows : ∀ (i : Fin nx) (k : Nat), k < mX.dims1 →
      rd mX'.pr (i.val + k * nx) = rd mX.pr ((σ i).val + k * nx))
    (hT0 : mThresh'.dims0 = mThresh.dims0) (hT1 : mThresh'.dims1 = mThresh.dims1)
    (hTd : mThresh'.isDouble = mThresh.isDouble) (hTc : mThresh'.isComplex = mThresh.isComplex)
    (hth : ∀ i : Fin nx, threshOf mThresh' i.val = threshOf mThresh (σ i).val) :
    ∃ idxs idxs' dists,
      mexFunction nlhs nrhs mX mY mThresh = MexResult.ok idxs dists ∧
      mexFunction nlhs nrhs mX' mY mThresh' = MexResult.ok idxs' dists ∧
      dists.length = mY.dims0 ∧
      ∀ j, j < mY.dims0 → (idxs.getD j Val.nan = Val.nan ↔ idxs'.getD j Val.nan = Val.nan) := by
  have hnumel : mxGetNumberOfElements mThresh' = mxGetNumberOfElements mThresh := by
    unfold mxGetNumberOfElements
    rw [hT0, hT1]
  have hv' : ValidCall nlhs nrhs mX' mY mThresh' := by
    obtain ⟨h1, h2, h3, h4⟩ := hv
    refine ⟨h1, h2, by rw [hD]; exact h3, ?_⟩
    rw [hnumel, hTd, hTc, hdim', ← hdim]
    exact h4
  rw [mexFunction_valid nlhs nrhs mX mY mThresh hv,
    mexFunction_valid nlhs nrhs mX' mY mThresh' hv', hdim', hD, hdim]
  obtain ⟨p0, p1, hok, _, hl1, hcells⟩ :=
    mexCore_spec mX.pr mY.pr nx mY.dims0 mX.dims1 (dthresh2Of nx mThresh)
  obtain ⟨q0, q1, hok', _, hl1', hcells'⟩ :=
    mexCore_spec mX'.pr mY.pr nx mY.dims0 mX.dims1 (dthresh2Of nx mThresh')
  have hpair : ∀ j, j < mY.dims0 →
      p1.getD j Val.nan = q1.getD j Val.nan ∧
        (p0.getD j Val.nan = Val.nan ↔ q0.getD j Val.nan = Val.nan) := by
    intro j hj
    rw [(hcells j hj).1, (hcells j hj).2, (hcells' j hj).1, (hcells' j hj).2]
    have hm := isMin_congr_th _ _ (thresh2Of mThresh) nx _
      (dthresh2Of_spec nx mThresh)
      (exactScan_isMin mX.pr mY.pr nx mY.dims0 mX.dims1 (dthresh2Of nx mThresh)
        (offsetAt mX.pr mY.pr nx mY.dims0 mX.dims1 (dthresh2Of nx mThresh) j) j)
    have hm' := isMin_congr_th _ _ (thresh2Of mThresh') nx _
      (dthresh2Of_spec nx mThresh')
      (exactScan_isMin mX'.pr mY.pr nx mY.dims0 mX.dims1 (dthresh2Of nx mThresh')
        (offsetAt mX'.pr mY.pr nx mY.dims0 mX.dims1 (dthresh2Of nx mThresh') j) j)
    have hc := cells_pair_of_isMin _ _ _ _ nx _ _
      (fun i => if h : i < nx then (σ ⟨i, h⟩).val else i) hnx
      (by
        intro i hi
        simp only [hi, dif_pos]
        refine ⟨(σ ⟨i, hi⟩).isLt, ?_, ?_⟩
        · unfold fullDist2
          apply Finset.sum_congr rfl
          intro k hk
          rw [hrows ⟨i, hi⟩ k (Finset.mem_range.mp hk)]
        · rw [thresh2Of_eq, thresh2Of_eq, hth ⟨i, hi⟩])
      (by
        intro i hi
        refine ⟨(σ.symm ⟨i, hi⟩).val, (σ.symm ⟨i, hi⟩).isLt, ?_⟩
        simp)
      hm hm'
    refine ⟨hc.1, ?_⟩
    rcases hc.2 with ⟨a1, a2⟩ | ⟨i, i', d, _, _, a1, a2, _⟩
    · rw [a1, a2]
    · rw [a1, a2]
      simp
  have e : p1 = q1 := ext_of_getD p1 q1 mY.dims0 Val.nan hl1 hl1' (fun j hj => (hpair j hj).1)
  refine ⟨p0, q0, p1, hok, ?_, hl1, fun j hj => (hpair j hj).2⟩
  rw [hok', e]

/-- Exact-arithmetic form of offset independence: on the exact embedding, a query has the same
distance cell in sequence and alone, and both reported references are eligible at that
distance. -/
theorem warm_start_keeps_distance (nlhs nrhs : Nat) (mX mY mThresh : MxArray)
    (hv : ValidCall nlhs nrhs mX mY mThresh) (hnx : mX.dims0 ≤ intMax)
    (j : Nat) (hj : j < mY.dims0) :
    ∃ plhs0 plhs1 a0 a1,
      mexFunction nlhs nrhs mX mY mThresh = MexResult.ok plhs0 plhs1 ∧
      mexFunction nlhs nrhs mX (singleQuery mY j) mThresh = MexResult.ok a0 a1 ∧
      plhs1.getD j Val.nan = a1.getD 0 Val.nan ∧
      ((plhs0.getD j Val.nan = Val.nan ∧ a0.getD 0 Val.nan = Val.nan) ∨
        ∃ (i i0 : Nat) (d : ℚ), i < mX.dims0 ∧ i0 < mX.dims0 ∧
          plhs0.getD j Val.nan = Val.num ((i : ℚ) + 1) ∧
          a0.getD 0 Val.nan = Val.num ((i0 : ℚ) + 1) ∧
          plhs1.getD j Val.nan = Val.sqrt d ∧
          fullDist2 mX.pr i mY.pr j mX.dims1 mX.dims0 mY.dims0 = d ∧
          fullDist2 mX.pr i0 mY.pr j mX.dims1 mX.dims0 mY.dims0 = d ∧
          d ≤ thresh2Of mThresh i ∧ d ≤ thresh2Of mThresh i0) := by
  have hD : mX.dims1 = mY.dims1 := hv.2.2.1
  have hv' : ValidCall nlhs nrhs mX (singleQuery mY j) mThresh :=
    ⟨hv.1, hv.2.1, hD, hv.2.2.2⟩
  rw [mexFunction_valid nlhs nrhs mX mY mThresh hv,
    mexFunction_valid nlhs nrhs mX (singleQuery mY j) mThresh hv']
  obtain ⟨p0, p1, hok, _, _, hcells⟩ :=
    mexCore_spec mX.pr mY.pr mX.dims0 mY.dims0 mX.dims1 (dthresh2Of mX.dims0 mThresh)
  obtain ⟨q0, q1, hok', _, _, hcells'⟩ :=
    mexCore_spec mX.pr (singleQuery mY j).pr mX.dims0 (singleQuery mY j).dims0 mX.dims1
      (dthresh2Of mX.dims0 mThresh)
  refine ⟨p0, p1, q0, q1, hok, hok', ?_⟩
  have h0 : (0 : Nat) < (singleQuery mY j).dims0 := Nat.one_pos
  rw [(hcells j hj).1, (hcells j hj).2, (hcells' 0 h0).1, (hcells' 0 h0).2]
  have hm := isMin_congr_th _ _ (thresh2Of mThresh) mX.dims0 _
    (dthresh2Of_spec mX.dims0 mThresh)
    (exactScan_isMin mX.pr mY.pr mX.dims0 mY.dims0 mX.dims1 (dthresh2Of mX.dims0 mThresh)
      (offsetAt mX.pr mY.pr mX.dims0 mY.dims0 mX.dims1 (dthresh2Of mX.dims0 mThresh) j) j)
  have hm' := isMin_congr_th _ _ (thresh2Of mThresh) mX.dims0 _
    (dthresh2Of_spec mX.dims0 mThresh)
    (exactScan_isMin mX.pr (singleQuery mY j).pr mX.dims0 (singleQuery mY j).dims0 mX.dims1
      (dthresh2Of mX.dims0 mThresh)
      (offsetAt mX.pr (singleQuery mY j).pr mX.dims0 (singleQuery mY j).dims0 mX.dims1
        (dthresh2Of mX.dims0 mThresh) 0) 0)
  have hfull : ∀ xj, fullDist2 mX.pr xj (singleQuery mY j).pr 0 mX.dims1 mX.dims0
      (singleQuery mY j).dims0 = fullDist2 mX.pr xj mY.pr j mX.dims1 mX.dims0 mY.dims0 := by
    intro xj
    rw [hD]
    exact fullDist2_singleQuery mX.pr mY xj j mX.dims0
  simp only [hfull] at hm'
  have hc := cells_pair_of_isMin _ _ _ _ mX.dims0 _ _ id hnx
    (fun i hi => ⟨hi, rfl, rfl⟩) (fun i hi => ⟨i, hi, rfl⟩) hm hm'
  exact hc

/-- Exact-arithmetic form of the tie-breaking rule: on the exact embedding, every query is
either unmatched, and then no eligible reference lies below the initial bound, or matched
to the first reference in circular order from the cursor among the eligible references at
the least eligible squared distance; the cursor follows the matched indices. -/
theorem first_minimiser_exact (nlhs nrhs : Nat) (mX mY mThresh : MxArray)
    (hv : ValidCall nlhs nrhs mX mY mThresh) (hnx : mX.dims0 ≤ intMax) :
    ∃ (plhs0 plhs1 : List Val) (off : Nat → Nat),
      mexFunction nlhs nrhs mX mY mThresh = MexResult.ok plhs0 plhs1 ∧ off 0 = 0 ∧
      ∀ j, j < mY.dims0 →
        (plhs0.getD j Val.nan = Val.nan ∧ plhs1.getD j Val.nan = Val.nan ∧
          off (j + 1) = off j ∧
          ∀ xj, xj < mX.dims0 →
            fullDist2 mX.pr xj mY.pr j mX.dims1 mX.dims0 mY.dims0 ≤ thresh2Of mThresh xj →
            (intMax : ℚ) ≤ fullDist2 mX.pr xj mY.pr j mX.dims1 mX.dims0 mY.dims0) ∨
        ∃ (m : Nat) (d : ℚ), m < mX.dims0 ∧
          plhs0.getD j Val.nan = Val.num ((((m + off j) % mX.dims0 : Nat) : ℚ) + 1) ∧
          plhs1.getD j Val.nan = Val.sqrt d ∧
          off (j + 1) = (m + off j) % mX.dims0 ∧
          fullDist2 mX.pr ((m + off j) % mX.dims0) mY.pr j mX.dims1 mX.dims0 mY.dims0 = d ∧
          d ≤ thresh2Of mThresh ((m + off j) % mX.dims0) ∧
          (∀ xj, xj < mX.dims0 →
            fullDist2 mX.pr xj mY.pr j mX.dims1 mX.dims0 mY.dims0 ≤ thresh2Of mThresh xj →
            d ≤ fullDist2 mX.pr xj mY.pr j mX.dims1 mX.dims0 mY.dims0) ∧
          ∀ m', m' < m →
            fullDist2 mX.pr ((m' + off j) % mX.dims0) mY.pr j mX.dims1 mX.dims0 mY.dims0 ≤
              thresh2Of mThresh ((m' + off j) % mX.dims0) →
            d < fullDist2 mX.pr ((m' + off j) % mX.dims0) mY.pr j mX.dims1 mX.dims0
              mY.dims0 := by
  rw [mexFunction_valid nlhs nrhs mX mY mThresh hv]
  obtain ⟨p0, p1, hok, _, _, hcells⟩ :=
    mexCore_spec mX.pr mY.pr mX.dims0 mY.dims0 mX.dims1 (dthresh2Of mX.dims0 mThresh)
  refine ⟨p0, p1, offsetAt mX.pr mY.pr mX.dims0 mY.dims0 mX.dims1 (dthresh2Of mX.dims0 mThresh),
    hok, rfl, fun j hj => ?_⟩
  rw [(hcells j hj).1, (hcells j hj).2]
  have hinv := exactScan_inv mX.pr mY.pr mX.dims0 mY.dims0 mX.dims1
    (dthresh2Of mX.dims0 mThresh)
    (offsetAt mX.pr mY.pr mX.dims0 mY.dims0 mX.dims1 (dthresh2Of mX.dims0 mThresh) j) j
  have hmin := exactScan_isMin mX.pr mY.pr mX.dims0 mY.dims0 mX.dims1
    (dthresh2Of mX.dims0 mThresh)
    (offsetAt mX.pr mY.pr mX.dims0 mY.dims0 mX.dims1 (dthresh2Of mX.dims0 mThresh) j) j
  have hoff : offsetAt mX.pr mY.pr mX.dims0 mY.dims0 mX.dims1 (dthresh2Of mX.dims0 mThresh)
      (j + 1) = nextOffset
        (offsetAt mX.pr mY.pr mX.dims0 mY.dims0 mX.dims1 (dthresh2Of mX.dims0 mThresh) j)
        (exactScan mX.pr mY.pr mX.dims0 mY.dims0 mX.dims1 (dthresh2Of mX.dims0 mThresh)
          (offsetAt mX.pr mY.pr mX.dims0 mY.dims0 mX.dims1 (dthresh2Of mX.dims0 mThresh) j)
          j) := rfl
  rw [hoff]
  generalize offsetAt mX.pr mY.pr mX.dims0 mY.dims0 mX.dims1 (dthresh2Of mX.dims0 mThresh) j
    = o at hinv hmin ⊢
  generalize exactScan mX.pr mY.pr mX.dims0 mY.dims0 mX.dims1 (dthresh2Of mX.dims0 mThresh) o j
    = b at hinv hmin ⊢
  have hth : ∀ xj, xj < mX.dims0 →
      rd (dthresh2Of mX.dims0 mThresh) xj = thresh2Of mThresh xj :=
    fun xj hxj => dthresh2Of_spec mX.dims0 mThresh xj hxj
  have hall : ∀ xj, xj < mX.dims0 →
      fullDist2 mX.pr xj mY.pr j mX.dims1 mX.dims0 mY.dims0 ≤ thresh2Of mThresh xj →
      b.bestdist2 ≤ fullDist2 mX.pr xj mY.pr j mX.dims1 mX.dims0 mY.dims0 :=
    fun xj hxj he => hmin.2.2 xj hxj (by rw [hth xj hxj]; exact he)
  rcases hinv.2.1 with h0 | ⟨m, hm, e1, e2, e3, _, e5⟩
  · left
    rw [h0] at hall ⊢
    exact ⟨by simp [idxCell, bestInit], by simp [distCell, bestInit],
      by simp [nextOffset, bestInit], hall⟩
  · right
    have hpos : 0 < mX.dims0 := by omega
    have hlt : (m + o) % mX.dims0 < mX.dims0 := Nat.mod_lt _ hpos
    have hb : b.bestxj < intMax := by
      rw [e1]
      omega
    refine ⟨m, b.bestdist2, hm, by rw [← e1]; simp [idxCell, hb], by simp [distCell, hb],
      by simp only [nextOffset, hb, if_true]; exact e1, e2.symm, ?_, hall, fun m' hm' he => ?_⟩
    · rw [← hth _ hlt, e2]
      exact e3
    · rw [← hth _ (Nat.mod_lt _ hpos)] at he
      exact e5 m' hm' he

/-! ## Binary64 rounding -/

theorem ilog2_le (fuel n : Nat) (hn : 1 ≤ n) : 2 ^ Ieee.ilog2 fuel n ≤ n := by
  induction fuel generalizing n with
  | zero => simpa [Ieee.ilog2] using hn
  | succ f ih =>
    rw [Ieee.ilog2]
    split_ifs with h
    · have h1 : 1 ≤ n / 2 := by omega
      have := ih (n / 2) h1
      rw [pow_succ]
      omega
    · simpa using hn

theorem ilog2_lt (fuel n : Nat) (hf : n < 2 ^ fuel) : n < 2 ^ (Ieee.ilog2 fuel n + 1) := by
  induction fuel generalizing n with
  | zero =>
    simp at hf
    subst hf
    simp [Ieee.ilog2]
  | succ f ih =>
    rw [Ieee.ilog2]
    split_ifs with h
    · have h1 : n / 2 < 2 ^ f := by
        rw [pow_succ] at hf
        omega
      have := ih (n / 2) h1
      rw [pow_succ]
      omega
    · simp
      omega

theorem roundHalfEven_intCast (z : ℤ) : Ieee.roundHalfEven (z : ℚ) = z := by
  unfold Ieee.roundHalfEven
  simp

theorem roundHalfEven_mono (x y : ℚ) (h : x ≤ y) :
    Ieee.roundHalfEven x ≤ Ieee.roundHalfEven y := by
  have hf : ⌊x⌋ ≤ ⌊y⌋ := Int.floor_mono h
  have hx1 := Int.floor_le x
  have hx2 := Int.lt_floor_add_one x
  have hy1 := Int.floor_le y
  have hy2 := Int.lt_floor_add_one y
  unfold Ieee.roundHalfEven
  rcases lt_or_eq_of_le hf with hlt | heq
  · split_ifs <;> omega
  · have hc : (⌊x⌋ : ℚ) = (⌊y⌋ : ℚ) := by rw [heq]
    split_ifs <;> first | omega | (exfalso; linarith)

theorem binade_spec (q : ℚ) (hq : q ≠ 0) :
    (2 : ℚ) ^ Ieee.binade q ≤ |q| ∧ |q| < (2 : ℚ) ^ (Ieee.binade q + 1) := by
  have hnum : 1 ≤ q.num.natAbs :=
    Nat.one_le_iff_ne_zero.mpr (Int.natAbs_ne_zero.mpr (Rat.num_ne_zero.mpr hq))
  have hden : 1 ≤ q.den := q.den_pos
  have habs : |q| = (q.num.natAbs : ℚ) / (q.den : ℚ) := by
    conv_lhs => rw [← Rat.num_div_den q]
    rw [abs_div, Nat.abs_cast, ← Int.cast_abs, Int.abs_eq_natAbs, Int.cast_natCast]
  have a1 : ((2 : ℚ) ^ Ieee.ilog2 q.num.natAbs q.num.natAbs) ≤ (q.num.natAbs : ℚ) := by
    exact_mod_cast ilog2_le _ _ hnum
  have a2 : (q.num.natAbs : ℚ) < (2 : ℚ) ^ (Ieee.ilog2 q.num.natAbs q.num.natAbs + 1) := by
    exact_mod_cast ilog2_lt _ _ (Nat.lt_two_pow _)
  have b1 : ((2 : ℚ) ^ Ieee.ilog2 q.den q.den) ≤ (q.den : ℚ) := by
    exact_mod_cast ilog2_le _ _ hden
  have b2 : (q.den : ℚ) < (2 : ℚ) ^ (Ieee.ilog2 q.den q.den + 1) := by
    exact_mod_cast ilog2_lt _ _ (Nat.lt_two_pow _)
  have hd0 : (0 : ℚ) < (q.den : ℚ) := by exact_mod_cast hden
  have hn0 : (0 : ℚ) ≤ (q.num.natAbs : ℚ) := Nat.cast_nonneg _
  have lo : (2 : ℚ) ^ ((Ieee.ilog2 q.num.natAbs q.num.natAbs : ℤ) -
      (Ieee.ilog2 q.den q.den : ℤ) - 1) ≤ |q| := by
    rw [show (Ieee.ilog2 q.num.natAbs q.num.natAbs : ℤ) - (Ieee.ilog2 q.den q.den : ℤ) - 1 =
        (Ieee.ilog2 q.num.natAbs q.num.natAbs : ℤ) - ((Ieee.ilog2 q.den q.den + 1 : ℕ) : ℤ) by
      push_cast; ring, zpow_sub₀ two_ne_zero, zpow_natCast, zpow_natCast, habs]
    exact div_le_div₀ hn0 a1 hd0 (le_of_lt b2)
  have hi : |q| < (2 : ℚ) ^ ((Ieee.ilog2 q.num.natAbs q.num.natAbs : ℤ) -
      (Ieee.ilog2 q.den q.den : ℤ) + 1) := by
    rw [show (Ieee.ilog2 q.num.natAbs q.num.natAbs : ℤ) - (Ieee.ilog2 q.den q.den : ℤ) + 1 =
        ((Ieee.ilog2 q.num.natAbs q.num.natAbs + 1 : ℕ) : ℤ) - (Ieee.ilog2 q.den q.den : ℤ) by
      push_cast; ring, zpow_sub₀ two_ne_zero, zpow_natCast, zpow_natCast, habs]
    exact div_lt_div₀ a2 b1 (by positivity) (by positivity)
  unfold Ieee.binade
  split_ifs with h
  · exact ⟨h, hi⟩
  · refine ⟨lo, ?_⟩
    rw [sub_add_cancel]
    exact not_le.mp h

theorem ulp_pos (q : ℚ) : 0 < Ieee.ulp q := by
  unfold Ieee.ulp
  exact zpow_pos (by norm_num) _

theorem abs_lt_ulp_mul (q : ℚ) : |q| < (2 : ℚ) ^ (53 : ℕ) * Ieee.ulp q := by
  have e : (2 : ℚ) ^ (53 : ℕ) * Ieee.ulp q = (2 : ℚ) ^ (max (Ieee.binade q) (-1022) + 1) := by
    unfold Ieee.ulp
    rw [← zpow_natCast, ← zpow_add₀ two_ne_zero]
    congr 1
    push_cast
    ring
  rw [e]
  by_cases hq : q = 0
  · rw [hq, abs_zero]
    exact zpow_pos (by norm_num) _
  · exact lt_of_lt_of_le (binade_spec q hq).2
      (zpow_le_zpow_right₀ (by norm_num) (by have := le_max_left (Ieee.binade q) (-1022); omega))

theorem roundHalfEven_ulp_bounds (q : ℚ) :
    -(2 ^ 53 : ℤ) ≤ Ieee.roundHalfEven (q / Ieee.ulp q) ∧
      Ieee.roundHalfEven (q / Ieee.ulp q) ≤ (2 ^ 53 : ℤ) := by
  have hu := ulp_pos q
  have h := abs_lt_ulp_mul q
  have h1 : |q / Ieee.ulp q| < (2 : ℚ) ^ (53 : ℕ) := by
    rw [abs_div, abs_of_pos hu, div_lt_iff₀ hu]
    exact h
  rw [abs_lt] at h1
  constructor
  · have := roundHalfEven_mono (((-(2 ^ 53 : ℤ) : ℤ)) : ℚ) (q / Ieee.ulp q) (by
      push_cast
      exact le_of_lt h1.1)
    rwa [roundHalfEven_intCast] at this
  · have := roundHalfEven_mono (q / Ieee.ulp q) (((2 ^ 53 : ℤ) : ℤ) : ℚ) (by
      push_cast
      exact le_of_lt h1.2)
    rwa [roundHalfEven_intCast] at this

theorem roundDouble_zero : Ieee.roundDouble 0 = 0 := by
  unfold Ieee.roundDouble
  rw [zero_div]
  have := roundHalfEven_intCast 0
  rw [Int.cast_zero] at this
  rw [this]
  simp

theorem roundDouble_of_div_int (v : ℚ) (z : ℤ) (h : v / Ieee.ulp v = (z : ℚ)) :
    Ieee.roundDouble v = v := by
  unfold Ieee.roundDouble
  rw [h, roundHalfEven_intCast, ← h]
  exact div_mul_cancel₀ v (ne_of_gt (ulp_pos v))

theorem roundDouble_repr_lt (m k : ℤ) (hm : |m| < 2 ^ 53) (hk : -1074 ≤ k) :
    Ieee.roundDouble ((m : ℚ) * (2 : ℚ) ^ k) = (m : ℚ) * (2 : ℚ) ^ k := by
  by_cases hm0 : m = 0
  · rw [hm0, Int.cast_zero, zero_mul]
    exact roundDouble_zero
  have h2k : (0 : ℚ) < (2 : ℚ) ^ k := zpow_pos (by norm_num) _
  have hv : (m : ℚ) * (2 : ℚ) ^ k ≠ 0 :=
    mul_ne_zero (Int.cast_ne_zero.mpr hm0) (ne_of_gt h2k)
  obtain ⟨s1, _⟩ := binade_spec _ hv
  have habs : |(m : ℚ) * (2 : ℚ) ^ k| < (2 : ℚ) ^ (53 + k) := by
    rw [abs_mul, abs_of_pos h2k, zpow_add₀ two_ne_zero]
    apply mul_lt_mul_of_pos_right _ h2k
    have : ((|m| : ℤ) : ℚ) < ((2 ^ 53 : ℤ) : ℚ) := Int.cast_lt.mpr hm
    rw [Int.cast_abs] at this
    rw [show ((53 : ℤ)) = ((53 : ℕ) : ℤ) by rfl, zpow_natCast]
    exact_mod_cast this
  have he : Ieee.binade ((m : ℚ) * (2 : ℚ) ^ k) < 53 + k :=
    (zpow_lt_zpow_iff_right₀ (by norm_num : (1 : ℚ) < 2)).mp (lt_of_le_of_lt s1 habs)
  have hk' : max (Ieee.binade ((m : ℚ) * (2 : ℚ) ^ k)) (-1022) - 52 ≤ k := by
    rcases max_cases (Ieee.binade ((m : ℚ) * (2 : ℚ) ^ k)) (-1022) with ⟨e, _⟩ | ⟨e, _⟩ <;>
      rw [e] <;> omega
  obtain ⟨n, hn⟩ : ∃ n : ℕ, k = max (Ieee.binade ((m : ℚ) * (2 : ℚ) ^ k)) (-1022) - 52 + n :=
    ⟨(k - (max (Ieee.binade ((m : ℚ) * (2 : ℚ) ^ k)) (-1022) - 52)).toNat, by omega⟩
  apply roundDouble_of_div_int _ (m * 2 ^ n)
  have hu : Ieee.ulp ((m : ℚ) * (2 : ℚ) ^ k) =
      (2 : ℚ) ^ (max (Ieee.binade ((m : ℚ) * (2 : ℚ) ^ k)) (-1022) - 52) := rfl
  rw [hu]
  have hpos : (0 : ℚ) < (2 : ℚ) ^ (max (Ieee.binade ((m : ℚ) * (2 : ℚ) ^ k)) (-1022) - 52) :=
    zpow_pos (by norm_num) _
  rw [div_eq_iff (ne_of_gt hpos)]
  push_cast
  conv_lhs => rw [hn]
  rw [zpow_add₀ two_ne_zero, zpow_natCast]
  ring

theorem roundDouble_repr (m k : ℤ) (hm : |m| ≤ 2 ^ 53) (hk : -1074 ≤ k) :
    Ieee.roundDouble ((m : ℚ) * (2 : ℚ) ^ k) = (m : ℚ) * (2 : ℚ) ^ k := by
  rcases lt_or_eq_of_le hm with h | h
  · exact roundDouble_repr_lt m k h hk
  · have e : (m : ℚ) * (2 : ℚ) ^ k = ((m / 2 : ℤ) : ℚ) * (2 : ℚ) ^ (k + 1) := by
      have h2 : m = 2 * (m / 2) := by
        rcases abs_eq (by norm_num : (0 : ℤ) ≤ 2 ^ 53) |>.mp h with h' | h' <;> rw [h'] <;>
          norm_num
      rw [zpow_add₀ two_ne_zero, zpow_one]
      conv_lhs => rw [h2]
      push_cast
      ring
    rw [e]
    apply roundDouble_repr_lt
    · rcases abs_eq (by norm_num : (0 : ℤ) ≤ 2 ^ 53) |>.mp h with h' | h' <;> rw [h'] <;>
        norm_num
    · omega

theorem roundDouble_idem (x : ℚ) : Ieee.roundDouble (Ieee.roundDouble x) = Ieee.roundDouble x := by
  have hb := roundHalfEven_ulp_bounds x
  have hk : -1074 ≤ max (Ieee.binade x) (-1022) - 52 := by
    have := le_max_right (Ieee.binade x) (-1022)
    omega
  have e : Ieee.roundDouble x = ((Ieee.roundHalfEven (x / Ieee.ulp x) : ℤ) : ℚ) *
      (2 : ℚ) ^ (max (Ieee.binade x) (-1022) - 52) := rfl
  rw [e]
  exact roundDouble_repr _ _ (abs_le.mpr hb) hk

theorem roundDouble_exactOnInts (n : ℤ) (h : |n| ≤ 9007199254740992) :
    Ieee.roundDouble (n : ℚ) = (n : ℚ) := by
  have := roundDouble_repr n 0 (by norm_num; exact h) (by norm_num)
  simpa using this

theorem roundDouble_nonneg (q : ℚ) (h : 0 ≤ q) : 0 ≤ Ieee.roundDouble q := by
  unfold Ieee.roundDouble
  have h1 := roundHalfEven_mono ((0 : ℤ) : ℚ) (q / Ieee.ulp q) (by
    rw [Int.cast_zero]
    exact div_nonneg h (le_of_lt (ulp_pos q)))
  rw [roundHalfEven_intCast] at h1
  exact mul_nonneg (by exact_mod_cast h1) (le_of_lt (ulp_pos q))

theorem roundDouble_nonpos (q : ℚ) (h : q ≤ 0) : Ieee.roundDouble q ≤ 0 := by
  unfold Ieee.roundDouble
  have h1 := roundHalfEven_mono (q / Ieee.ulp q) ((0 : ℤ) : ℚ) (by
    rw [Int.cast_zero]
    exact div_nonpos_of_nonpos_of_nonneg h (le_of_lt (ulp_pos q)))
  rw [roundHalfEven_intCast] at h1
  exact mul_nonpos_of_nonpos_of_nonneg (by exact_mod_cast h1) (le_of_lt (ulp_pos q))

theorem roundDouble_abs_le (q : ℚ) :
    -(2 : ℚ) ^ (max (Ieee.binade q) (-1022) + 1) ≤ Ieee.roundDouble q ∧
      Ieee.roundDouble q ≤ (2 : ℚ) ^ (max (Ieee.binade q) (-1022) + 1) := by
  have e : (2 : ℚ) ^ (max (Ieee.binade q) (-1022) + 1) = (2 : ℚ) ^ (53 : ℕ) * Ieee.ulp q := by
    unfold Ieee.ulp
    rw [← zpow_natCast, ← zpow_add₀ two_ne_zero]
    congr 1
    push_cast
    ring
  obtain ⟨h1, h2⟩ := roundHalfEven_ulp_bounds q
  have hu := ulp_pos q
  have h1' : (-(2 : ℚ) ^ (53 : ℕ)) ≤ (Ieee.roundHalfEven (q / Ieee.ulp q) : ℚ) := by
    exact_mod_cast h1
  have h2' : (Ieee.roundHalfEven (q / Ieee.ulp q) : ℚ) ≤ (2 : ℚ) ^ (53 : ℕ) := by
    exact_mod_cast h2
  rw [e]
  unfold Ieee.roundDouble
  constructor
  · rw [← neg_mul]
    exact mul_le_mul_of_nonneg_right h1' (le_of_lt hu)
  · exact mul_le_mul_of_nonneg_right h2' (le_of_lt hu)

theorem ulp_normal (q : ℚ) (he : -1022 ≤ Ieee.binade q) :
    (2 : ℚ) ^ Ieee.binade q = (2 : ℚ) ^ (52 : ℕ) * Ieee.ulp q := by
  unfold Ieee.ulp
  rw [max_eq_left he, ← zpow_natCast, ← zpow_add₀ two_ne_zero]
  congr 1
  push_cast
  ring

theorem roundDouble_ge_binade (q : ℚ) (hq : 0 < q) (he : -1022 ≤ Ieee.binade q) :
    (2 : ℚ) ^ Ieee.binade q ≤ Ieee.roundDouble q := by
  have hu := ulp_pos q
  have hs := (binade_spec q (ne_of_gt hq)).1
  rw [abs_of_pos hq, ulp_normal q he] at hs
  have h1 := roundHalfEven_mono (((2 ^ 52 : ℤ) : ℤ) : ℚ) (q / Ieee.ulp q) (by
    rw [le_div_iff₀ hu]
    push_cast
    exact hs)
  rw [roundHalfEven_intCast] at h1
  have h1' : (2 : ℚ) ^ (52 : ℕ) ≤ (Ieee.roundHalfEven (q / Ieee.ulp q) : ℚ) := by
    exact_mod_cast h1
  rw [ulp_normal q he]
  unfold Ieee.roundDouble
  exact mul_le_mul_of_nonneg_right h1' (le_of_lt hu)

theorem roundDouble_le_neg_binade (q : ℚ) (hq : q < 0) (he : -1022 ≤ Ieee.binade q) :
    Ieee.roundDouble q ≤ -(2 : ℚ) ^ Ieee.binade q := by
  have hu := ulp_pos q
  have hs := (binade_spec q (ne_of_lt hq)).1
  rw [abs_of_neg hq, ulp_normal q he] at hs
  have h1 := roundHalfEven_mono (q / Ieee.ulp q) (((-(2 ^ 52) : ℤ) : ℤ) : ℚ) (by
    rw [div_le_iff₀ hu]
    push_cast
    linarith)
  rw [roundHalfEven_intCast] at h1
  have h1' : (Ieee.roundHalfEven (q / Ieee.ulp q) : ℚ) ≤ -(2 : ℚ) ^ (52 : ℕ) := by
    exact_mod_cast h1
  rw [ulp_normal q he, ← neg_mul]
  unfold Ieee.roundDouble
  exact mul_le_mul_of_nonneg_right h1' (le_of_lt hu)

theorem binade_mono_abs (x y : ℚ) (hx : x ≠ 0) (hy : y ≠ 0) (h : |x| ≤ |y|) :
    Ieee.binade x ≤ Ieee.binade y := by
  have h1 := (binade_spec x hx).1
  have h2 := (binade_spec y hy).2
  have := (zpow_lt_zpow_iff_right₀ (by norm_num : (1 : ℚ) < 2)).mp
    (lt_of_le_of_lt (le_trans h1 h) h2)
  omega

theorem roundDouble_same_ulp (x y : ℚ) (h : x ≤ y)
    (hk : max (Ieee.binade x) (-1022) = max (Ieee.binade y) (-1022)) :
    Ieee.roundDouble x ≤ Ieee.roundDouble y := by
  have hu : Ieee.ulp x = Ieee.ulp y := by
    unfold Ieee.ulp
    rw [hk]
  unfold Ieee.roundDouble
  rw [hu]
  have := roundHalfEven_mono (x / Ieee.ulp y) (y / Ieee.ulp y)
    (div_le_div_of_nonneg_right h (le_of_lt (ulp_pos y)))
  exact mul_le_mul_of_nonneg_right (by exact_mod_cast this) (le_of_lt (ulp_pos y))

theorem roundDouble_mono (x y : ℚ) (h : x ≤ y) : Ieee.roundDouble x ≤ Ieee.roundDouble y := by
  rcases lt_trichotomy 0 x with hx | hx | hx
  · have hy : 0 < y := lt_of_lt_of_le hx h
    have hb := binade_mono_abs x y (ne_of_gt hx) (ne_of_gt hy)
      (by rw [abs_of_pos hx, abs_of_pos hy]; exact h)
    by_cases hk : max (Ieee.binade x) (-1022) = max (Ieee.binade y) (-1022)
    · exact roundDouble_same_ulp x y h hk
    · have hlt : max (Ieee.binade x) (-1022) < Ieee.binade y ∧ -1022 ≤ Ieee.binade y := by
        rcases max_cases (Ieee.binade x) (-1022) with ⟨e1, _⟩ | ⟨e1, _⟩ <;>
          rcases max_cases (Ieee.binade y) (-1022) with ⟨e2, _⟩ | ⟨e2, _⟩ <;>
          rw [e1, e2] at hk <;> rw [e1] <;> omega
      refine le_trans (roundDouble_abs_le x).2 (le_trans ?_ (roundDouble_ge_binade y hy hlt.2))
      exact zpow_le_zpow_right₀ (by norm_num) (by omega)
  · rw [← hx, roundDouble_zero]
    exact roundDouble_nonneg y (by rw [← hx] at h; exact h)
  · rcases le_or_lt 0 y with hy | hy
    · exact le_trans (roundDouble_nonpos x (le_of_lt hx)) (roundDouble_nonneg y hy)
    · have hb := binade_mono_abs y x (ne_of_lt hy) (ne_of_lt hx)
        (by rw [abs_of_neg hx, abs_of_neg hy]; linarith)
      by_cases hk : max (Ieee.binade x) (-1022) = max (Ieee.binade y) (-1022)
      · exact roundDouble_same_ulp x y h hk
      · have hlt : max (Ieee.binade y) (-1022) < Ieee.binade x ∧ -1022 ≤ Ieee.binade x := by
          rcases max_cases (Ieee.binade x) (-1022) with ⟨e1, _⟩ | ⟨e1, _⟩ <;>
            rcases max_cases (Ieee.binade y) (-1022) with ⟨e2, _⟩ | ⟨e2, _⟩ <;>
            rw [e1, e2] at hk <;> rw [e2] <;> omega
        refine le_trans (roundDouble_le_neg_binade x hx hlt.2)
          (le_trans ?_ (roundDouble_abs_le y).1)
        rw [neg_le_neg_iff]
        exact zpow_le_zpow_right₀ (by norm_num) (by omega)

theorem roundDouble_isRounding : Ieee.IsRounding Ieee.roundDouble :=
  ⟨roundDouble_mono, roundDouble_idem, roundDouble_zero⟩

/-! ## Inputs on which no operation rounds -/

theorem smallInts_rd (M : Nat) (mem : List ℚ) (h : Ieee.SmallInts M mem) (i : Nat) :
    ∃ n : ℤ, rd mem i = (n : ℚ) ∧ |n| ≤ (M : ℤ) := by
  unfold rd
  by_cases hi : i < mem.length
  · have hmem : mem.getD i 0 ∈ mem := by
      rw [List.getD_eq_getElem _ _ hi]
      exact List.getElem_mem hi
    obtain ⟨h1, h2⟩ := h _ hmem
    refine ⟨(mem.getD i 0).num, ((Rat.den_eq_one_iff _).mp h1).symm, ?_⟩
    rw [Int.abs_eq_natAbs]
    exact_mod_cast h2
  · refine ⟨0, ?_, by simp⟩
    rw [List.getD_eq_default _ _ (not_lt.mp hi)]
    simp

theorem ieee_term_small (fl : ℚ → ℚ) (hfl : Ieee.ExactOnInts fl) (M : ℤ) (x y : ℤ)
    (hx : |x| ≤ M) (hy : |y| ≤ M) (hM : 4 * (M * M) ≤ 9007199254740992) :
    fl (fl ((x : ℚ) - (y : ℚ)) * fl ((x : ℚ) - (y : ℚ))) = (((x - y) * (x - y) : ℤ) : ℚ) ∧
      0 ≤ (x - y) * (x - y) ∧ (x - y) * (x - y) ≤ 4 * (M * M) := by
  have hM0 : 0 ≤ M := le_trans (abs_nonneg x) hx
  rw [abs_le] at hx hy
  have hd : |x - y| ≤ 2 * M := by
    rw [abs_le]
    constructor <;> linarith
  have hsq : (x - y) * (x - y) ≤ 4 * (M * M) := by
    rw [abs_le] at hd
    nlinarith
  have h2M : 2 * M ≤ 9007199254740992 := by nlinarith
  have e1 : fl ((x : ℚ) - (y : ℚ)) = ((x - y : ℤ) : ℚ) := by
    rw [← Int.cast_sub]
    exact hfl _ (le_trans hd h2M)
  rw [e1, ← Int.cast_mul]
  refine ⟨hfl _ ?_, mul_self_nonneg _, hsq⟩
  rw [abs_of_nonneg (mul_self_nonneg _)]
  exact le_trans hsq hM

theorem ieee_eucldist2Loop_small (fl : ℚ → ℚ) (hfl : Ieee.ExactOnInts fl) (M : Nat)
    (memx memy : List ℚ) (hx : Ieee.SmallInts M memx) (hy : Ieee.SmallInts M memy)
    (dpx dpy n px py : Nat) (a : ℤ) (ha0 : 0 ≤ a)
    (ha : a + (n : ℤ) * (4 * ((M : ℤ) * (M : ℤ))) ≤ 9007199254740992) :
    Ieee.eucldist2Loop fl memx memy dpx dpy n px py (a : ℚ) =
        eucldist2Loop memx memy dpx dpy n px py (a : ℚ) ∧
      ∃ r : ℤ, eucldist2Loop memx memy dpx dpy n px py (a : ℚ) = (r : ℚ) ∧ 0 ≤ r ∧
        r ≤ a + (n : ℤ) * (4 * ((M : ℤ) * (M : ℤ))) := by
  induction n generalizing px py a with
  | zero => exact ⟨rfl, a, rfl, ha0, by simp⟩
  | succ n ih =>
    obtain ⟨u, hu, hub⟩ := smallInts_rd M memx hx px
    obtain ⟨v, hv, hvb⟩ := smallInts_rd M memy hy py
    have hMM : (0 : ℤ) ≤ 4 * ((M : ℤ) * (M : ℤ)) := by positivity
    have hn0 : (0 : ℤ) ≤ (n : ℤ) * (4 * ((M : ℤ) * (M : ℤ))) := by positivity
    push_cast at ha
    obtain ⟨t1, t2, t3⟩ := ieee_term_small fl hfl M u v hub hvb (by nlinarith)
    have hstep : fl ((a : ℚ) + fl (fl (rd memx px - rd memy py) * fl (rd memx px - rd memy py))) =
        ((a + (u - v) * (u - v) : ℤ) : ℚ) := by
      rw [hu, hv, t1, ← Int.cast_add]
      apply hfl
      rw [abs_of_nonneg (by linarith)]
      nlinarith
    have hex : (a : ℚ) + (rd memx px - rd memy py) * (rd memx px - rd memy py) =
        ((a + (u - v) * (u - v) : ℤ) : ℚ) := by
      rw [hu, hv]
      push_cast
      ring
    rw [Ieee.eucldist2Loop, eucldist2Loop, hstep, hex]
    obtain ⟨i1, r, i2, i3, i4⟩ := ih (px + dpx) (py + dpy) (a + (u - v) * (u - v))
      (by linarith) (by nlinarith)
    refine ⟨i1, r, i2, i3, ?_⟩
    push_cast
    nlinarith

theorem ieee_eucldist2BoundLoop_small (fl : ℚ → ℚ) (hfl : Ieee.ExactOnInts fl) (M : Nat)
    (memx memy : List ℚ) (hx : Ieee.SmallInts M memx) (hy : Ieee.SmallInts M memy)
    (dpx dpy : Nat) (B : ℚ) (n px py : Nat) (a : ℤ) (ha0 : 0 ≤ a)
    (ha : a + (n : ℤ) * (4 * ((M : ℤ) * (M : ℤ))) ≤ 9007199254740992) :
    Ieee.eucldist2BoundLoop fl memx memy dpx dpy B n px py (a : ℚ) =
        eucldist2BoundLoop memx memy dpx dpy B n px py (a : ℚ) ∧
      ∃ r : ℤ, eucldist2BoundLoop memx memy dpx dpy B n px py (a : ℚ) = (r : ℚ) ∧ 0 ≤ r ∧
        r ≤ a + (n : ℤ) * (4 * ((M : ℤ) * (M : ℤ))) := by
  induction n generalizing px py a with
  | zero => exact ⟨rfl, a, rfl, ha0, by simp⟩
  | succ n ih =>
    obtain ⟨u, hu, hub⟩ := smallInts_rd M memx hx px
    obtain ⟨v, hv, hvb⟩ := smallInts_rd M memy hy py
    have hMM : (0 : ℤ) ≤ 4 * ((M : ℤ) * (M : ℤ)) := by positivity
    have hn0 : (0 : ℤ) ≤ (n : ℤ) * (4 * ((M : ℤ) * (M : ℤ))) := by positivity
    push_cast at ha
    obtain ⟨t1, t2, t3⟩ := ieee_term_small fl hfl M u v hub hvb (by nlinarith)
    have hstep : fl ((a : ℚ) + fl (fl (rd memx px - rd memy py) * fl (rd memx px - rd memy py))) =
        ((a + (u - v) * (u - v) : ℤ) : ℚ) := by
      rw [hu, hv, t1, ← Int.cast_add]
      apply hfl
      rw [abs_of_nonneg (by linarith)]
      nlinarith
    have hex : (a : ℚ) + (rd memx px - rd memy py) * (rd memx px - rd memy py) =
        ((a + (u - v) * (u - v) : ℤ) : ℚ) := by
      rw [hu, hv]
      push_cast
      ring
    rw [Ieee.eucldist2BoundLoop, eucldist2BoundLoop]
    by_cases hB : (a : ℚ) < B
    · rw [if_pos hB, if_pos hB, hstep, hex]
      obtain ⟨i1, r, i2, i3, i4⟩ := ih (px + dpx) (py + dpy) (a + (u - v) * (u - v))
        (by linarith) (by nlinarith)
      refine ⟨i1, r, i2, i3, ?_⟩
      push_cast
      nlinarith
    · rw [if_neg hB, if_neg hB]
      refine ⟨rfl, a, rfl, ha0, ?_⟩
      push_cast
      nlinarith

theorem forLoopM_congr_inv {σ : Type} (f g : Nat → σ → Option σ) (P : σ → Prop) (n i : Nat)
    (s : σ) (hs : P s) (hfg : ∀ i s, P s → f i s = g i s)
    (hP : ∀ i s s', P s → g i s = some s' → P s') :
    forLoopM f n i s = forLoopM g n i s := by
  induction n generalizing i s with
  | zero => rfl
  | succ n ih =>
    rw [forLoopM, forLoopM, hfg i s hs]
    cases hg : g i s with
    | none => rfl
    | some s' => exact ih (i + 1) s' (hP i s s' hs hg)

theorem ieee_scanBody_small (fl : ℚ → ℚ) (hfl : Ieee.ExactOnInts fl) (M : Nat)
    (pX pY : List ℚ) (hx : Ieee.SmallInts M pX) (hy : Ieee.SmallInts M pY) (nx ny D : Nat)
    (hD : 16 * (D : ℤ) * ((M : ℤ) * (M : ℤ)) ≤ 9007199254740992)
    (interdist : List (List ℚ)) (dthresh2 : List ℚ) (offset yj xj2 : Nat) (s : Best)
    (hs : ∃ b : ℤ, s.bestdist2 = (b : ℚ) ∧ 0 ≤ b ∧ 4 * b ≤ 9007199254740992) :
    Ieee.scanBody fl pX pY nx ny D interdist dthresh2 offset yj xj2 s =
        scanBody pX pY nx ny D interdist dthresh2 offset yj xj2 s ∧
      ∀ s', scanBody pX pY nx ny D interdist dthresh2 offset yj xj2 s = some s' →
        ∃ b : ℤ, s'.bestdist2 = (b : ℚ) ∧ 0 ≤ b ∧ 4 * b ≤ 9007199254740992 := by
  obtain ⟨b, hb, hb0, hb4⟩ := hs
  have hMM : (0 : ℤ) ≤ (D : ℤ) * ((M : ℤ) * (M : ℤ)) := by positivity
  have h4 : fl (4 * s.bestdist2) = 4 * s.bestdist2 := by
    rw [hb]
    have := hfl (4 * b) (by rw [abs_of_nonneg (by linarith)]; exact hb4)
    push_cast at this
    exact this
  obtain ⟨e, r, hr, hr0, hrb⟩ := ieee_eucldist2BoundLoop_small fl hfl M pX pY hx hy nx ny
    s.bestdist2 D ((xj2 + offset) % nx) yj 0 (le_refl _) (by nlinarith)
  rw [Int.cast_zero] at e hr
  have hbound : Ieee.eucldist2Bound fl pX ((xj2 + offset) % nx) pY yj D nx ny s.bestdist2 =
      eucldist2Bound pX ((xj2 + offset) % nx) pY yj D nx ny s.bestdist2 := e
  constructor
  · unfold Ieee.scanBody scanBody
    simp only [h4, hbound]
  · intro s' hs'
    unfold scanBody at hs'
    have hr' : eucldist2Bound pX ((xj2 + offset) % nx) pY yj D nx ny s.bestdist2 = (r : ℚ) := hr
    simp only [] at hs'
    split_ifs at hs' with c0 c1 c2 c3
    all_goals first
      | (injection hs' with hs'; subst hs'; exact ⟨b, hb, hb0, hb4⟩)
      | (injection hs' with hs'; subst hs'; exact ⟨r, hr', hr0, by nlinarith⟩)

theorem ieee_scanQuery_small (fl : ℚ → ℚ) (hfl : Ieee.ExactOnInts fl) (M : Nat)
    (pX pY : List ℚ) (hx : Ieee.SmallInts M pX) (hy : Ieee.SmallInts M pY) (nx ny D : Nat)
    (hD : 16 * (D : ℤ) * ((M : ℤ) * (M : ℤ)) ≤ 9007199254740992)
    (interdist : List (List ℚ)) (dthresh2 : List ℚ) (offset yj : Nat) :
    Ieee.scanQuery fl pX pY nx ny D interdist dthresh2 offset yj =
      scanQuery pX pY nx ny D interdist dthresh2 offset yj := by
  unfold Ieee.scanQuery scanQuery
  exact forLoopM_congr_inv _ _
    (fun s => ∃ b : ℤ, s.bestdist2 = (b : ℚ) ∧ 0 ≤ b ∧ 4 * b ≤ 9007199254740992) nx 0 bestInit
    ⟨2147483647, by simp [bestInit, intMax], by norm_num, by norm_num⟩
    (fun i s hs => (ieee_scanBody_small fl hfl M pX pY hx hy nx ny D hD interdist dthresh2
      offset yj i s hs).1)
    (fun i s s' hs h => (ieee_scanBody_small fl hfl M pX pY hx hy nx ny D hD interdist dthresh2
      offset yj i s hs).2 s' h)

theorem ieee_mexCore_small (fl : ℚ → ℚ) (hfl : Ieee.ExactOnInts fl) (M : Nat)
    (pX pY : List ℚ) (hx : Ieee.SmallInts M pX) (hy : Ieee.SmallInts M pY) (nx ny D : Nat)
    (hD : 16 * (D : ℤ) * ((M : ℤ) * (M : ℤ)) ≤ 9007199254740992) (dthresh2 : List ℚ) :
    Ieee.mexCore fl pX pY nx ny D dthresh2 = mexCore pX pY nx ny D dthresh2 := by
  have hMM : (0 : ℤ) ≤ (D : ℤ) * ((M : ℤ) * (M : ℤ)) := by positivity
  have hq : ∀ interdist, Ieee.queryBody fl pX pY nx ny D interdist dthresh2 =
      queryBody pX pY nx ny D interdist dthresh2 := by
    intro interdist
    funext yj o
    unfold Ieee.queryBody queryBody
    rw [ieee_scanQuery_small fl hfl M pX pY hx hy nx ny D hD]
  have hpair : Ieee.interdistPair fl pX nx D = interdistPair pX nx D := by
    funext xj xi m
    unfold Ieee.interdistPair interdistPair Ieee.eucldist2 eucldist2
    have := (ieee_eucldist2Loop_small fl hfl M pX pX hx hx nx nx D xj xi 0 (le_refl _)
      (by nlinarith)).1
    rw [Int.cast_zero] at this
    rw [this]
  unfold Ieee.mexCore mexCore Ieee.findClosest findClosest Ieee.buildInterdist buildInterdist
    Ieee.interdistFill interdistFill
  rw [hq, hpair]

theorem ieee_dthresh2Of_small (fl : ℚ → ℚ) (hfl : Ieee.ExactOnInts fl) (M : Nat) (nx : Nat)
    (mThresh : MxArray) (ht : Ieee.SmallInts M mThresh.pr)
    (hM : (M : ℤ) * (M : ℤ) ≤ 9007199254740992) :
    Ieee.dthresh2Of fl nx mThresh = dthresh2Of nx mThresh := by
  have hsq : ∀ i, fl (rd mThresh.pr i * rd mThresh.pr i) = rd mThresh.pr i * rd mThresh.pr i := by
    intro i
    obtain ⟨n, hn, hnb⟩ := smallInts_rd M mThresh.pr ht i
    rw [hn, ← Int.cast_mul]
    apply hfl
    rw [abs_of_nonneg (mul_self_nonneg n)]
    rw [abs_le] at hnb
    nlinarith
  unfold Ieee.dthresh2Of dthresh2Of Ieee.scalarThresh2 scalarThresh2 Ieee.vectorThresh2
    vectorThresh2
  simp only [hsq]

theorem ieee_mexFunction_small (fl : ℚ → ℚ) (hfl : Ieee.ExactOnInts fl) (M : Nat)
    (nlhs nrhs : Nat) (mX mY mThresh : MxArray)
    (hv : Ieee.ValidCall nlhs nrhs mX mY mThresh) (hs : Ieee.SmallCall M mX mY mThresh) :
    Ieee.mexFunction fl nlhs nrhs mX mY mThresh = mexFunction nlhs nrhs mX mY mThresh := by
  obtain ⟨hx, hy, ht, hb⟩ := hs
  have hb' : 16 * ((mX.dims1 : ℤ) + 1) * ((M : ℤ) * (M : ℤ)) ≤ 9007199254740992 := by
    exact_mod_cast hb
  have hMM : (0 : ℤ) ≤ (M : ℤ) * (M : ℤ) := by positivity
  have hDM : (0 : ℤ) ≤ (mX.dims1 : ℤ) * ((M : ℤ) * (M : ℤ)) := by positivity
  rw [ieee_mexFunction_valid fl nlhs nrhs mX mY mThresh hv,
    mexFunction_valid nlhs nrhs mX mY mThresh hv.1,
    ieee_mexCore_small fl hfl M mX.pr mY.pr hx hy _ _ _ (by nlinarith),
    ieee_dthresh2Of_small fl hfl M _ _ ht (by nlinarith)]

theorem isSmallInt_rd (M : Nat) (mem : List ℚ) (h : Ieee.SmallInts M mem) (i : Nat) :
    Ieee.IsSmallInt M (rd mem i) := by
  unfold rd
  by_cases hi : i < mem.length
  · apply h
    rw [List.getD_eq_getElem _ _ hi]
    exact List.getElem_mem hi
  · rw [List.getD_eq_default _ _ (not_lt.mp hi)]
    exact ⟨rfl, Nat.zero_le _⟩

theorem smallCall_singleQuery (M : Nat) (mX mY mThresh : MxArray) (j : Nat)
    (hs : Ieee.SmallCall M mX mY mThresh) : Ieee.SmallCall M mX (singleQuery mY j) mThresh := by
  obtain ⟨hx, hy, ht, hb⟩ := hs
  refine ⟨hx, ?_, ht, hb⟩
  intro v hv
  simp only [singleQuery, List.mem_map] at hv
  obtain ⟨k, _, rfl⟩ := hv
  exact isSmallInt_rd M mY.pr hy _

theorem validCall_nx_le (nlhs nrhs : Nat) (mX mY mThresh : MxArray)
    (hv : Ieee.ValidCall nlhs nrhs mX mY mThresh) : mX.dims0 ≤ intMax := by
  have := hv.2.1
  unfold intMax
  omega

theorem exactOnInts_id : Ieee.ExactOnInts (fun x : ℚ => x) := fun _ _ => rfl

/-! ## An effect of rounding on the warm start -/

/-- Under binary64 rounding the distance reported for a query can depend on the warm-start
offset: for the references `(0.1, 0.7)`, `(0.5, 0.9)`, the queries `(0.5, 0.9)`, `(0.3, 0.8)` and
the threshold `1`, the second query is reported at the squared distance
`3602879701896397 / 2^56` in sequence and at `7205759403792795 / 2^57` alone. -/
theorem warm_start_changes_distance_under_rounding :
    Ieee.mexFunction Ieee.roundDouble 2 3
        ⟨2, 2, true, false, [Ieee.double01, 1 / 2, Ieee.double07, Ieee.double09]⟩
        ⟨2, 2, true, false, [1 / 2, Ieee.double03, Ieee.double09, Ieee.double08]⟩
        ⟨1, 1, true, false, [1]⟩ =
        MexResult.ok [Val.num 2, Val.num 2]
          [Val.sqrt 0, Val.sqrt (3602879701896397 / 2 ^ 56)] ∧
      Ieee.mexFunction Ieee.roundDouble 2 3
        ⟨2, 2, true, false, [Ieee.double01, 1 / 2, Ieee.double07, Ieee.double09]⟩
        (singleQuery ⟨2, 2, true, false, [1 / 2, Ieee.double03, Ieee.double09, Ieee.double08]⟩ 1)
        ⟨1, 1, true, false, [1]⟩ =
        MexResult.ok [Val.num 1] [Val.sqrt (7205759403792795 / 2 ^ 57)] :=
  ⟨by decide!, by decide!⟩

/-! ## Claims -/

/-- C1 (failing input): with references `0` and `1`, the query `50000` and the threshold
vector `[100000, 100000]`, both references are eligible (squared distances `2500000000` and
`2499900001`, squared thresholds `10000000000`), yet the entry point reports "no match",
because `bestdist2` starts at `2147483647` rather than at `+infinity`. -/
theorem eligible_reference_beyond_int_max_missed :
    mexFunction 2 3 ⟨2, 1, true, false, [0, 1]⟩ ⟨1, 1, true, false, [50000]⟩
        ⟨2, 1, true, false, [100000, 100000]⟩ = MexResult.ok [Val.nan] [Val.nan] ∧
      fullDist2 [0, 1] 0 [50000] 0 1 2 1 = 2500000000 ∧
      fullDist2 [0, 1] 1 [50000] 0 1 2 1 = 2499900001 ∧
      thresh2Of ⟨2, 1, true, false, [100000, 100000]⟩ 0 = 10000000000 ∧
      thresh2Of ⟨2, 1, true, false, [100000, 100000]⟩ 1 = 10000000000 := by
  refine ⟨?_, ?_, ?_, ?_, ?_⟩
  · simp [mexFunction, mxGetNumberOfElements, mexCore, findClosest, forLoopM, queryBody,
      scanQuery, scanBody, bestInit, intMax, eucldist2Bound, eucldist2BoundLoop,
      vectorThresh2, forLoop, rd]
    norm_num
  · norm_num [fullDist2, rd, Finset.sum_range_succ]
  · norm_num [fullDist2, rd, Finset.sum_range_succ]
  · norm_num [thresh2Of, mxGetNumberOfElements, rd]
  · norm_num [thresh2Of, mxGetNumberOfElements, rd]

/-- C3 (pruning soundness): when `interdist` holds the true pairwise squared distances of
the reference points, the per-query scan with the pruning test ends, for every thresholds
vector, query and starting offset, with the same `(bestxj, bestdist2)` as the same scan
over the same circular order with the pruning test removed. -/
theorem pruning_sound (pX pY : List ℚ) (nx ny D : Nat) (interdist : List (List ℚ))
    (dthresh2 : List ℚ) (offset yj : Nat)
    (hcache : ∀ i j, i < nx → j < nx →
      getMat interdist i j = ∑ k in Finset.range D, (rd pX (i + k * nx) - rd pX (j + k * nx)) ^ 2) :
    ∃ b, scanQuery pX pY nx ny D interdist dthresh2 offset yj = some b ∧
      scanQueryNoPrune pX pY nx ny D dthresh2 offset yj = some b :=
  ⟨exactScan pX pY nx ny D dthresh2 offset yj,
    scanQuery_eq_exactScan pX pY nx ny D interdist dthresh2 offset yj hcache,
    scanQueryNoPrune_eq_exactScan pX pY nx ny D dthresh2 offset yj⟩

theorem pruning_sound_witness :
    (∀ i j, i < 3 → j < 3 →
      getMat (buildInterdist [0, 1, 10] 3 1) i j =
        ∑ k in Finset.range 1, (rd [0, 1, 10] (i + k * 3) - rd [0, 1, 10] (j + k * 3)) ^ 2) ∧
      ∃ b, scanQuery [0, 1, 10] [0] 3 1 1 (buildInterdist [0, 1, 10] 3 1)
          [10000, 10000, 10000] 0 0 = some b ∧
        scanQueryNoPrune [0, 1, 10] [0] 3 1 1 [10000, 10000, 10000] 0 0 = some b :=
  ⟨(buildInterdist_spec [0, 1, 10] 3 1).2,
    pruning_sound [0, 1, 10] [0] 3 1 1 (buildInterdist [0, 1, 10] 3 1) [10000, 10000, 10000] 0 0
      (buildInterdist_spec [0, 1, 10] 3 1).2⟩

/-- C4 (as amended): in double arithmetic on finite values with a monotone rounding, for a
valid call and every query `j`, either both outputs hold the absent marker, or the query is
reported as matched to some reference `i < nx` and the distance cell is `sqrt d`, where `d`
is the squared distance the code's full accumulation yields for reference `i` (each
operation rounded) and `d` is at most the stored squared threshold of reference `i`, the
rounded product `fl (t_i * t_i)`. -/
theorem stored_square_within_stored_threshold (fl : ℚ → ℚ) (hfl : Ieee.IsRounding fl)
    (nlhs nrhs : Nat) (mX mY mThresh : MxArray)
    (hv : Ieee.ValidCall nlhs nrhs mX mY mThresh) (j : Nat) (hj : j < mY.dims0) :
    ∃ plhs0 plhs1, Ieee.mexFunction fl nlhs nrhs mX mY mThresh = MexResult.ok plhs0 plhs1 ∧
      ((plhs0.getD j Val.nan = Val.nan ∧ plhs1.getD j Val.nan = Val.nan) ∨
        ∃ (i : Nat) (d : ℚ), i < mX.dims0 ∧ plhs0.getD j Val.nan = Val.num ((i : ℚ) + 1) ∧
          plhs1.getD j Val.nan = Val.sqrt d ∧
          d = Ieee.eucldist2 fl mX.pr i mY.pr j mX.dims1 mX.dims0 mY.dims0 ∧
          d ≤ fl (threshOf mThresh i * threshOf mThresh i)) := by
  rw [ieee_mexFunction_valid fl nlhs nrhs mX mY mThresh hv]
  obtain ⟨p0, p1, hok, _, _, hcells⟩ := ieee_mexCore_cells fl mX.pr mY.pr mX.dims0 mY.dims0
    mX.dims1 (Ieee.dthresh2Of fl mX.dims0 mThresh)
  refine ⟨p0, p1, hok, ?_⟩
  obtain ⟨off, b, _, hset, h0, h1⟩ := hcells j hj
  rw [h0, h1]
  by_cases hb : b.bestxj < intMax
  · obtain ⟨q1, q2, q3, _⟩ := ieee_settled_full fl hfl _ _ _ _ _ _ _ b hset hb
    refine Or.inr ⟨b.bestxj, b.bestdist2, q1, by simp [idxCell, hb], by simp [distCell, hb],
      q3, ?_⟩
    rw [← ieee_dthresh2Of_spec fl mX.dims0 mThresh _ q1]
    exact q2
  · exact Or.inl ⟨by simp [idxCell, hb], by simp [distCell, hb]⟩

theorem stored_square_within_stored_threshold_witness :
    Ieee.IsRounding Ieee.roundDouble ∧
      Ieee.ValidCall 2 3 ⟨1, 1, true, false, [0]⟩ ⟨1, 1, true, false, [7 / 2 ^ 539]⟩
        ⟨1, 1, true, false, [27 / 2 ^ 541]⟩ ∧
      0 < 1 ∧
      ∃ plhs0 plhs1,
        Ieee.mexFunction Ieee.roundDouble 2 3 ⟨1, 1, true, false, [0]⟩
            ⟨1, 1, true, false, [7 / 2 ^ 539]⟩ ⟨1, 1, true, false, [27 / 2 ^ 541]⟩ =
          MexResult.ok plhs0 plhs1 ∧
        ((plhs0.getD 0 Val.nan = Val.nan ∧ plhs1.getD 0 Val.nan = Val.nan) ∨
          ∃ (i : Nat) (d : ℚ), i < 1 ∧ plhs0.getD 0 Val.nan = Val.num ((i : ℚ) + 1) ∧
            plhs1.getD 0 Val.nan = Val.sqrt d ∧
            d = Ieee.eucldist2 Ieee.roundDouble [0] i [7 / 2 ^ 539] 0 1 1 1 ∧
            d ≤ Ieee.roundDouble (threshOf ⟨1, 1, true, false, [27 / 2 ^ 541]⟩ i *
              threshOf ⟨1, 1, true, false, [27 / 2 ^ 541]⟩ i)) :=
  ⟨roundDouble_isRounding, by decide, by decide,
    stored_square_within_stored_threshold Ieee.roundDouble roundDouble_isRounding 2 3
      ⟨1, 1, true, false, [0]⟩ ⟨1, 1, true, false, [7 / 2 ^ 539]⟩
      ⟨1, 1, true, false, [27 / 2 ^ 541]⟩ (by decide) 0 (by decide)⟩

/-- C4 (counterexample): in binary64 arithmetic, for the reference `0`, the query
`7·2^-539` and the threshold `t = 27·2^-541` (which is smaller than the query's distance),
both squares round to `3·2^-1074`; the query is reported as matched with the stored
squared distance `3·2^-1074`, which exceeds `t²`, so the reported distance exceeds `t`. -/
theorem reported_distance_exceeds_threshold :
    Ieee.mexFunction Ieee.roundDouble 2 3 ⟨1, 1, true, false, [0]⟩
        ⟨1, 1, true, false, [7 / 2 ^ 539]⟩ ⟨1, 1, true, false, [27 / 2 ^ 541]⟩ =
        MexResult.ok [Val.num 1] [Val.sqrt (3 / 2 ^ 1074)] ∧
      threshOf ⟨1, 1, true, false, [27 / 2 ^ 541]⟩ 0 *
          threshOf ⟨1, 1, true, false, [27 / 2 ^ 541]⟩ 0 < 3 / 2 ^ 1074 ∧
      0 ≤ threshOf ⟨1, 1, true, false, [27 / 2 ^ 541]⟩ 0 ∧
      threshOf ⟨1, 1, true, false, [27 / 2 ^ 541]⟩ 0 < 7 / 2 ^ 539 ∧
      (∀ v ∈ [(0 : ℚ), 7 / 2 ^ 539, 27 / 2 ^ 541], Ieee.IsDouble v) :=
  ⟨by decide!, by decide!, by decide!, by decide!, by decide!⟩

/-- C5 (as amended): in double arithmetic on finite values with a monotone rounding, if
every reference point's stored squared threshold is strictly below the squared distance that
the code's own full accumulation yields for it (each operation rounded), the query step
writes the absent marker to both outputs and leaves the cursor unchanged, whatever the
incoming offset and the cache. -/
theorem no_match_when_computed_beyond_threshold (fl : ℚ → ℚ) (hfl : Ieee.IsRounding fl)
    (pX pY : List ℚ) (nx ny D : Nat) (interdist : List (List ℚ)) (dthresh2 : List ℚ)
    (yj : Nat) (o : Out)
    (h : ∀ xj, xj < nx → rd dthresh2 xj < Ieee.eucldist2 fl pX xj pY yj D nx ny) :
    Ieee.queryBody fl pX pY nx ny D interdist dthresh2 yj o =
      some ⟨o.offset, o.minDists.set yj Val.nan, o.minIdxs.set yj Val.nan⟩ := by
  unfold Ieee.queryBody
  rw [ieee_scanQuery_none_eligible fl hfl pX pY nx ny D interdist dthresh2 o.offset yj h]
  simp [bestInit]

theorem no_match_when_computed_beyond_threshold_witness :
    Ieee.IsRounding Ieee.roundDouble ∧
      (∀ xj, xj < 1 → rd [1] xj < Ieee.eucldist2 Ieee.roundDouble [0, 0] xj [5, 0] 0 2 1 1) ∧
      Ieee.queryBody Ieee.roundDouble [0, 0] [5, 0] 1 1 2 [[0]] [1] 0
          ⟨0, [Val.num 0], [Val.num 0]⟩ =
        some ⟨(⟨0, [Val.num 0], [Val.num 0]⟩ : Out).offset,
          (⟨0, [Val.num 0], [Val.num 0]⟩ : Out).minDists.set 0 Val.nan,
          (⟨0, [Val.num 0], [Val.num 0]⟩ : Out).minIdxs.set 0 Val.nan⟩ :=
  have h : ∀ xj, xj < 1 →
      rd [1] xj < Ieee.eucldist2 Ieee.roundDouble [0, 0] xj [5, 0] 0 2 1 1 := by
    intro xj hxj
    have e : xj = 0 := by omega
    subst e
    decide!
  ⟨roundDouble_isRounding, h,
    no_match_when_computed_beyond_threshold Ieee.roundDouble roundDouble_isRounding [0, 0]
      [5, 0] 1 1 2 [[0]] [1] 0 ⟨0, [Val.num 0], [Val.num 0]⟩ h⟩

/-- C5 (counterexample): in binary64 arithmetic, for the reference `(0,0)`, the query
`(1, 2^-30)` and the threshold `1`, the squared threshold `1` is strictly below the true
squared distance `1 + 2^-60`, yet the sum rounds to `1` and the query is reported as
matched. -/
theorem rounded_sum_matches_beyond_threshold :
    (∀ xj, xj < 1 →
      threshOf ⟨1, 1, true, false, [1]⟩ xj * threshOf ⟨1, 1, true, false, [1]⟩ xj <
        ∑ k in Finset.range 2, (rd [0, 0] (xj + k * 1) - rd [1, 1 / 2 ^ 30] (0 + k * 1)) ^ 2) ∧
      Ieee.mexFunction Ieee.roundDouble 2 3 ⟨1, 2, true, false, [0, 0]⟩
        ⟨1, 2, true, false, [1, 1 / 2 ^ 30]⟩ ⟨1, 1, true, false, [1]⟩ =
        MexResult.ok [Val.num 1] [Val.sqrt 1] ∧
      (∀ v ∈ [(0 : ℚ), 1, 1 / 2 ^ 30], Ieee.IsDouble v) := by
  refine ⟨fun xj hxj => ?_, by decide!, by decide!⟩
  have e : xj = 0 := by omega
  subst e
  norm_num [threshOf, mxGetNumberOfElements, rd, Finset.sum_range_succ]

/-- C8 (cache symmetry): in the cache built by the entry point, `interdist[i][j]` equals
`interdist[j][i]` and `interdist[i][i]` is `0`, for all `i, j < nx`. -/
theorem interdist_symmetric_zero_diagonal (pX : List ℚ) (nx D i j : Nat)
    (hi : i < nx) (hj : j < nx) :
    getMat (buildInterdist pX nx D) i j = getMat (buildInterdist pX nx D) j i ∧
      getMat (buildInterdist pX nx D) i i = 0 := by
  have h := (buildInterdist_spec pX nx D).2
  rw [h i j hi hj, h j i hj hi, h i i hi hi, fullDist2_self]
  exact ⟨fullDist2_symm pX i j D nx, rfl⟩

theorem interdist_symmetric_zero_diagonal_witness :
    0 < 2 ∧ 1 < 2 ∧
      (getMat (buildInterdist [0, 3, 1, 5] 2 2) 0 1 = getMat (buildInterdist [0, 3, 1, 5] 2 2) 1 0 ∧
        getMat (buildInterdist [0, 3, 1, 5] 2 2) 0 0 = 0) :=
  ⟨by decide, by decide,
    interdist_symmetric_zero_diagonal [0, 3, 1, 5] 2 2 0 1 (by decide) (by decide)⟩

/-- C10 (as amended): when `nx = 0` and the call passes the entry checks with the
dimensions of `X` and `Y` below `2^31` (so that the `(int)` conversions keep them), the
entry point returns normally with exactly `ny` cells in each output, all of them the
absent marker; the body of the candidate loop, whose `% nx` would trap at `nx = 0`, is
never run. -/
theorem empty_reference_set_int (fl : ℚ → ℚ) (nlhs nrhs : Nat) (mX mY mThresh : MxArray)
    (hv : Ieee.ValidCall nlhs nrhs mX mY mThresh) (hnx : mX.dims0 = 0) :
    Ieee.mexFunction fl nlhs nrhs mX mY mThresh =
        MexResult.ok (List.replicate mY.dims0 Val.nan) (List.replicate mY.dims0 Val.nan) ∧
      ∀ interdist dthresh2 offset yj xj2 s,
        Ieee.scanBody fl mX.pr mY.pr mX.dims0 mY.dims0 mX.dims1 interdist dthresh2 offset yj
          xj2 s = none := by
  refine ⟨?_, fun interdist dthresh2 offset yj xj2 s => by simp [Ieee.scanBody, hnx]⟩
  rw [ieee_mexFunction_valid fl nlhs nrhs mX mY mThresh hv]
  obtain ⟨p0, p1, hok, hl0, hl1, hcells⟩ := ieee_mexCore_cells fl mX.pr mY.pr mX.dims0
    mY.dims0 mX.dims1 (Ieee.dthresh2Of fl mX.dims0 mThresh)
  rw [hok]
  have hb : ∀ j, j < mY.dims0 →
      p0.getD j Val.nan = Val.nan ∧ p1.getD j Val.nan = Val.nan := by
    intro j hj
    obtain ⟨off, b, hscan, _, h0, h1⟩ := hcells j hj
    rw [hnx] at hscan
    have e : b = bestInit := by
      simp only [Ieee.scanQuery, forLoopM, Option.some.injEq] at hscan
      exact hscan.symm
    rw [h0, h1, e]
    simp [idxCell, distCell, bestInit]
  rw [eq_replicate_of_getD p0 mY.dims0 Val.nan Val.nan hl0 (fun j hj => (hb j hj).1),
    eq_replicate_of_getD p1 mY.dims0 Val.nan Val.nan hl1 (fun j hj => (hb j hj).2)]

theorem empty_reference_set_int_witness :
    Ieee.ValidCall 2 3 ⟨0, 2, true, false, []⟩ ⟨3, 2, true, false, [1, 2, 3, 4, 5, 6]⟩
        ⟨1, 1, true, false, [1]⟩ ∧
      (0 : Nat) = 0 ∧
      (Ieee.mexFunction Ieee.roundDouble 2 3 ⟨0, 2, true, false, []⟩
          ⟨3, 2, true, false, [1, 2, 3, 4, 5, 6]⟩ ⟨1, 1, true, false, [1]⟩ =
          MexResult.ok (List.replicate 3 Val.nan) (List.replicate 3 Val.nan) ∧
        ∀ interdist dthresh2 offset yj xj2 s,
          Ieee.scanBody Ieee.roundDouble [] [1, 2, 3, 4, 5, 6] 0 3 2 interdist dthresh2 offset
            yj xj2 s = none) :=
  ⟨by decide, rfl,
    empty_reference_set_int Ieee.roundDouble 2 3 ⟨0, 2, true, false, []⟩
      ⟨3, 2, true, false, [1, 2, 3, 4, 5, 6]⟩ ⟨1, 1, true, false, [1]⟩ (by decide) rfl⟩

/-- C10 (counterexample): for `X` and `Y` both of size `0 x 2^32` (so `nx = 0`, `ny = 0`)
and a scalar threshold, `D = (int)dimX[1]` is `0`, the test `D != dimY[1]` succeeds, and
the call is rejected with "Different number of arguments" instead of producing its (zero)
results. -/
theorem empty_call_with_wide_rows_rejected :
    Ieee.mexFunction Ieee.roundDouble 2 3 ⟨0, 4294967296, true, false, []⟩
        ⟨0, 4294967296, true, false, []⟩ ⟨1, 1, true, false, [1]⟩ =
      MexResult.error "Different number of arguments" := by
  decide!

/-- C11 (as amended): in double arithmetic on finite values with a monotone rounding, for a
valid call in which reference `i` has threshold `0`, if query `j` is reported as matched to
`i`, then the distance cell is `sqrt 0` and every squared coordinate difference, as the code
computes it, is `0` (the coordinates themselves need not be equal: a small difference
squares to a value that rounds to `0`). -/
theorem zero_threshold_computed_zero (fl : ℚ → ℚ) (hfl : Ieee.IsRounding fl)
    (nlhs nrhs : Nat) (mX mY mThresh : MxArray)
    (hv : Ieee.ValidCall nlhs nrhs mX mY mThresh) (i j : Nat) (hj : j < mY.dims0)
    (hzero : threshOf mThresh i = 0) :
    ∃ plhs0 plhs1, Ieee.mexFunction fl nlhs nrhs mX mY mThresh = MexResult.ok plhs0 plhs1 ∧
      (plhs0.getD j Val.nan = Val.num ((i : ℚ) + 1) →
        plhs1.getD j Val.nan = Val.sqrt 0 ∧
          ∀ k, k < mX.dims1 →
            fl (fl (rd mX.pr (i + k * mX.dims0) - rd mY.pr (j + k * mY.dims0)) *
              fl (rd mX.pr (i + k * mX.dims0) - rd mY.pr (j + k * mY.dims0))) = 0) := by
  rw [ieee_mexFunction_valid fl nlhs nrhs mX mY mThresh hv]
  obtain ⟨p0, p1, hok, _, _, hcells⟩ := ieee_mexCore_cells fl mX.pr mY.pr mX.dims0 mY.dims0
    mX.dims1 (Ieee.dthresh2Of fl mX.dims0 mThresh)
  refine ⟨p0, p1, hok, ?_⟩
  obtain ⟨off, b, _, hset, h0, h1⟩ := hcells j hj
  rw [h0, h1]
  intro hidx
  by_cases hb : b.bestxj < intMax
  · obtain ⟨q1, q2, q3, _⟩ := ieee_settled_full fl hfl _ _ _ _ _ _ _ b hset hb
    simp only [idxCell, hb, if_true] at hidx
    have hi := num_succ_inj _ _ hidx
    rw [hi] at q1 q2 q3
    rw [ieee_dthresh2Of_spec fl mX.dims0 mThresh i q1, hzero, mul_zero, hfl.zero] at q2
    have hge : (0 : ℚ) ≤ Ieee.eucldist2 fl mX.pr i mY.pr j mX.dims1 mX.dims0 mY.dims0 :=
      ieee_loop_ge fl hfl _ _ _ _ _ _ _ 0 hfl.zero
    have hfull : Ieee.eucldist2 fl mX.pr i mY.pr j mX.dims1 mX.dims0 mY.dims0 = 0 :=
      le_antisymm (by rw [← q3]; exact q2) hge
    refine ⟨by simp [distCell, hb, q3, hfull], ?_⟩
    exact (ieee_loop_zero fl hfl _ _ _ _ _ _ _ 0 hfl.zero (le_refl _) hfull).2
  · simp [idxCell, hb] at hidx

theorem zero_threshold_computed_zero_witness :
    Ieee.IsRounding Ieee.roundDouble ∧
      Ieee.ValidCall 2 3 ⟨1, 1, true, false, [0]⟩ ⟨1, 1, true, false, [1 / 2 ^ 600]⟩
        ⟨1, 1, true, false, [0]⟩ ∧
      0 < 1 ∧ threshOf ⟨1, 1, true, false, [0]⟩ 0 = 0 ∧
      ∃ plhs0 plhs1,
        Ieee.mexFunction Ieee.roundDouble 2 3 ⟨1, 1, true, false, [0]⟩
            ⟨1, 1, true, false, [1 / 2 ^ 600]⟩ ⟨1, 1, true, false, [0]⟩ =
          MexResult.ok plhs0 plhs1 ∧
        (plhs0.getD 0 Val.nan = Val.num (((0 : Nat) : ℚ) + 1) →
          plhs1.getD 0 Val.nan = Val.sqrt 0 ∧
            ∀ k, k < 1 →
              Ieee.roundDouble (Ieee.roundDouble (rd [0] (0 + k * 1) -
                  rd [1 / 2 ^ 600] (0 + k * 1)) *
                Ieee.roundDouble (rd [0] (0 + k * 1) - rd [1 / 2 ^ 600] (0 + k * 1))) = 0) :=
  ⟨roundDouble_isRounding, by decide, by decide, by decide!,
    zero_threshold_computed_zero Ieee.roundDouble roundDouble_isRounding 2 3
      ⟨1, 1, true, false, [0]⟩ ⟨1, 1, true, false, [1 / 2 ^ 600]⟩ ⟨1, 1, true, false, [0]⟩
      (by decide) 0 0 (by decide) (by decide!)⟩

/-- C11 (counterexample): in binary64 arithmetic, for the reference `0` with threshold `0`
and the query `2^-600`, the squared difference `2^-1200` rounds to `0`; the query is
reported as matched to the reference at distance `sqrt 0` although the two points
differ. -/
theorem zero_threshold_matches_distinct_point :
    Ieee.mexFunction Ieee.roundDouble 2 3 ⟨1, 1, true, false, [0]⟩
        ⟨1, 1, true, false, [1 / 2 ^ 600]⟩ ⟨1, 1, true, false, [0]⟩ =
        MexResult.ok [Val.num 1] [Val.sqrt 0] ∧
      threshOf ⟨1, 1, true, false, [0]⟩ 0 = 0 ∧
      rd [0] (0 + 0 * 1) ≠ rd [1 / 2 ^ 600] (0 + 0 * 1) ∧
      (∀ v ∈ [(0 : ℚ), 1 / 2 ^ 600], Ieee.IsDouble v) :=
  ⟨by decide!, by decide!, by decide!, by decide!⟩

/-- C12 (failing input): for references `0, 10`, the query `9` and the scalar threshold `3`
the entry point returns the index `2` in its first output and the distance `sqrt 1` in its
second output, the reverse of the order `[mindists, minidxs]` of the header comment. -/
theorem first_output_holds_indices :
    mexFunction 2 3 ⟨2, 1, true, false, [0, 10]⟩ ⟨1, 1, true, false, [9]⟩
        ⟨1, 1, true, false, [3]⟩ = MexResult.ok [Val.num 2] [Val.sqrt 1] := by
  simp [mexFunction, mxGetNumberOfElements, getMexScalar, mexCore, findClosest, forLoopM,
    queryBody, scanQuery, scanBody, bestInit, intMax, buildInterdist, interdistFill,
    interdistInit, forLoop, interdistPair, setMat, getMat, eucldist2, eucldist2Loop,
    eucldist2Bound, eucldist2BoundLoop, scalarThresh2, rd]
  norm_num

end MinPdistThresh
